import Mathlib

/-!
# Fixed point math kernel and observer list: shallow embedding and verified properties

The definitions below follow `src/application/components/fpmath/src/fpmath.c`,
`src/application/components/fpmath/inc/fpmath.h` and
`src/application/components/observer/src/Observer.c`.

Machine integers are embedded as unbounded `Nat`/`Int` values with an explicit
reduction after every operation that can leave the machine range:

* `uint32_t` values are naturals, reduced modulo `2^32`;
* `TFp` (`int32_t`) values are integers, reduced to `[-2^31, 2^31)` by `wrap32`;
* `TAngle` (`int16_t`) values are integers, reduced to `[-2^15, 2^15)` by `wrap16`;
* `>>` on a signed value is the arithmetic shift of the target compiler (`Int.shiftRight`),
  `/` on signed values truncates toward zero (`Int.tdiv`).

Memory reads outside a table, divisions by zero and the signed division
`INT32_MIN / -1` have no defined result in C; the embedded functions return `none` there.
-/

namespace FpMath

/-! ## Machine integer types -/

/-- Reduction of an integer to the `int32_t` range (two's complement wrap-around). -/
def wrap32 (v : Int) : Int := (v + 2 ^ 31) % 2 ^ 32 - 2 ^ 31

/-- Reduction of an integer to the `int16_t` range (two's complement wrap-around). -/
def wrap16 (v : Int) : Int := (v + 2 ^ 15) % 2 ^ 16 - 2 ^ 15

/-- The value `v` is representable as `int32_t`. -/
def InRange32 (v : Int) : Prop := -2 ^ 31 ≤ v ∧ v < 2 ^ 31

instance (v : Int) : Decidable (InRange32 v) := by unfold InRange32; infer_instance

/-- The division `n / d` of two `int32_t` values, the quotient truncated toward zero. It
has no result for a zero divisor and for `INT32_MIN / -1`, whose quotient `2^31` is not
representable (the division traps). -/
def div32 (n d : Int) : Option Int :=
  if d = 0 then none
  else if n = -2 ^ 31 ∧ d = -1 then none
  else some (wrap32 (n.tdiv d))

/-! ## Data model (`fpmath.h`) -/

/-- Complex number in cartesian format (`TCartNum`). -/
structure TCartNum where
  tRe : Int
  tIm : Int
deriving DecidableEq, Repr

/-- Complex number in polar format (`TPolNum`). -/
structure TPolNum where
  tMag : Int
  siAngle : Int
deriving DecidableEq, Repr

/-- A point of a 2D look-up table (`TPoint`). -/
structure TPoint where
  tXValue : Int
  tYValue : Int
deriving DecidableEq, Repr

/-- Generic 3D look-up table (`TLookUpTable3D`); the three pointers are embedded as the
sequences they point to. -/
structure TLookUpTable3D where
  ptXValues : List Int
  ptYValues : List Int
  ptZValues : List Int
  ulXSize : Nat
  ulYSize : Nat
deriving DecidableEq, Repr

/-! ## Integer square root (`FPM_ulSqrt`) -/

/-- Loop bound `COUNT_16` of `fpmath.c`. -/
def COUNT_16 : Nat := 16

/-- Local variables of `FPM_ulSqrt` that live across loop iterations. -/
structure SqrtState where
  ulRem : Nat
  ulRoot : Nat
  ulRadicand : Nat
deriving DecidableEq, Repr

/-- One pass through the body of the `for` loop of `FPM_ulSqrt`
(all variables are `uint32_t`, every update is reduced modulo `2^32`). -/
def sqrtStep (s : SqrtState) : SqrtState :=
  let ulRoot := (s.ulRoot <<< 1) % 2 ^ 32
  let ulRem := ((s.ulRem <<< 2) % 2 ^ 32 + (s.ulRadicand >>> 30)) % 2 ^ 32
  let ulRadicand := (s.ulRadicand <<< 2) % 2 ^ 32
  let ulRoot := (ulRoot + 1) % 2 ^ 32
  if ulRoot ≤ ulRem then
    { ulRem := (ulRem + 2 ^ 32 - ulRoot) % 2 ^ 32
      ulRoot := (ulRoot + 1) % 2 ^ 32
      ulRadicand := ulRadicand }
  else
    { ulRem := ulRem
      ulRoot := (ulRoot + 2 ^ 32 - 1) % 2 ^ 32
      ulRadicand := ulRadicand }

/-- The state of `FPM_ulSqrt` after `k` loop iterations started in state `s`. -/
def sqrtIter : Nat → SqrtState → SqrtState
  | 0, s => s
  | k + 1, s => sqrtIter k (sqrtStep s)

/-- The state of `FPM_ulSqrt` on entry to the loop. -/
def sqrtInit (ulRadicand : Nat) : SqrtState :=
  { ulRem := 0, ulRoot := 0, ulRadicand := ulRadicand }

/-- Embedding of `uint32_t FPM_ulSqrt(uint32_t ulRadicand)`. -/
def FPM_ulSqrt (ulRadicand : Nat) : Nat :=
  (sqrtIter COUNT_16 (sqrtInit ulRadicand)).ulRoot >>> 1

/-! ## 2D interpolation (`FPM_tInterpolate2D`) -/

/-- The search loop of `FPM_tInterpolate2D`:
`for (ulIdx = 1; ulIdx < (ulLUTSize-1); ulIdx++) if (tXValue <= ptLUT[ulIdx].tXValue) break;`
started at index `ulIdx` with loop bound `ulBound`; the result is the value of `ulIdx`
when the loop is left. The first argument bounds the number of iterations; the loop counter
is a `uint32_t` below `ulBound`, so `2 ^ 32` iterations are never exceeded. -/
def scanLUT (tXValue : Int) (ptLUT : List TPoint) (ulBound : Nat) : Nat → Nat → Option Nat
  | 0, _ => none
  | fuel + 1, ulIdx =>
    if ulIdx < ulBound then
      match ptLUT[ulIdx]? with
      | none => none
      | some p =>
        if tXValue ≤ p.tXValue then some ulIdx
        else scanLUT tXValue ptLUT ulBound fuel ((ulIdx + 1) % 2 ^ 32)
    else some ulIdx

/-- The index `ulIdx` that `FPM_tInterpolate2D` holds after its search loop
(the loop bound is the `uint32_t` value `ulLUTSize - 1`). -/
def selectedIndex (tXValue : Int) (ptLUT : List TPoint) (ulLUTSize : Nat) : Option Nat :=
  scanLUT tXValue ptLUT ((ulLUTSize + 2 ^ 32 - 1) % 2 ^ 32) (2 ^ 32) 1

/-- The arithmetic of `FPM_tInterpolate2D` after the search, on the two points
`p0 = ptLUT[ulIdx-1]` and `p1 = ptLUT[ulIdx]`:
`tResult = tXValue; tResult -= x0; tResult *= (y1 - y0);`
`tResult += or -= (x1 - x0)/2; tResult /= (x1 - x0); tResult += y0`.
The division `tResult /= (x1 - x0)` has no result for a zero divisor and for
`INT32_MIN / -1`. -/
def interpolateSegment (tXValue : Int) (p0 p1 : TPoint) : Option Int :=
  let tResult := tXValue
  let tResult := wrap32 (tResult - p0.tXValue)
  let tResult := wrap32 (tResult * wrap32 (p1.tYValue - p0.tYValue))
  let tResult :=
    if tResult ≥ 0 then wrap32 (tResult + (wrap32 (p1.tXValue - p0.tXValue)).tdiv 2)
    else wrap32 (tResult - (wrap32 (p1.tXValue - p0.tXValue)).tdiv 2)
  (div32 tResult (wrap32 (p1.tXValue - p0.tXValue))).map fun tResult =>
    wrap32 (tResult + p0.tYValue)

/-- Embedding of `TFp FPM_tInterpolate2D(TFp tXValue, TPoint* ptLUT, uint32_t ulLUTSize)`. -/
def FPM_tInterpolate2D (tXValue : Int) (ptLUT : List TPoint) (ulLUTSize : Nat) : Option Int :=
  (selectedIndex tXValue ptLUT ulLUTSize).bind fun ulIdx =>
    (ptLUT[(ulIdx + 2 ^ 32 - 1) % 2 ^ 32]?).bind fun p0 =>
      (ptLUT[ulIdx]?).bind fun p1 =>
        interpolateSegment tXValue p0 p1

/-! ## 3D interpolation (`FPM_tInterpolate3D`) -/

/-- One of the two `do { ... } while(1)` search loops of `FPM_tInterpolate3D`. The pointer
`ptX2` (resp. `ptY2`) is embedded as the index `i2` into the axis vector and `ptZX2Y2` as
the index `iZ` into the z grid; `stride` is what the loop adds to `ptZX2Y2` per step
(`1` in the x loop, `ulXSize` in the y loop). The loop is left when
`ptX2 >= ptXValues + ulXSize - 1` or the query is `<= *ptX2`. The first argument bounds
the number of iterations. -/
def scanAxis (tValue : Int) (ptValues : List Int) (ulSize : Nat) (stride : Nat) :
    Nat → Nat → Nat → Option (Nat × Nat)
  | 0, _, _ => none
  | fuel + 1, i2, iZ =>
    if (ulSize : Int) - 1 ≤ (i2 : Int) then some (i2, iZ)
    else
      match ptValues[i2]? with
      | none => none
      | some v2 =>
        if tValue ≤ v2 then some (i2, iZ)
        else scanAxis tValue ptValues ulSize stride fuel (i2 + 1) (iZ + stride)

/-- The arithmetic of `FPM_tInterpolate3D` after the two searches, on the values read
through the pointers: `x1 = *ptX1`, `x2 = *ptX2`, `y1 = *ptY1`, `y2 = *ptY2` and the four
grid corners `zx1y1 = *ptZX1Y1`, `zx2y1 = *ptZX2Y1`, `zx1y2 = *ptZX1Y2`, `zx2y2 = *ptZX2Y2`.
Each of the three divisions (`tZ1 /= (*ptX2 - *ptX1)`, `tZ2 /= (*ptX2 - *ptX1)`,
`tResult /= (*ptY2 - *ptY1)`, in this order) has no result for a zero divisor and for
`INT32_MIN / -1`. -/
def interpolateCorners (tXValue tYValue x1 x2 y1 y2 zx1y1 zx2y1 zx1y2 zx2y2 : Int) :
    Option Int :=
  let tZ1 := wrap32 (tXValue - x1)
  let tZ1 := wrap32 (tZ1 * wrap32 (zx2y1 - zx1y1))
  let tZ1 :=
    if tZ1 ≥ 0 then wrap32 (tZ1 + (wrap32 (x2 - x1)).tdiv 2)
    else wrap32 (tZ1 - (wrap32 (x2 - x1)).tdiv 2)
  (div32 tZ1 (wrap32 (x2 - x1))).bind fun tZ1 =>
  let tZ1 := wrap32 (tZ1 + zx1y1)
  let tZ2 := wrap32 (tXValue - x1)
  let tZ2 := wrap32 (tZ2 * wrap32 (zx2y2 - zx1y2))
  let tZ2 :=
    if tZ2 ≥ 0 then wrap32 (tZ2 + (wrap32 (x2 - x1)).tdiv 2)
    else wrap32 (tZ2 - (wrap32 (x2 - x1)).tdiv 2)
  (div32 tZ2 (wrap32 (x2 - x1))).bind fun tZ2 =>
  let tZ2 := wrap32 (tZ2 + zx1y2)
  let tResult := wrap32 (tYValue - y1)
  let tResult := wrap32 (tResult * wrap32 (tZ2 - tZ1))
  let tResult :=
    if tResult ≥ 0 then wrap32 (tResult + (wrap32 (y2 - y1)).tdiv 2)
    else wrap32 (tResult - (wrap32 (y2 - y1)).tdiv 2)
  (div32 tResult (wrap32 (y2 - y1))).map fun tResult =>
    wrap32 (tResult + tZ1)

/-- Embedding of `TFp FPM_tInterpolate3D(TPoint* ptInputVal, TLookUpTable3D* ptLUT)`.
The x search starts with `ptX2 = ptXValues + 1` and `ptZX2Y2 = ptZValues + 1 + ulXSize`,
the y search continues with the same `ptZX2Y2`; then `ptX1 = ptX2 - 1`, `ptY1 = ptY2 - 1`,
`ptZX1Y2 = ptZX2Y2 - 1`, `ptZX2Y1 = ptZX2Y2 - ulXSize` and `ptZX1Y1 = ptZX2Y1 - 1`. -/
def FPM_tInterpolate3D (ptInputVal : TPoint) (ptLUT : TLookUpTable3D) : Option Int :=
  (scanAxis ptInputVal.tXValue ptLUT.ptXValues ptLUT.ulXSize 1 (2 ^ 32) 1
      (1 + ptLUT.ulXSize)).bind fun sX =>
  (scanAxis ptInputVal.tYValue ptLUT.ptYValues ptLUT.ulYSize ptLUT.ulXSize (2 ^ 32) 1
      sX.2).bind fun sY =>
  (ptLUT.ptXValues[sX.1 - 1]?).bind fun x1 =>
  (ptLUT.ptXValues[sX.1]?).bind fun x2 =>
  (ptLUT.ptYValues[sY.1 - 1]?).bind fun y1 =>
  (ptLUT.ptYValues[sY.1]?).bind fun y2 =>
  (ptLUT.ptZValues[sY.2 - ptLUT.ulXSize - 1]?).bind fun zx1y1 =>
  (ptLUT.ptZValues[sY.2 - ptLUT.ulXSize]?).bind fun zx2y1 =>
  (ptLUT.ptZValues[sY.2 - 1]?).bind fun zx1y2 =>
  (ptLUT.ptZValues[sY.2]?).bind fun zx2y2 =>
    interpolateCorners ptInputVal.tXValue ptInputVal.tYValue x1 x2 y1 y2
      zx1y1 zx2y1 zx1y2 zx2y2

/-! ## CORDIC cartesian to polar conversion (`FPM_vCart2Pol`) -/

/-- Number of CORDIC iterations (`FPM_CORDIC_ITERATIONS`). -/
def FPM_CORDIC_ITERATIONS : Nat := 14

/-- The CORDIC scale factor `FPM_CORDIC_SCALE_FACTOR_Q16 = Q16(0.607253)`, that is
`(TFp)(0.607253*65536.0)`: the product is `39796.93...`, truncated to `39796`. -/
def FPM_CORDIC_SCALE_FACTOR_Q16 : Int := 39796

/-- The angle constant `FPM_PI_HALF = ((TAngle)16384)`. -/
def FPM_PI_HALF : Int := 16384

/-- The CORDIC angle table `FPM_tCordicAngleTabQ15`. -/
def FPM_tCordicAngleTabQ15 : List Int :=
  [8192, 4836, 2555, 1297, 651, 326, 163, 81, 41, 20, 10, 5, 3, 1, 1, 0]

/-- Variables of `FPM_vCart2Pol` that live across loop iterations: the working vector
`tCartNum` and the accumulated angle `tPN->siAngle`. -/
structure CordicState where
  tCartNum : TCartNum
  siAngle : Int
deriving DecidableEq, Repr

/-- The quadrant selection at the start of `FPM_vCart2Pol`: the working vector `tCartNum`
and the angle offset `tAngOffset`. -/
def preRotate (tCN : TCartNum) : TCartNum × Int :=
  if tCN.tRe < 0 then
    if tCN.tIm < 0 then
      ({ tRe := wrap32 (-tCN.tIm), tIm := tCN.tRe }, wrap16 (-FPM_PI_HALF))
    else
      ({ tRe := tCN.tIm, tIm := wrap32 (-tCN.tRe) }, wrap16 FPM_PI_HALF)
  else
    (tCN, 0)

/-- One pass through the body of the `for` loop of `FPM_vCart2Pol` with loop counter
`slIdx`. The table is read at `slIdx < 14`, inside its 16 entries. -/
def cordicStep (slIdx : Nat) (s : CordicState) : CordicState :=
  if s.tCartNum.tIm < 0 then
    { tCartNum :=
        { tRe := wrap32 (s.tCartNum.tRe - (s.tCartNum.tIm >>> slIdx))
          tIm := wrap32 (s.tCartNum.tIm + (s.tCartNum.tRe >>> slIdx)) }
      siAngle := wrap16 (s.siAngle - FPM_tCordicAngleTabQ15.getD slIdx 0) }
  else
    { tCartNum :=
        { tRe := wrap32 (s.tCartNum.tRe + (s.tCartNum.tIm >>> slIdx))
          tIm := wrap32 (s.tCartNum.tIm - (s.tCartNum.tRe >>> slIdx)) }
      siAngle := wrap16 (s.siAngle + FPM_tCordicAngleTabQ15.getD slIdx 0) }

/-- The state after `n` further loop iterations, the next one with counter `slIdx`. -/
def cordicLoop : Nat → Nat → CordicState → CordicState
  | 0, _, s => s
  | n + 1, slIdx, s => cordicLoop n (slIdx + 1) (cordicStep slIdx s)

/-- Embedding of `void FPM_vCart2Pol(TCartNum* tCN, TPolNum* tPN)`: the second argument
is the content of `*tPN` on entry, the result its content on return. -/
def FPM_vCart2Pol (tCN : TCartNum) (tPN : TPolNum) : TPolNum :=
  let pre := preRotate tCN
  let tPN : TPolNum := { tPN with siAngle := 0 }
  let s := cordicLoop FPM_CORDIC_ITERATIONS 0 { tCartNum := pre.1, siAngle := tPN.siAngle }
  { tMag := (wrap32 (FPM_CORDIC_SCALE_FACTOR_Q16 * s.tCartNum.tRe)) >>> (16 : Nat)
    siAngle := wrap16 (s.siAngle + pre.2) }

/-! ## Specification vocabulary -/

/-- A strictly ascending sequence of coordinates. -/
def StrictAsc (xs : List Int) : Prop := List.Pairwise (fun a b => a < b) xs

instance (xs : List Int) : Decidable (StrictAsc xs) := by unfold StrictAsc; infer_instance

/-- The segment index of a query `v` in an axis `xs` as the specification words it:
`k` is the first index in `1 .. N-2` whose coordinate is `≥ v`, or `N-1` when there is
none (`N = xs.length`). -/
def IsSegmentIndex (v : Int) (xs : List Int) (k : Nat) : Prop :=
  (1 ≤ k ∧ k + 2 ≤ xs.length ∧ (∃ c, xs[k]? = some c ∧ v ≤ c) ∧
      ∀ i c, 1 ≤ i → i < k → xs[i]? = some c → ¬ v ≤ c) ∨
  (k + 1 = xs.length ∧ ∀ i c, 1 ≤ i → i + 2 ≤ xs.length → xs[i]? = some c → ¬ v ≤ c)

/-- The quotient `p / d` as `FPM_tInterpolate2D` computes it: half the divisor is added to
a non-negative numerator and subtracted from a negative one before the truncating
division. -/
def roundDiv (p d : Int) : Int :=
  if p ≥ 0 then (p + d.tdiv 2).tdiv d else (p - d.tdiv 2).tdiv d

/-- No intermediate value of the interpolation of `x` over the segment `p0`, `p1` leaves
the `int32_t` range: the two differences, their product, the divisor, the numerator after
the rounding adjustment and the final sum. -/
def Fits32Segment (x : Int) (p0 p1 : TPoint) : Prop :=
  InRange32 (x - p0.tXValue) ∧ InRange32 (p1.tYValue - p0.tYValue) ∧
  InRange32 ((x - p0.tXValue) * (p1.tYValue - p0.tYValue)) ∧
  InRange32 (p1.tXValue - p0.tXValue) ∧
  InRange32 (if (x - p0.tXValue) * (p1.tYValue - p0.tYValue) ≥ 0
    then (x - p0.tXValue) * (p1.tYValue - p0.tYValue) + (p1.tXValue - p0.tXValue).tdiv 2
    else (x - p0.tXValue) * (p1.tYValue - p0.tYValue) - (p1.tXValue - p0.tXValue).tdiv 2) ∧
  InRange32 (roundDiv ((x - p0.tXValue) * (p1.tYValue - p0.tYValue))
    (p1.tXValue - p0.tXValue) + p0.tYValue)

instance (x : Int) (p0 p1 : TPoint) : Decidable (Fits32Segment x p0 p1) := by
  unfold Fits32Segment; infer_instance

/-- Row `row` of a 3D table as a 2D table: the points `(X[i], Z[row * ulXSize + i])`. -/
def rowPoints (xs zs : List Int) (ulXSize row : Nat) : List TPoint :=
  List.zipWith TPoint.mk xs (zs.drop (row * ulXSize))

/-- Invariant of the square root loop after `k` iterations on radicand `n`:
with `t` the top `2k` bits of `n`, the root register holds `2 * r` where `r` is the
floor square root of `t`, the remainder register holds `t - r * r`, and the radicand
register holds `n` shifted left by `2k` bits. -/
def SqrtInv (n k : Nat) (s : SqrtState) : Prop :=
  ∃ r : Nat, s.ulRoot = 2 * r ∧ r * r + s.ulRem = n / 4 ^ (16 - k) ∧ s.ulRem ≤ 2 * r ∧
    s.ulRadicand = (n * 4 ^ k) % 2 ^ 32

/-- Bound on the distance, in each component, between the working vector of the loop of
`FPM_vCart2Pol` before the iteration with counter `k` and the exactly rotated and scaled
input: an iteration multiplies the distance by at most `1 + 2^(-k)` and each of its two
right shifts drops less than `1 - 2^(-k)`. -/
def cordicErr : Nat → ℚ
  | 0 => 0
  | k + 1 => (1 + (1 / 2) ^ k) * cordicErr k + (1 - (1 / 2) ^ k)

/-- Additive term of the convergence bound on the exactly rotated input before the
iteration with counter `k`: the componentwise error bound of the iteration before, scaled
by its squared gain. -/
def cordicSlack : Nat → ℚ
  | 0 => 0
  | k + 1 => cordicErr k * (1 + (1 / 4) ^ k)

/-- Invariant of the loop of `FPM_vCart2Pol` before the iteration with counter `k`, for an
input vector of Euclidean norm `n0` and angle `θ` (radians) in the right half plane. The
real part is non-negative and not below `n0`; the accumulated angle is bounded by the sum
of the table entries used so far; and there are a gain `P` (the product of the
`sqrt (1 + 4^(-j))`, `j < k`) and an exactly rotated angle `β` such that each component of
the working vector differs by at most `cordicErr k` from the input rotated by `-β` and
scaled by `P`, the imaginary part `Y` of that exactly rotated vector obeys the convergence
bound `|Y| ≤ 2 * 2^(-k) * X + cordicSlack k` relative to its real part `X` when the norm
of the input is at least `13`, and the accumulated angle differs from `β` (in units of
`π / 32768`) by at most the accumulated rounding error of the table entries. -/
def CordicInv (n0 θ : ℝ) (k : Nat) (s : CordicState) : Prop :=
  0 ≤ s.tCartNum.tRe ∧
  (k = 0 → n0 ≤ (s.tCartNum.tRe : ℝ) + |(s.tCartNum.tIm : ℝ)|) ∧
  (1 ≤ k → n0 ≤ (s.tCartNum.tRe : ℝ)) ∧
  |s.siAngle| ≤ (FPM_tCordicAngleTabQ15.take k).sum ∧
  ∃ P β : ℝ, 0 < P ∧ P ^ 2 = ∏ j in Finset.range k, (1 + (1 / 4 : ℝ) ^ j) ∧
    |(s.tCartNum.tRe : ℝ) - n0 * P * Real.cos (θ - β)| ≤ ((cordicErr k : ℚ) : ℝ) ∧
    |(s.tCartNum.tIm : ℝ) - n0 * P * Real.sin (θ - β)| ≤ ((cordicErr k : ℚ) : ℝ) ∧
    (1 ≤ k → 13 ≤ n0 → |n0 * P * Real.sin (θ - β)|
      ≤ 2 * (1 / 2 : ℝ) ^ k * (n0 * P * Real.cos (θ - β)) + ((cordicSlack k : ℚ) : ℝ)) ∧
    |(s.siAngle : ℝ) - 32768 / Real.pi * β| ≤
      ∑ j in Finset.range k, |((FPM_tCordicAngleTabQ15.getD j 0 : Int) : ℝ)
        - 32768 / Real.pi * Real.arctan ((1 / 2 : ℝ) ^ j)|

/-- The two components that the loop iteration with counter `slIdx` assigns, before their
reduction to `int32_t`, lie in the `int32_t` range. -/
def StepFits32 (slIdx : Nat) (s : CordicState) : Prop :=
  if s.tCartNum.tIm < 0 then
    InRange32 (s.tCartNum.tRe - (s.tCartNum.tIm >>> slIdx)) ∧
    InRange32 (s.tCartNum.tIm + (s.tCartNum.tRe >>> slIdx))
  else
    InRange32 (s.tCartNum.tRe + (s.tCartNum.tIm >>> slIdx)) ∧
    InRange32 (s.tCartNum.tIm - (s.tCartNum.tRe >>> slIdx))

instance (slIdx : Nat) (s : CordicState) : Decidable (StepFits32 slIdx s) := by
  unfold StepFits32; infer_instance

/-- None of the additions and subtractions of the 14 loop iterations of `FPM_vCart2Pol` on
the input `tCN` overflows 32 bits. -/
def CordicLoopFits (tCN : TCartNum) : Prop :=
  ∀ k, k < FPM_CORDIC_ITERATIONS →
    StepFits32 k (cordicLoop k 0 { tCartNum := (preRotate tCN).1, siAngle := 0 })

instance (tCN : TCartNum) : Decidable (CordicLoopFits tCN) := by
  unfold CordicLoopFits; infer_instance

/-- No 32-bit computation of `FPM_vCart2Pol` on the input `tCN` overflows: the negations of
the quadrant selection, the component updates of each of the 14 loop iterations, and the
product of the final real part with the scale factor. -/
def CordicNoOverflow (tCN : TCartNum) : Prop :=
  InRange32 (-tCN.tRe) ∧ InRange32 (-tCN.tIm) ∧
  (∀ k, k < FPM_CORDIC_ITERATIONS →
    StepFits32 k (cordicLoop k 0 { tCartNum := (preRotate tCN).1, siAngle := 0 })) ∧
  InRange32 (FPM_CORDIC_SCALE_FACTOR_Q16 *
    (cordicLoop FPM_CORDIC_ITERATIONS 0
      { tCartNum := (preRotate tCN).1, siAngle := 0 }).tCartNum.tRe)

instance (tCN : TCartNum) : Decidable (CordicNoOverflow tCN) := by
  unfold CordicNoOverflow; infer_instance

/-- No intermediate value of the 3D interpolation of `(x, y)` over the grid cell with the
axis values `x1`, `x2`, `y1`, `y2` and the corner values `zx1y1`, `zx2y1`, `zx1y2`, `zx2y2`
leaves the `int32_t` range: the two interpolations in x direction and the interpolation of
their results in y direction. -/
def Fits32Corners (x y x1 x2 y1 y2 zx1y1 zx2y1 zx1y2 zx2y2 : Int) : Prop :=
  Fits32Segment x ⟨x1, zx1y1⟩ ⟨x2, zx2y1⟩ ∧ Fits32Segment x ⟨x1, zx1y2⟩ ⟨x2, zx2y2⟩ ∧
  Fits32Segment y ⟨y1, zx1y1 + roundDiv ((x - x1) * (zx2y1 - zx1y1)) (x2 - x1)⟩
    ⟨y2, zx1y2 + roundDiv ((x - x1) * (zx2y2 - zx1y2)) (x2 - x1)⟩

instance (x y x1 x2 y1 y2 zx1y1 zx2y1 zx1y2 zx2y2 : Int) :
    Decidable (Fits32Corners x y x1 x2 y1 y2 zx1y1 zx2y1 zx1y2 zx2y2) := by
  unfold Fits32Corners; infer_instance


/-- Bound on the magnitude of the components of the working vector of `FPM_vCart2Pol`
before the iteration with counter `k`, for inputs whose components have magnitude up to
`8192`: an iteration adds to a component at most the other one shifted right by `k` bits,
plus one for the rounding of the shift. -/
def cordicBound : Nat → Int
  | 0 => 8192
  | k + 1 => cordicBound k + cordicBound k / 2 ^ k + 1

/-! ## Fixed-point format layer (`fpmath.h`) -/

/-- Number of fractional bits of the global fixed point format (`FPM_GLOBAL_FP_FORMAT`). -/
def FPM_GLOBAL_FP_FORMAT : Nat := 12

/-- A three phase system value (`TThreePhase`). -/
structure TThreePhase where
  a : Int
  b : Int
  c : Int
deriving DecidableEq, Repr

/-- The cast `(TFp)(e)` of a floating point expression `e`: the fractional part is
discarded (truncation toward zero). The value of `e` is taken as the exact rational value
of the decimal expression; the result is meaningful when it fits `int32_t`. -/
def truncToFp (q : ℚ) : Int := q.num.tdiv q.den

/-- The literal macros that `fpmath.h` defines, `#define Qn(x) ((TFp)(x*m))`, as the pairs
`(n, m)` in the order of the source (`Q28` down to `Q0`). -/
def literalMacros : List (Nat × ℚ) := [
  (28, 268435456.0), (27, 134217728.0), (26, 67108864.0), (25, 33554432.0),
  (24, 16777216.0), (23, 8388608.0), (22, 4194304.0), (21, 2097152.0),
  (20, 1048576.0), (19, 524288.0), (18, 262144.0), (17, 131072.0),
  (16, 65536.0), (15, 32768.0), (14, 16384.0), (13, 8192.0),
  (12, 4096.0), (11, 2048.0), (10, 1024.0), (9, 512.0),
  (8, 256.0), (7, 128.0), (6, 64.0), (5, 32.0),
  (4, 16.0), (3, 8.0), (2, 4.0), (1, 2.0),
  (0, 1.0)]

/-- The family of literal macros `Qn(x)`: `none` when the header defines no macro `Qn`. -/
def Qn (n : Nat) (x : ℚ) : Option Int :=
  (literalMacros.lookup n).map (fun m => truncToFp (x * m))

/-- Macro `Q12(x)`: `((TFp)(x*4096.0))`. -/
def Q12 (x : ℚ) : Int := truncToFp (x * 4096.0)

/-- Macro `Q15(x)`: `((TFp)(x*32768.0))`. -/
def Q15 (x : ℚ) : Int := truncToFp (x * 32768.0)

/-- Macro `Q16(x)`: `((TFp)(x*65536.0))`. -/
def Q16 (x : ℚ) : Int := truncToFp (x * 65536.0)

/-- The chain `#if (FPM_GLOBAL_FP_FORMAT == F) #define FP(x) QF(x) #endif` for
`F = 0 .. 30`, as a function of the configured format: `FP(x)` expands to `QF(x)`, and
there is no `FP` for a format above `30`. -/
def FPfor (F : Nat) (x : ℚ) : Option Int :=
  if F ≤ 30 then Qn F x else none

/-- Macro `FP(x)` in the configured format. -/
def FP (x : ℚ) : Option Int := FPfor FPM_GLOBAL_FP_FORMAT x

/-- Constant `FPM_SQRT3_INV_Q15`, `Q15(0.577350279)`. -/
def FPM_SQRT3_INV_Q15 : Int := Q15 0.577350279

/-- The expression `(TFp)(1UL << k)`; a shift count of `32` or more has no defined
result. -/
def oneShl (k : Nat) : Option Int :=
  if k < 32 then some (wrap32 (((1 <<< k : Nat) % 2 ^ 32 : Nat) : Int)) else none

/-- Macro `FPM_QxtoQy(val,x,y)`:
`((x >= y) ? ((TFp) val / (TFp)(1UL << (x - y))) : ((TFp) val * (TFp)(1UL << (y - x))))`. -/
def FPM_QxtoQy (val : Int) (x y : Nat) : Option Int :=
  if x ≥ y then
    (oneShl (x - y)).map (fun d => (wrap32 val).tdiv d)
  else
    (oneShl (y - x)).map (fun m => wrap32 (wrap32 val * m))

/-- The family of macros `FPM_FpMulQ1 .. FPM_FpMulQ30`:
`FPM_FpMulQn(x,y)` is `((TFp)(((TFp)x*(TFp)y) / (TFp)(1UL << n)))`. -/
def FPM_FpMulQn (n : Nat) (x y : Int) : Int :=
  wrap32 ((wrap32 (wrap32 x * wrap32 y)).tdiv (wrap32 (((1 <<< n : Nat) % 2 ^ 32 : Nat) : Int)))

/-- Macro `FPM_FpMulQ15(x,y)`. -/
def FPM_FpMulQ15 (x y : Int) : Int := FPM_FpMulQn 15 x y

/-- Macro `FPM_FpMul(x,y)`:
`((TFp)(((TFp)x*(TFp)y) / (TFp)(1UL << FPM_GLOBAL_FP_FORMAT)))`. -/
def FPM_FpMul (x y : Int) : Int :=
  wrap32 ((wrap32 (wrap32 x * wrap32 y)).tdiv
    (wrap32 (((1 <<< FPM_GLOBAL_FP_FORMAT : Nat) % 2 ^ 32 : Nat) : Int)))

/-- Macro `FPM_FpDiv(x,y)`:
`((TFp)(((TFp)x * (TFp)(1UL << FPM_GLOBAL_FP_FORMAT))/(TFp)y))`. The division has no
defined result for a zero divisor and for `INT32_MIN / -1`. -/
def FPM_FpDiv (x y : Int) : Option Int :=
  let n := wrap32 (wrap32 x * wrap32 (((1 <<< FPM_GLOBAL_FP_FORMAT : Nat) % 2 ^ 32 : Nat) : Int))
  let d := wrap32 y
  if d = 0 then none
  else if n = -2 ^ 31 ∧ d = -1 then none
  else some (wrap32 (n.tdiv d))

/-- Macro `FPM_FpAbs(x)`: `((((TFp)x) >= 0) ? ((TFp)x) : ((TFp)(-x)))`. -/
def FPM_FpAbs (x : Int) : Int :=
  if wrap32 x ≥ 0 then wrap32 x else wrap32 (-x)

/-! ## Clarke transformation (`FPM_vClarkeTrans`) -/

/-- Embedding of `void FPM_vClarkeTrans(TThreePhase* ptInput, TCartNum* ptOutput)`: the
second argument is the content of `*ptOutput` on entry, the result its content on
return. -/
def FPM_vClarkeTrans (ptInput : TThreePhase) (ptOutput : TCartNum) : TCartNum :=
  let ptOutput : TCartNum := { ptOutput with tRe := ptInput.a }
  let tTemp := wrap32 (ptInput.b * 2)
  let tTemp := wrap32 (tTemp + ptInput.a)
  let tTemp := FPM_FpMulQ15 tTemp FPM_SQRT3_INV_Q15
  { ptOutput with tIm := tTemp }

/-! ## Sine table look-up (`FPM_tSin`, `FPM_tCos`) -/

/-- Sine look-up table `FPM_tSineTabQ15` of `fpmath.c`. -/
def FPM_tSineTabQ15 : List Int := [
  Q15 0.0000000000, Q15 0.0245412285, Q15 0.0490676743, Q15 0.0735645636,
  Q15 0.0980171403, Q15 0.1224106752, Q15 0.1467304745, Q15 0.1709618888,
  Q15 0.1950903220, Q15 0.2191012402, Q15 0.2429801799, Q15 0.2667127575,
  Q15 0.2902846773, Q15 0.3136817404, Q15 0.3368898534, Q15 0.3598950365,
  Q15 0.3826834324, Q15 0.4052413140, Q15 0.4275550934, Q15 0.4496113297,
  Q15 0.4713967368, Q15 0.4928981922, Q15 0.5141027442, Q15 0.5349976199,
  Q15 0.5555702330, Q15 0.5758081914, Q15 0.5956993045, Q15 0.6152315906,
  Q15 0.6343932842, Q15 0.6531728430, Q15 0.6715589548, Q15 0.6895405447,
  Q15 0.7071067812, Q15 0.7242470830, Q15 0.7409511254, Q15 0.7572088465,
  Q15 0.7730104534, Q15 0.7883464276, Q15 0.8032075315, Q15 0.8175848132,
  Q15 0.8314696123, Q15 0.8448535652, Q15 0.8577286100, Q15 0.8700869911,
  Q15 0.8819212643, Q15 0.8932243012, Q15 0.9039892931, Q15 0.9142097557,
  Q15 0.9238795325, Q15 0.9329927988, Q15 0.9415440652, Q15 0.9495281806,
  Q15 0.9569403357, Q15 0.9637760658, Q15 0.9700312532, Q15 0.9757021300,
  Q15 0.9807852804, Q15 0.9852776424, Q15 0.9891765100, Q15 0.9924795346,
  Q15 0.9951847267, Q15 0.9972904567, Q15 0.9987954562, Q15 0.9996988187,
  Q15 1.0000000000, Q15 0.9996988187, Q15 0.9987954562, Q15 0.9972904567,
  Q15 0.9951847267, Q15 0.9924795346, Q15 0.9891765100, Q15 0.9852776424,
  Q15 0.9807852804, Q15 0.9757021300, Q15 0.9700312532, Q15 0.9637760658,
  Q15 0.9569403357, Q15 0.9495281806, Q15 0.9415440652, Q15 0.9329927988,
  Q15 0.9238795325, Q15 0.9142097557, Q15 0.9039892931, Q15 0.8932243012,
  Q15 0.8819212643, Q15 0.8700869911, Q15 0.8577286100, Q15 0.8448535652,
  Q15 0.8314696123, Q15 0.8175848132, Q15 0.8032075315, Q15 0.7883464276,
  Q15 0.7730104534, Q15 0.7572088465, Q15 0.7409511254, Q15 0.7242470830,
  Q15 0.7071067812, Q15 0.6895405447, Q15 0.6715589548, Q15 0.6531728430,
  Q15 0.6343932842, Q15 0.6152315906, Q15 0.5956993045, Q15 0.5758081914,
  Q15 0.5555702330, Q15 0.5349976199, Q15 0.5141027442, Q15 0.4928981922,
  Q15 0.4713967368, Q15 0.4496113297, Q15 0.4275550934, Q15 0.4052413140,
  Q15 0.3826834324, Q15 0.3598950365, Q15 0.3368898534, Q15 0.3136817404,
  Q15 0.2902846773, Q15 0.2667127575, Q15 0.2429801799, Q15 0.2191012402,
  Q15 0.1950903220, Q15 0.1709618888, Q15 0.1467304745, Q15 0.1224106752,
  Q15 0.0980171403, Q15 0.0735645636, Q15 0.0490676743, Q15 0.0245412285,
  Q15 0.0000000000, Q15 (-0.0245412285), Q15 (-0.0490676743), Q15 (-0.0735645636),
  Q15 (-0.0980171403), Q15 (-0.1224106752), Q15 (-0.1467304745), Q15 (-0.1709618888),
  Q15 (-0.1950903220), Q15 (-0.2191012402), Q15 (-0.2429801799), Q15 (-0.2667127575),
  Q15 (-0.2902846773), Q15 (-0.3136817404), Q15 (-0.3368898534), Q15 (-0.3598950365),
  Q15 (-0.3826834324), Q15 (-0.4052413140), Q15 (-0.4275550934), Q15 (-0.4496113297),
  Q15 (-0.4713967368), Q15 (-0.4928981922), Q15 (-0.5141027442), Q15 (-0.5349976199),
  Q15 (-0.5555702330), Q15 (-0.5758081914), Q15 (-0.5956993045), Q15 (-0.6152315906),
  Q15 (-0.6343932842), Q15 (-0.6531728430), Q15 (-0.6715589548), Q15 (-0.6895405447),
  Q15 (-0.7071067812), Q15 (-0.7242470830), Q15 (-0.7409511254), Q15 (-0.7572088465),
  Q15 (-0.7730104534), Q15 (-0.7883464276), Q15 (-0.8032075315), Q15 (-0.8175848132),
  Q15 (-0.8314696123), Q15 (-0.8448535652), Q15 (-0.8577286100), Q15 (-0.8700869911),
  Q15 (-0.8819212643), Q15 (-0.8932243012), Q15 (-0.9039892931), Q15 (-0.9142097557),
  Q15 (-0.9238795325), Q15 (-0.9329927988), Q15 (-0.9415440652), Q15 (-0.9495281806),
  Q15 (-0.9569403357), Q15 (-0.9637760658), Q15 (-0.9700312532), Q15 (-0.9757021300),
  Q15 (-0.9807852804), Q15 (-0.9852776424), Q15 (-0.9891765100), Q15 (-0.9924795346),
  Q15 (-0.9951847267), Q15 (-0.9972904567), Q15 (-0.9987954562), Q15 (-0.9996988187),
  Q15 (-1.0000000000), Q15 (-0.9996988187), Q15 (-0.9987954562), Q15 (-0.9972904567),
  Q15 (-0.9951847267), Q15 (-0.9924795346), Q15 (-0.9891765100), Q15 (-0.9852776424),
  Q15 (-0.9807852804), Q15 (-0.9757021300), Q15 (-0.9700312532), Q15 (-0.9637760658),
  Q15 (-0.9569403357), Q15 (-0.9495281806), Q15 (-0.9415440652), Q15 (-0.9329927988),
  Q15 (-0.9238795325), Q15 (-0.9142097557), Q15 (-0.9039892931), Q15 (-0.8932243012),
  Q15 (-0.8819212643), Q15 (-0.8700869911), Q15 (-0.8577286100), Q15 (-0.8448535652),
  Q15 (-0.8314696123), Q15 (-0.8175848132), Q15 (-0.8032075315), Q15 (-0.7883464276),
  Q15 (-0.7730104534), Q15 (-0.7572088465), Q15 (-0.7409511254), Q15 (-0.7242470830),
  Q15 (-0.7071067812), Q15 (-0.6895405447), Q15 (-0.6715589548), Q15 (-0.6531728430),
  Q15 (-0.6343932842), Q15 (-0.6152315906), Q15 (-0.5956993045), Q15 (-0.5758081914),
  Q15 (-0.5555702330), Q15 (-0.5349976199), Q15 (-0.5141027442), Q15 (-0.4928981922),
  Q15 (-0.4713967368), Q15 (-0.4496113297), Q15 (-0.4275550934), Q15 (-0.4052413140),
  Q15 (-0.3826834324), Q15 (-0.3598950365), Q15 (-0.3368898534), Q15 (-0.3136817404),
  Q15 (-0.2902846773), Q15 (-0.2667127575), Q15 (-0.2429801799), Q15 (-0.2191012402),
  Q15 (-0.1950903220), Q15 (-0.1709618888), Q15 (-0.1467304745), Q15 (-0.1224106752),
  Q15 (-0.0980171403), Q15 (-0.0735645636), Q15 (-0.0490676743), Q15 (-0.0245412285)]

/-- Macro `FPM_SINE_TAB_SIZE`: `(sizeof(FPM_tSineTabQ15)/sizeof(TFp))`. -/
def FPM_SINE_TAB_SIZE : Nat := FPM_tSineTabQ15.length

/-- Number of bits used for the angle argument within the sine table. -/
def FPM_SINE_TAB_ANGLE_BITS : Nat := 8

/-- Mapping of the implemented sine table (`FPM_tSineTab`). -/
def FPM_tSineTab : List Int := FPM_tSineTabQ15

/-- Macro `FPM_tSin(Phi)`:
`(FPM_tSineTab[(uint16_t)Phi >> (16-FPM_SINE_TAB_ANGLE_BITS)])`. -/
def FPM_tSin (Phi : Int) : Option Int :=
  FPM_tSineTab[(Phi % 2 ^ 16).toNat >>> (16 - FPM_SINE_TAB_ANGLE_BITS)]?

/-- Macro `FPM_tCos(Phi)`:
`(FPM_tSineTab[(((uint32_t)Phi + (uint32_t)FPM_PI_HALF) & 0x0000FFFF)
>> (16-FPM_SINE_TAB_ANGLE_BITS)])`. -/
def FPM_tCos (Phi : Int) : Option Int :=
  FPM_tSineTab[((((Phi % 2 ^ 32).toNat + (FPM_PI_HALF % 2 ^ 32).toNat) % 2 ^ 32) &&& 0x0000FFFF)
    >>> (16 - FPM_SINE_TAB_ANGLE_BITS)]?

/-- Macro `FPM_SIN_MAX_Q15`: `Q15(1.0)`, the Q15 maximum value of the sine table. -/
def FPM_SIN_MAX_Q15 : Int := Q15 1.0

/-! ## Observer list (`Observer.c`) -/

/-- Modelled from the spec: the type `Observer_t` is declared in `IObserver.h`, which is not
among the sources; its fields are the ones `Observer.c` and its test access. A pointer to
an observer is an index into the observer memory and `none` is `NULL`; a callback pointer
`Observer_cb_t` is a natural number and `none` is `NULL`. -/
structure Observer_t where
  p_next : Option Nat
  p_prev : Option Nat
  p_cb : Option Nat
deriving DecidableEq, Repr

/-- Modelled from the spec: the type `Subject_t` is declared in `ISubject.h`, which is not
among the sources; its fields are the ones `Observer.c` and its test access. -/
structure Subject_t where
  pHead : Option Nat
  cnt : Nat
deriving DecidableEq, Repr

/-- The memory the functions of `Observer.c` work on: the subject `*pSubject`, the
observer objects (`observers[p]` is the object the pointer `p` refers to; a pointer outside
the list refers to no object), and the log of the callbacks invoked so far, oldest first. -/
structure ObsState where
  subject : Subject_t
  observers : List Observer_t
  calls : List Nat
deriving DecidableEq, Repr

/-- The store `p->p_next = v`; `none` when `p` refers to no object. -/
def setNext (mem : List Observer_t) (p : Nat) (v : Option Nat) : Option (List Observer_t) :=
  (mem[p]?).map fun o => mem.set p { o with p_next := v }

/-- The store `p->p_prev = v`; `none` when `p` refers to no object. -/
def setPrev (mem : List Observer_t) (p : Nat) (v : Option Nat) : Option (List Observer_t) :=
  (mem[p]?).map fun o => mem.set p { o with p_prev := v }

/-- The store `p->p_cb = v`; `none` when `p` refers to no object. -/
def setCb (mem : List Observer_t) (p : Nat) (v : Option Nat) : Option (List Observer_t) :=
  (mem[p]?).map fun o => mem.set p { o with p_cb := v }

/-- Embedding of `void OBS_CreateSubject(Subject_t* pSubject)`. -/
def OBS_CreateSubject (s : ObsState) : ObsState :=
  let s := { s with subject := { s.subject with pHead := none } }
  { s with subject := { s.subject with cnt := 0 } }

/-- Embedding of `void OBS_CreateObserver(Observer_t* pObserver, Observer_cb_t cb)`. -/
def OBS_CreateObserver (s : ObsState) (pObserver : Nat) (cb : Option Nat) : Option ObsState :=
  (setNext s.observers pObserver none).bind fun mem =>
  (setPrev mem pObserver none).bind fun mem =>
  (setCb mem pObserver cb).map fun mem =>
    { s with observers := mem }

/-- Embedding of `void OBS_Attach(Subject_t* pSubject, Observer_t* pObserver)`. -/
def OBS_Attach (s : ObsState) (pObserver : Nat) : Option ObsState :=
  (setNext s.observers pObserver s.subject.pHead).bind fun mem =>
  (setPrev mem pObserver none).bind fun mem =>
  (match s.subject.pHead with
    | some h => setPrev mem h (some pObserver)
    | none => some mem).map fun mem =>
    { s with subject := { s.subject with pHead := some pObserver }, observers := mem }

/-- Embedding of `void OBS_Detach(Subject_t* pSubject, Observer_t* pObserver)`. -/
def OBS_Detach (s : ObsState) (pObserver : Nat) : Option ObsState :=
  (s.observers[pObserver]?).bind fun o =>
  if o.p_prev = none ∧ o.p_next = none then some s
  else
    (match o.p_prev with
      | none => some { s with subject := { s.subject with pHead := o.p_next } }
      | some q => (setNext s.observers q o.p_next).map fun mem =>
          { s with observers := mem }).bind fun s =>
    (setNext s.observers pObserver none).bind fun mem =>
    (setPrev mem pObserver none).map fun mem =>
      { s with observers := mem }

/-- The loop of `OBS_Notify`, started with `pTmp` and the call log `calls`:
`while(pTmp != NULL) { if(pTmp->p_cb != NULL) pTmp->p_cb(); pTmp = pTmp->p_next; }`.
A callback is taken not to modify the subject or the observers (the callbacks of the test
count their invocations); its invocation is appended to the log. The first argument
bounds the number of objects visited. -/
def notifyLoop (mem : List Observer_t) : Nat → Option Nat → List Nat → Option (List Nat)
  | _, none, calls => some calls
  | 0, some _, _ => none
  | fuel + 1, some p, calls =>
    match mem[p]? with
    | none => none
    | some o =>
      notifyLoop mem fuel o.p_next
        (match o.p_cb with
          | some cb => calls ++ [cb]
          | none => calls)

/-- Embedding of `void OBS_Notify(Subject_t* pSubject)`. The walk over the list leaves the
observers unchanged, so a walk that ends visits every object at most once; the bound on
the number of objects visited is therefore the number of objects, and the result is
`none` when the walk reaches a pointer that refers to no object or does not end. -/
def OBS_Notify (s : ObsState) : Option ObsState :=
  (notifyLoop s.observers s.observers.length s.subject.pHead s.calls).map fun calls =>
    { s with calls := calls }

/-- Scenario: `OBS_CreateObserver(p, cb)` for each pair `(p, cb)` of the list, in order. -/
def createObservers : ObsState → List (Nat × Nat) → Option ObsState
  | s, [] => some s
  | s, (p, cb) :: rest => (OBS_CreateObserver s p (some cb)).bind fun s => createObservers s rest

/-- Scenario: `OBS_Attach` for each pointer of the list, in order. -/
def attachObservers : ObsState → List Nat → Option ObsState
  | s, [] => some s
  | s, p :: rest => (OBS_Attach s p).bind fun s => attachObservers s rest

/-- Scenario: `OBS_Detach` for each pointer of the list, in order. -/
def detachObservers : ObsState → List Nat → Option ObsState
  | s, [] => some s
  | s, p :: rest => (OBS_Detach s p).bind fun s => detachObservers s rest

/-- Scenario: `m` calls of `OBS_Notify`. -/
def notifyTimes : Nat → ObsState → Option ObsState
  | 0, s => some s
  | m + 1, s => (OBS_Notify s).bind fun s => notifyTimes m s

/-- The objects reached from the pointer `start` by following `p_next` up to `NULL` are the
objects `l`, in this order. -/
def IsChain (mem : List Observer_t) : Option Nat → List Nat → Prop
  | start, [] => start = none
  | start, p :: l => start = some p ∧ ∃ o, mem[p]? = some o ∧ IsChain mem o.p_next l

/-- The callback pointer stored in the object `p`, `none` for `NULL` or when `p` refers to
no object. -/
def cbOf (mem : List Observer_t) (p : Nat) : Option Nat :=
  (mem[p]?).bind fun o => o.p_cb

/-- The backward links along the list `l`, whose first object has the predecessor `prev`:
the `p_prev` of each object of `l` is the object before it, and `prev` for the first. -/
def IsBackChain (mem : List Observer_t) : Option Nat → List Nat → Prop
  | _, [] => True
  | prev, p :: l => (∃ o, mem[p]? = some o ∧ o.p_prev = prev) ∧ IsBackChain mem (some p) l

/-! ## Lemmas on the square root loop -/

theorem sqrtIter_succ_apply (k : Nat) (s : SqrtState) :
    sqrtIter (k + 1) s = sqrtStep (sqrtIter k s) := by
  induction k generalizing s with
  | zero => rfl
  | succ k ih =>
    show sqrtIter (k + 1) (sqrtStep s) = _
    rw [ih]
    rfl

theorem sqrt_digit_facts (n k : Nat) (hn : n < 2 ^ 32) (hk : k < 16) :
    n / 4 ^ (16 - (k + 1)) = 4 * (n / 4 ^ (16 - k)) + ((n * 4 ^ k) % 2 ^ 32) / 2 ^ 30 ∧
    ((n * 4 ^ k) % 2 ^ 32 * 4) % 2 ^ 32 = (n * 4 ^ (k + 1)) % 2 ^ 32 ∧
    ((n * 4 ^ k) % 2 ^ 32) / 2 ^ 30 < 4 ∧ n / 4 ^ (16 - k) < 2 ^ 32 := by
  interval_cases k <;> norm_num <;> omega

theorem SqrtInv_init (n : Nat) (hn : n < 2 ^ 32) : SqrtInv n 0 (sqrtInit n) := by
  refine ⟨0, rfl, ?_, Nat.le_refl _, ?_⟩
  · simp only [sqrtInit]
    norm_num
    omega
  · simp only [sqrtInit]
    norm_num
    omega

theorem SqrtInv_step (n k : Nat) (s : SqrtState) (hn : n < 2 ^ 32) (hk : k < 16)
    (h : SqrtInv n k s) : SqrtInv n (k + 1) (sqrtStep s) := by
  obtain ⟨r, hroot, hsum, hrem, hrad⟩ := h
  obtain ⟨hd1, hd2, hd3, hd4⟩ := sqrt_digit_facts n k hn hk
  have hr : r < 65536 := by
    by_contra hc
    have h1 : 65536 ≤ r := Nat.le_of_not_lt hc
    have h2 : 65536 * 65536 ≤ r * r := Nat.mul_le_mul h1 h1
    omega
  have e1 : (s.ulRoot <<< 1) % 2 ^ 32 = 4 * r := by
    rw [Nat.shiftLeft_eq, hroot]; omega
  have e2 : ((s.ulRem <<< 2) % 2 ^ 32 + (s.ulRadicand >>> 30)) % 2 ^ 32
      = 4 * s.ulRem + ((n * 4 ^ k) % 2 ^ 32) / 2 ^ 30 := by
    rw [Nat.shiftLeft_eq, Nat.shiftRight_eq_div_pow, hrad]; omega
  have e3 : (s.ulRadicand <<< 2) % 2 ^ 32 = (n * 4 ^ (k + 1)) % 2 ^ 32 := by
    rw [Nat.shiftLeft_eq, hrad, ← hd2]
  simp only [sqrtStep, e1, e2, e3]
  generalize ((n * 4 ^ k) % 2 ^ 32) / 2 ^ 30 = d at *
  have e4 : (4 * r + 1) % 2 ^ 32 = 4 * r + 1 := by omega
  rw [e4]
  by_cases hc : 4 * r + 1 ≤ 4 * s.ulRem + d
  · rw [if_pos hc]
    refine ⟨2 * r + 1, ?_, ?_, ?_, rfl⟩
    · show (4 * r + 1 + 1) % 2 ^ 32 = _
      omega
    · show (2 * r + 1) * (2 * r + 1) + (4 * s.ulRem + d + 2 ^ 32 - (4 * r + 1)) % 2 ^ 32 = _
      have e5 : (2 * r + 1) * (2 * r + 1) = 4 * (r * r) + 4 * r + 1 := by ring
      rw [e5, hd1]
      omega
    · show (4 * s.ulRem + d + 2 ^ 32 - (4 * r + 1)) % 2 ^ 32 ≤ _
      omega
  · rw [if_neg hc]
    refine ⟨2 * r, ?_, ?_, ?_, rfl⟩
    · show (4 * r + 1 + 2 ^ 32 - 1) % 2 ^ 32 = _
      omega
    · show (2 * r) * (2 * r) + (4 * s.ulRem + d) = _
      have e5 : (2 * r) * (2 * r) = 4 * (r * r) := by ring
      rw [e5, hd1]
      omega
    · show 4 * s.ulRem + d ≤ _
      omega

theorem SqrtInv_iter (n : Nat) (hn : n < 2 ^ 32) (k : Nat) (hk : k ≤ 16) :
    SqrtInv n k (sqrtIter k (sqrtInit n)) := by
  induction k with
  | zero => exact SqrtInv_init n hn
  | succ k ih =>
    rw [sqrtIter_succ_apply]
    exact SqrtInv_step n k _ hn (by omega) (ih (by omega))

/-! ## Lemmas on the interpolation routines -/

theorem wrap32_of_inRange {v : Int} (h : InRange32 v) : wrap32 v = v := by
  unfold InRange32 at h
  unfold wrap32
  omega

theorem wrap32_inRange (v : Int) : InRange32 (wrap32 v) := by
  unfold InRange32 wrap32
  omega

theorem roundDiv_nearest (p d : Int) (hd : 0 < d) :
    |roundDiv p d * d - p| ≤ d / 2 ∧ |roundDiv p d| ≤ |p| + d / 2 ∧
      (0 ≤ p → 0 ≤ roundDiv p d) ∧ (p < 0 → roundDiv p d ≤ 0) := by
  unfold roundDiv
  have h2 : d.tdiv 2 = d / 2 := Int.tdiv_eq_ediv (le_of_lt hd) (by norm_num)
  rw [h2]
  split
  · rename_i hp
    have hnum : 0 ≤ p + d / 2 := by omega
    rw [Int.tdiv_eq_ediv hnum (le_of_lt hd)]
    have h3 := Int.emod_add_ediv (p + d / 2) d
    have h4 := Int.emod_nonneg (p + d / 2) (ne_of_gt hd)
    have h5 := Int.emod_lt_of_pos (p + d / 2) hd
    generalize (p + d / 2) / d = q at *
    generalize (p + d / 2) % d = m at *
    have h6 : q * d = d * q := mul_comm _ _
    have h7 : 0 ≤ q := by
      by_contra hc
      have : q ≤ -1 := by omega
      have : d * q ≤ d * (-1) := by apply mul_le_mul_of_nonneg_left this (le_of_lt hd)
      omega
    have h8 : q ≤ d * q := by nlinarith
    rw [abs_le, abs_le, abs_of_nonneg hp]
    refine ⟨by omega, by omega, fun _ => h7, fun h => by omega⟩
  · rename_i hp
    have hp' : p < 0 := by omega
    have hnum : 0 ≤ -(p - d / 2) := by omega
    have e : (p - d / 2).tdiv d = -((-(p - d / 2)) / d) := by
      rw [← Int.tdiv_eq_ediv hnum (le_of_lt hd), Int.neg_tdiv, neg_neg]
    rw [e]
    have h3 := Int.emod_add_ediv (-(p - d / 2)) d
    have h4 := Int.emod_nonneg (-(p - d / 2)) (ne_of_gt hd)
    have h5 := Int.emod_lt_of_pos (-(p - d / 2)) hd
    generalize (-(p - d / 2)) / d = q at *
    generalize (-(p - d / 2)) % d = m at *
    have h6 : -q * d = -(d * q) := by ring
    have h7 : 0 ≤ q := by
      by_contra hc
      have : q ≤ -1 := by omega
      have : d * q ≤ d * (-1) := by apply mul_le_mul_of_nonneg_left this (le_of_lt hd)
      omega
    have h8 : q ≤ d * q := by nlinarith
    rw [abs_le, abs_le, abs_of_neg hp', h6]
    refine ⟨by omega, by omega, fun h => by omega, fun _ => by omega⟩

theorem strictAsc_getElem (xs : List Int) (hasc : StrictAsc xs) (i j : Nat) (a b : Int)
    (hi : xs[i]? = some a) (hj : xs[j]? = some b) (hij : i < j) : a < b := by
  obtain ⟨hi', rfl⟩ := List.getElem?_eq_some.mp hi
  obtain ⟨hj', rfl⟩ := List.getElem?_eq_some.mp hj
  exact List.pairwise_iff_getElem.mp hasc i j hi' hj' hij

theorem scanLUT_spec (x : Int) (lut : List TPoint) (bound : Nat) (hb : bound < lut.length)
    (hb32 : bound < 2 ^ 32) :
    ∀ (n fuel idx : Nat), idx + n = bound → n < fuel →
      ∃ k, scanLUT x lut bound fuel idx = some k ∧ idx ≤ k ∧ k ≤ bound ∧
        (∀ i p, idx ≤ i → i < k → lut[i]? = some p → ¬ x ≤ p.tXValue) ∧
        (k < bound → ∃ p, lut[k]? = some p ∧ x ≤ p.tXValue) := by
  intro n
  induction n with
  | zero =>
    intro fuel idx hidx hfuel
    obtain ⟨f, rfl⟩ : ∃ f, fuel = f + 1 := ⟨fuel - 1, by omega⟩
    refine ⟨idx, ?_, Nat.le_refl _, by omega, ?_, ?_⟩
    · have hnot : ¬ idx < bound := by omega
      simp only [scanLUT, if_neg hnot]
    · intro i p h1 h2
      omega
    · intro h
      omega
  | succ n ih =>
    intro fuel idx hidx hfuel
    obtain ⟨f, rfl⟩ : ∃ f, fuel = f + 1 := ⟨fuel - 1, by omega⟩
    have hlt : idx < bound := by omega
    have hget : lut[idx]? = some lut[idx] := List.getElem?_eq_getElem (by omega)
    by_cases hx : x ≤ (lut[idx]).tXValue
    · refine ⟨idx, ?_, Nat.le_refl _, by omega, ?_, ?_⟩
      · simp only [scanLUT, if_pos hlt, hget, if_pos hx]
      · intro i p h1 h2
        omega
      · intro _
        exact ⟨_, hget, hx⟩
    · have hmod : (idx + 1) % 2 ^ 32 = idx + 1 := Nat.mod_eq_of_lt (by omega)
      obtain ⟨k, hk, hk1, hk2, hk3, hk4⟩ := ih f (idx + 1) (by omega) (by omega)
      refine ⟨k, ?_, by omega, hk2, ?_, hk4⟩
      · simp only [scanLUT, if_pos hlt, hget, if_neg hx, hmod]
        exact hk
      · intro i p h1 h2 hp
        by_cases hi : i = idx
        · subst hi
          rw [hget] at hp
          cases hp
          exact hx
        · exact hk3 i p (by omega) h2 hp

theorem selectedIndex_spec (x : Int) (lut : List TPoint) (hN : 2 ≤ lut.length)
    (hsz : lut.length < 2 ^ 32) :
    ∃ k, selectedIndex x lut lut.length = some k ∧ 1 ≤ k ∧ k < lut.length ∧
      IsSegmentIndex x (lut.map TPoint.tXValue) k := by
  have hbound : (lut.length + 2 ^ 32 - 1) % 2 ^ 32 = lut.length - 1 := by omega
  obtain ⟨k, hk, hk1, hk2, hk3, hk4⟩ :=
    scanLUT_spec x lut (lut.length - 1) (by omega) (by omega) (lut.length - 2) (2 ^ 32) 1
      (by omega) (by omega)
  refine ⟨k, ?_, hk1, by omega, ?_⟩
  · unfold selectedIndex
    rw [hbound]
    exact hk
  · have hfirst : ∀ i c, 1 ≤ i → i < k → (lut.map TPoint.tXValue)[i]? = some c → ¬ x ≤ c := by
      intro i c h1 h2 hc
      rw [List.getElem?_map] at hc
      obtain ⟨p, hp, rfl⟩ := Option.map_eq_some'.mp hc
      exact hk3 i p h1 h2 hp
    by_cases hlast : k < lut.length - 1
    · left
      obtain ⟨p, hp, hxp⟩ := hk4 hlast
      clear hk4
      have hlen : k + 2 ≤ (lut.map TPoint.tXValue).length := by
        rw [List.length_map]
        omega
      have hget : (lut.map TPoint.tXValue)[k]? = some p.tXValue := by
        rw [List.getElem?_map, hp]
        rfl
      exact ⟨hk1, hlen, ⟨p.tXValue, hget, hxp⟩, hfirst⟩
    · right
      clear hk4
      have hlen : k + 1 = (lut.map TPoint.tXValue).length := by
        rw [List.length_map]
        omega
      refine ⟨hlen, ?_⟩
      intro i c h1 h2 hc
      rw [List.length_map] at h2
      exact hfirst i c h1 (by omega) hc

theorem FPM_tInterpolate2D_eq_segment (x : Int) (lut : List TPoint) (N k : Nat) (p0 p1 : TPoint)
    (hk : selectedIndex x lut N = some k) (hk1 : 1 ≤ k) (hk32 : k < 2 ^ 32)
    (h0 : lut[k - 1]? = some p0) (h1 : lut[k]? = some p1) :
    FPM_tInterpolate2D x lut N = interpolateSegment x p0 p1 := by
  have hmod : (k + 2 ^ 32 - 1) % 2 ^ 32 = k - 1 := by omega
  unfold FPM_tInterpolate2D
  rw [hk, Option.some_bind, hmod, h0, Option.some_bind, h1, Option.some_bind]

/-- The division by a positive divisor has a result. -/
theorem div32_of_pos (n d : Int) (hd : 0 < d) : div32 n d = some (wrap32 (n.tdiv d)) := by
  have h0 : ¬ (d = 0) := by omega
  have h1 : ¬ (n = -2 ^ 31 ∧ d = -1) := fun h => by omega
  unfold div32
  rw [if_neg h0, if_neg h1]

/-- The division has a result unless the divisor is `0` or `-1`. -/
theorem div32_isSome (n d : Int) (h0 : d ≠ 0) (h1 : d ≠ -1) : ∃ q, div32 n d = some q := by
  have h2 : ¬ (n = -2 ^ 31 ∧ d = -1) := fun h => h1 h.2
  unfold div32
  rw [if_neg h0, if_neg h2]
  exact ⟨_, rfl⟩

theorem interpolateSegment_exact (x : Int) (p0 p1 : TPoint) (hd : p0.tXValue < p1.tXValue)
    (hfit : Fits32Segment x p0 p1) :
    interpolateSegment x p0 p1 = some (p0.tYValue +
      roundDiv ((x - p0.tXValue) * (p1.tYValue - p0.tYValue)) (p1.tXValue - p0.tXValue)) := by
  obtain ⟨f1, f2, f3, f4, f5, f6⟩ := hfit
  have hdpos : 0 < p1.tXValue - p0.tXValue := by omega
  obtain ⟨-, hq, hq0, hq1⟩ := roundDiv_nearest ((x - p0.tXValue) * (p1.tYValue - p0.tYValue))
    (p1.tXValue - p0.tXValue) hdpos
  unfold interpolateSegment
  simp only [wrap32_of_inRange f1, wrap32_of_inRange f2, wrap32_of_inRange f3,
    wrap32_of_inRange f4, div32_of_pos _ _ hdpos, Option.map_some']
  unfold roundDiv at hq hq0 hq1 f6 ⊢
  have h2 : (p1.tXValue - p0.tXValue).tdiv 2 = (p1.tXValue - p0.tXValue) / 2 :=
    Int.tdiv_eq_ediv (le_of_lt hdpos) (by norm_num)
  by_cases hp : (x - p0.tXValue) * (p1.tYValue - p0.tYValue) ≥ 0
  · simp only [if_pos hp] at hq hq0 f5 f6 ⊢
    rw [wrap32_of_inRange f5]
    have f7 : InRange32 (((x - p0.tXValue) * (p1.tYValue - p0.tYValue) +
        (p1.tXValue - p0.tXValue).tdiv 2).tdiv (p1.tXValue - p0.tXValue)) := by
      have hq0' := hq0 hp
      unfold InRange32 at f5 ⊢
      rw [abs_le, abs_of_nonneg hp] at hq
      rw [h2] at f5
      omega
    rw [wrap32_of_inRange f7, wrap32_of_inRange f6, add_comm]
  · simp only [if_neg hp] at hq hq1 f5 f6 ⊢
    rw [wrap32_of_inRange f5]
    have f7 : InRange32 (((x - p0.tXValue) * (p1.tYValue - p0.tYValue) -
        (p1.tXValue - p0.tXValue).tdiv 2).tdiv (p1.tXValue - p0.tXValue)) := by
      have hq1' := hq1 (by omega)
      unfold InRange32 at f5 ⊢
      rw [abs_le, abs_of_neg (by omega)] at hq
      rw [h2] at f5
      omega
    rw [wrap32_of_inRange f7, wrap32_of_inRange f6, add_comm]

theorem segment_points (lut : List TPoint) (k : Nat) (hk1 : 1 ≤ k) (hk : k < lut.length) :
    ∃ p0 p1, lut[k - 1]? = some p0 ∧ lut[k]? = some p1 :=
  ⟨lut[k - 1], lut[k], List.getElem?_eq_getElem (by omega), List.getElem?_eq_getElem hk⟩

theorem strictAsc_points (lut : List TPoint) (hasc : StrictAsc (lut.map TPoint.tXValue))
    (i j : Nat) (p q : TPoint) (hi : lut[i]? = some p) (hj : lut[j]? = some q) (hij : i < j) :
    p.tXValue < q.tXValue := by
  apply strictAsc_getElem _ hasc i j _ _ _ _ hij
  · rw [List.getElem?_map, hi]; rfl
  · rw [List.getElem?_map, hj]; rfl

theorem interpolateCorners_eq (x y x1 x2 y1 y2 z11 z21 z12 z22 : Int) :
    interpolateCorners x y x1 x2 y1 y2 z11 z21 z12 z22 =
      (interpolateSegment x ⟨x1, z11⟩ ⟨x2, z21⟩).bind fun z1 =>
        (interpolateSegment x ⟨x1, z12⟩ ⟨x2, z22⟩).bind fun z2 =>
          interpolateSegment y ⟨y1, z1⟩ ⟨y2, z2⟩ := by
  unfold interpolateCorners interpolateSegment
  dsimp only
  cases div32 (if wrap32 (wrap32 (x - x1) * wrap32 (z21 - z11)) ≥ 0
      then wrap32 (wrap32 (wrap32 (x - x1) * wrap32 (z21 - z11)) + (wrap32 (x2 - x1)).tdiv 2)
      else wrap32 (wrap32 (wrap32 (x - x1) * wrap32 (z21 - z11)) - (wrap32 (x2 - x1)).tdiv 2))
    (wrap32 (x2 - x1)) with
  | none => rfl
  | some q1 =>
    simp only [Option.some_bind, Option.map_some']
    cases div32 (if wrap32 (wrap32 (x - x1) * wrap32 (z22 - z12)) ≥ 0
        then wrap32 (wrap32 (wrap32 (x - x1) * wrap32 (z22 - z12)) + (wrap32 (x2 - x1)).tdiv 2)
        else wrap32 (wrap32 (wrap32 (x - x1) * wrap32 (z22 - z12)) - (wrap32 (x2 - x1)).tdiv 2))
      (wrap32 (x2 - x1)) with
    | none => rfl
    | some q2 => rfl

theorem scanAxis_spec (v : Int) (xs : List Int) (size stride : Nat) (hlen : xs.length = size) :
    ∀ (n fuel idx z : Nat), idx + n + 1 = size → n < fuel →
      ∃ k, scanAxis v xs size stride fuel idx z = some (k, z + (k - idx) * stride) ∧
        idx ≤ k ∧ k + 1 ≤ size ∧
        (∀ i c, idx ≤ i → i < k → xs[i]? = some c → ¬ v ≤ c) ∧
        (k + 1 < size → ∃ c, xs[k]? = some c ∧ v ≤ c) := by
  intro n
  induction n with
  | zero =>
    intro fuel idx z hidx hfuel
    obtain ⟨f, rfl⟩ : ∃ f, fuel = f + 1 := ⟨fuel - 1, by omega⟩
    have hstop : (size : Int) - 1 ≤ (idx : Int) := by omega
    refine ⟨idx, ?_, Nat.le_refl _, by omega, ?_, ?_⟩
    · simp only [scanAxis, if_pos hstop, Nat.sub_self, Nat.zero_mul, Nat.add_zero]
    · intro i c h1 h2
      omega
    · intro h
      omega
  | succ n ih =>
    intro fuel idx z hidx hfuel
    obtain ⟨f, rfl⟩ : ∃ f, fuel = f + 1 := ⟨fuel - 1, by omega⟩
    have hgo : ¬ ((size : Int) - 1 ≤ (idx : Int)) := by omega
    have hget : xs[idx]? = some xs[idx] := List.getElem?_eq_getElem (by omega)
    by_cases hx : v ≤ xs[idx]
    · refine ⟨idx, ?_, Nat.le_refl _, by omega, ?_, ?_⟩
      · simp only [scanAxis, if_neg hgo, hget, if_pos hx, Nat.sub_self, Nat.zero_mul,
          Nat.add_zero]
      · intro i c h1 h2
        omega
      · intro _
        exact ⟨_, hget, hx⟩
    · obtain ⟨k, hk, hk1, hk2, hk3, hk4⟩ := ih f (idx + 1) (z + stride) (by omega) (by omega)
      refine ⟨k, ?_, by omega, hk2, ?_, hk4⟩
      · simp only [scanAxis, if_neg hgo, hget, if_neg hx]
        rw [hk]
        have e : k - idx = (k - (idx + 1)) + 1 := by omega
        rw [e, Nat.add_mul, Nat.one_mul]
        have e2 : z + stride + (k - (idx + 1)) * stride
            = z + ((k - (idx + 1)) * stride + stride) := by omega
        rw [e2]
      · intro i c h1 h2 hc
        by_cases hi : i = idx
        · subst hi
          rw [hget] at hc
          cases hc
          exact hx
        · exact hk3 i c (by omega) h2 hc

theorem scanAxis_index (v : Int) (xs : List Int) (size stride z : Nat)
    (hlen : xs.length = size) (h2 : 2 ≤ size) (h32 : size < 2 ^ 32) :
    ∃ k, scanAxis v xs size stride (2 ^ 32) 1 z = some (k, z + (k - 1) * stride) ∧
      1 ≤ k ∧ k < size ∧ IsSegmentIndex v xs k := by
  obtain ⟨k, hk, hk1, hk2, hk3, hk4⟩ :=
    scanAxis_spec v xs size stride hlen (size - 2) (2 ^ 32) 1 z (by omega) (by omega)
  refine ⟨k, hk, hk1, by omega, ?_⟩
  by_cases hlast : k + 1 < size
  · left
    obtain ⟨c, hc, hvc⟩ := hk4 hlast
    clear hk4
    exact ⟨hk1, by omega, ⟨c, hc, hvc⟩, hk3⟩
  · right
    clear hk4
    refine ⟨by omega, ?_⟩
    intro i c h1 h2' hc
    exact hk3 i c h1 (by omega) hc

theorem IsSegmentIndex_unique (v : Int) (xs : List Int) (k k' : Nat)
    (h : IsSegmentIndex v xs k) (h' : IsSegmentIndex v xs k') : k = k' := by
  rcases h with ⟨a1, a2, ⟨c, hc, hvc⟩, a4⟩ | ⟨b1, b2⟩
  · rcases h' with ⟨a1', a2', ⟨c', hc', hvc'⟩, a4'⟩ | ⟨b1', b2'⟩
    · rcases Nat.lt_trichotomy k k' with hlt | heq | hgt
      · exact absurd hvc (a4' k c a1 hlt hc)
      · exact heq
      · exact absurd hvc' (a4 k' c' a1' hgt hc')
    · exact absurd hvc (b2' k c a1 a2 hc)
  · rcases h' with ⟨a1', a2', ⟨c', hc', hvc'⟩, a4'⟩ | ⟨b1', b2'⟩
    · exact absurd hvc' (b2 k' c' a1' a2' hc')
    · omega

theorem map_tXValue_zipWith (xs zs : List Int) (h : xs.length ≤ zs.length) :
    (List.zipWith TPoint.mk xs zs).map TPoint.tXValue = xs := by
  induction xs generalizing zs with
  | nil => rfl
  | cons a xs ih =>
    cases zs with
    | nil => simp at h
    | cons b zs =>
      simp only [List.zipWith_cons_cons, List.map_cons, List.cons.injEq, true_and]
      exact ih zs (by simpa using h)

theorem zipWith_mk_getElem (xs zs : List Int) (i : Nat) (a b : Int)
    (ha : xs[i]? = some a) (hb : zs[i]? = some b) :
    (List.zipWith TPoint.mk xs zs)[i]? = some ⟨a, b⟩ := by
  induction xs generalizing zs i with
  | nil => simp at ha
  | cons a' xs ih =>
    cases zs with
    | nil => simp at hb
    | cons b' zs =>
      cases i with
      | zero =>
        simp only [List.getElem?_cons_zero, Option.some.injEq] at ha hb
        subst ha hb
        simp only [List.zipWith_cons_cons, List.getElem?_cons_zero]
      | succ i =>
        simp only [List.getElem?_cons_succ] at ha hb
        simp only [List.zipWith_cons_cons, List.getElem?_cons_succ]
        exact ih zs i ha hb

theorem FPM_tInterpolate3D_eq_corners (p : TPoint) (T : TLookUpTable3D) (i z j zz : Nat)
    (x1 x2 y1 y2 a b c d : Int)
    (hsx : scanAxis p.tXValue T.ptXValues T.ulXSize 1 (2 ^ 32) 1 (1 + T.ulXSize) = some (i, z))
    (hsy : scanAxis p.tYValue T.ptYValues T.ulYSize T.ulXSize (2 ^ 32) 1 z = some (j, zz))
    (hx1 : T.ptXValues[i - 1]? = some x1) (hx2 : T.ptXValues[i]? = some x2)
    (hy1 : T.ptYValues[j - 1]? = some y1) (hy2 : T.ptYValues[j]? = some y2)
    (ha : T.ptZValues[zz - T.ulXSize - 1]? = some a)
    (hb : T.ptZValues[zz - T.ulXSize]? = some b)
    (hc : T.ptZValues[zz - 1]? = some c) (hd : T.ptZValues[zz]? = some d) :
    FPM_tInterpolate3D p T = interpolateCorners p.tXValue p.tYValue x1 x2 y1 y2 a b c d := by
  unfold FPM_tInterpolate3D
  rw [hsx, Option.some_bind, hsy, Option.some_bind, hx1, Option.some_bind, hx2,
    Option.some_bind, hy1, Option.some_bind, hy2, Option.some_bind, ha, Option.some_bind,
    hb, Option.some_bind, hc, Option.some_bind, hd, Option.some_bind]

theorem FPM_tInterpolate2D_row (x : Int) (xs zs : List Int) (nx row i : Nat)
    (hnx : 2 ≤ nx) (h32 : nx < 2 ^ 32) (hX : xs.length = nx)
    (hZ : row * nx + nx ≤ zs.length) (hi : IsSegmentIndex x xs i) (hi1 : 1 ≤ i)
    (x1 x2 za zb : Int) (hx1 : xs[i - 1]? = some x1) (hx2 : xs[i]? = some x2)
    (hza : zs[row * nx + (i - 1)]? = some za) (hzb : zs[row * nx + i]? = some zb) :
    FPM_tInterpolate2D x (rowPoints xs zs nx row) nx
      = interpolateSegment x ⟨x1, za⟩ ⟨x2, zb⟩ := by
  have hdrop : (zs.drop (row * nx)).length = zs.length - row * nx := List.length_drop _ _
  have hlen : (rowPoints xs zs nx row).length = nx := by
    unfold rowPoints
    rw [List.length_zipWith, hdrop, hX]
    omega
  have hmap : (rowPoints xs zs nx row).map TPoint.tXValue = xs := by
    unfold rowPoints
    exact map_tXValue_zipWith _ _ (by omega)
  obtain ⟨k, hk, hk1, hklt, hseg⟩ :=
    selectedIndex_spec x (rowPoints xs zs nx row) (by omega) (by omega)
  rw [hmap] at hseg
  rw [hlen] at hk hklt
  have hki : k = i := IsSegmentIndex_unique x xs k i hseg hi
  subst hki
  have h0 : (rowPoints xs zs nx row)[k - 1]? = some ⟨x1, za⟩ := by
    unfold rowPoints
    exact zipWith_mk_getElem _ _ _ _ _ hx1 (by rw [List.getElem?_drop]; exact hza)
  have h1 : (rowPoints xs zs nx row)[k]? = some ⟨x2, zb⟩ := by
    unfold rowPoints
    exact zipWith_mk_getElem _ _ _ _ _ hx2 (by rw [List.getElem?_drop]; exact hzb)
  exact FPM_tInterpolate2D_eq_segment x _ nx k _ _ hk hk1 (by omega) h0 h1

theorem FPM_tInterpolate2D_pair (y : Int) (p q : TPoint) :
    FPM_tInterpolate2D y [p, q] 2 = interpolateSegment y p q := by
  obtain ⟨k, hk, hk1, hklt, -⟩ :=
    selectedIndex_spec y [p, q] (Nat.le_refl 2) (by show 2 < 2 ^ 32; norm_num)
  have hlen : [p, q].length = 2 := rfl
  rw [hlen] at hk hklt
  have hk' : k = 1 := by omega
  subst hk'
  exact FPM_tInterpolate2D_eq_segment y [p, q] 2 1 p q hk (Nat.le_refl 1) (by norm_num) rfl rfl

theorem wrap32_sub_ne_zero (a b : Int) (ha : InRange32 a) (hb : InRange32 b) (hab : a < b) :
    wrap32 (b - a) ≠ 0 := by
  unfold InRange32 at ha hb
  unfold wrap32
  omega

theorem interpolateSegment_isSome (x : Int) (p0 p1 : TPoint)
    (h0 : wrap32 (p1.tXValue - p0.tXValue) ≠ 0) (h1 : wrap32 (p1.tXValue - p0.tXValue) ≠ -1) :
    ∃ r, interpolateSegment x p0 p1 = some r := by
  unfold interpolateSegment
  dsimp only
  obtain ⟨q, hq⟩ := div32_isSome (if wrap32 (wrap32 (x - p0.tXValue) *
        wrap32 (p1.tYValue - p0.tYValue)) ≥ 0
      then wrap32 (wrap32 (wrap32 (x - p0.tXValue) * wrap32 (p1.tYValue - p0.tYValue))
        + (wrap32 (p1.tXValue - p0.tXValue)).tdiv 2)
      else wrap32 (wrap32 (wrap32 (x - p0.tXValue) * wrap32 (p1.tYValue - p0.tYValue))
        - (wrap32 (p1.tXValue - p0.tXValue)).tdiv 2))
    (wrap32 (p1.tXValue - p0.tXValue)) h0 h1
  rw [hq]
  exact ⟨_, rfl⟩

/-- The 32-bit difference of two ascending 32-bit values is positive when the difference
itself is below `2^31`. -/
theorem wrap32_sub_pos (a b : Int) (hab : a < b) (hfit : b - a < 2 ^ 31) :
    0 < wrap32 (b - a) := by
  unfold wrap32
  omega

theorem exists_getElem (xs : List Int) (i : Nat) (h : i < xs.length) :
    ∃ v, xs[i]? = some v :=
  ⟨_, List.getElem?_eq_getElem h⟩

/-! ## Lemmas on the CORDIC routine -/

theorem FPM_vCart2Pol_prior (c : TCartNum) (p q : TPolNum) :
    FPM_vCart2Pol c p = FPM_vCart2Pol c q := rfl

theorem FPM_vCart2Pol_eq (c : TCartNum) (p : TPolNum) :
    FPM_vCart2Pol c p =
      { tMag := (wrap32 (FPM_CORDIC_SCALE_FACTOR_Q16 *
          (cordicLoop FPM_CORDIC_ITERATIONS 0
            { tCartNum := (preRotate c).1, siAngle := 0 }).tCartNum.tRe)) >>> (16 : Nat)
        siAngle := wrap16 ((cordicLoop FPM_CORDIC_ITERATIONS 0
            { tCartNum := (preRotate c).1, siAngle := 0 }).siAngle + (preRotate c).2) } := rfl

theorem wrap16_wrap16_add (a b : Int) : wrap16 (wrap16 a + b) = wrap16 (a + b) := by
  unfold wrap16
  omega

/-! ## Error analysis of the CORDIC loop -/

/-- The arithmetic right shift by `k` bits is the floor of the division by `2^k`. -/
theorem shiftRight_bounds (x : Int) (k : Nat) :
    (x >>> k) * 2 ^ k ≤ x ∧ x ≤ (x >>> k) * 2 ^ k + 2 ^ k - 1 := by
  have hpos : (0 : Int) < 2 ^ k := by positivity
  have hcast : ((2 ^ k : Nat) : Int) = 2 ^ k := by push_cast; rfl
  rw [Int.shiftRight_eq_div_pow, hcast]
  have h1 := Int.ediv_mul_le x (ne_of_gt hpos)
  have h2 := Int.lt_ediv_add_one_mul_self x hpos
  have h3 : (x / 2 ^ k + 1) * 2 ^ k = x / 2 ^ k * 2 ^ k + 2 ^ k := by ring
  rw [h3] at h2
  constructor
  · exact h1
  · omega

/-- The micro-rotation `(x, y) ↦ (x + σ t y, y - σ t x)` rotates by `-σ * arctan t` and scales
by `sqrt (1 + t^2)`. -/
theorem rot_trig (γ t σ : ℝ) (hσ : σ = 1 ∨ σ = -1) :
    Real.sqrt (1 + t ^ 2) * Real.cos (γ - σ * Real.arctan t) = Real.cos γ + σ * t * Real.sin γ ∧
    Real.sqrt (1 + t ^ 2) * Real.sin (γ - σ * Real.arctan t) = Real.sin γ - σ * t * Real.cos γ := by
  have hpos : 0 < Real.sqrt (1 + t ^ 2) := Real.sqrt_pos.mpr (by positivity)
  have hcos : Real.sqrt (1 + t ^ 2) * Real.cos (Real.arctan t) = 1 := by
    rw [Real.cos_arctan]; field_simp
  have hsin : Real.sqrt (1 + t ^ 2) * Real.sin (Real.arctan t) = t := by
    rw [Real.sin_arctan]; field_simp
  rcases hσ with h | h
  · subst h
    rw [one_mul, Real.cos_sub, Real.sin_sub]
    constructor
    · linear_combination (Real.cos γ) * hcos + (Real.sin γ) * hsin
    · linear_combination (Real.sin γ) * hcos - (Real.cos γ) * hsin
  · subst h
    have e : γ - -1 * Real.arctan t = γ + Real.arctan t := by ring
    rw [e, Real.cos_add, Real.sin_add]
    constructor
    · linear_combination (Real.cos γ) * hcos - (Real.sin γ) * hsin
    · linear_combination (Real.sin γ) * hcos + (Real.cos γ) * hsin

/-- The arithmetic right shift keeps the sign and does not increase the absolute value. -/
theorem shiftRight_range (x : Int) (k : Nat) :
    (0 ≤ x → 0 ≤ x >>> k ∧ x >>> k ≤ x) ∧ (x < 0 → x ≤ x >>> k ∧ x >>> k < 0) := by
  obtain ⟨h1, h2⟩ := shiftRight_bounds x k
  have hpos : (1 : Int) ≤ 2 ^ k := by
    have : (0 : Int) < 2 ^ k := by positivity
    omega
  generalize x >>> k = f at *
  generalize (2 : Int) ^ k = s at *
  constructor
  · intro hx
    constructor
    · by_contra hc
      have hf : f ≤ -1 := by omega
      have : f * s ≤ -1 * s := mul_le_mul_of_nonneg_right hf (by omega)
      omega
    · by_contra hc
      have hf : x + 1 ≤ f := by omega
      have : (x + 1) * s ≤ f * s := mul_le_mul_of_nonneg_right hf (by omega)
      have : (x + 1) * 1 ≤ (x + 1) * s := mul_le_mul_of_nonneg_left hpos (by omega)
      omega
  · intro hx
    constructor
    · by_contra hc
      have hf : f ≤ x - 1 := by omega
      have h3 : f * s ≤ (x - 1) * s := mul_le_mul_of_nonneg_right hf (by omega)
      have h4 : x * s ≤ x * 1 := by
        apply mul_le_mul_of_nonpos_left hpos
        omega
      have h5 : (x - 1) * s = x * s - s := by ring
      omega
    · by_contra hc
      have hf : 0 ≤ f := by omega
      have : 0 ≤ f * s := mul_nonneg hf (by omega)
      omega

/-- The entries of the angle table used by the loop are non-negative and their partial sums
stay at or below `18181`. -/
theorem cordicTab_facts : ∀ k < 14,
    (FPM_tCordicAngleTabQ15.take (k + 1)).sum
      = (FPM_tCordicAngleTabQ15.take k).sum + FPM_tCordicAngleTabQ15.getD k 0 ∧
    0 ≤ FPM_tCordicAngleTabQ15.getD k 0 ∧
    (FPM_tCordicAngleTabQ15.take (k + 1)).sum ≤ 18181 := by
  decide

/-- Values up to the sum of the table entries are unchanged by the reduction to `int16_t`. -/
theorem wrap16_of_small {v : Int} (h : |v| ≤ 18181) : wrap16 v = v := by
  rw [abs_le] at h
  unfold wrap16
  omega

/-- Values of absolute value up to `2000000001` are unchanged by the reduction to `int32_t`. -/
theorem wrap32_of_abs {v : Int} (h : |v| ≤ 2000000001) : wrap32 v = v := by
  rw [abs_le] at h
  unfold wrap32
  omega

/-- As long as the working vector is small enough for the additions not to overflow, a loop
iteration is the exact integer micro-rotation with shifted operands, in the direction `σ` given
by the sign of the imaginary part. -/
theorem cordicStep_eq (k : Nat) (s : CordicState) (hk : k < 14)
    (hx : 0 ≤ s.tCartNum.tRe) (hxb : s.tCartNum.tRe ≤ 1000000000)
    (hyb : |s.tCartNum.tIm| ≤ 1000000000)
    (ha : |s.siAngle| ≤ (FPM_tCordicAngleTabQ15.take k).sum) :
    ∃ σ : Int, (σ = 1 ∨ σ = -1) ∧ σ * s.tCartNum.tIm = |s.tCartNum.tIm| ∧
      0 ≤ σ * (s.tCartNum.tIm >>> k) ∧
      cordicStep k s =
        { tCartNum :=
            { tRe := s.tCartNum.tRe + σ * (s.tCartNum.tIm >>> k)
              tIm := s.tCartNum.tIm - σ * (s.tCartNum.tRe >>> k) }
          siAngle := s.siAngle + σ * FPM_tCordicAngleTabQ15.getD k 0 } := by
  obtain ⟨ht1, ht2, ht3⟩ := cordicTab_facts k hk
  obtain ⟨hfx1, hfx2⟩ := (shiftRight_range s.tCartNum.tRe k).1 hx
  have hfy := shiftRight_range s.tCartNum.tIm k
  rw [abs_le] at hyb
  have ha' := abs_le.mp ha
  by_cases hy : s.tCartNum.tIm < 0
  · obtain ⟨hfy1, hfy2⟩ := hfy.2 hy
    refine ⟨-1, Or.inr rfl, ?_, by omega, ?_⟩
    · rw [abs_of_neg hy]; ring
    · have e1 : wrap32 (s.tCartNum.tRe - (s.tCartNum.tIm >>> k))
          = s.tCartNum.tRe + -1 * (s.tCartNum.tIm >>> k) := by
        rw [wrap32_of_abs (by rw [abs_le]; omega)]; ring
      have e2 : wrap32 (s.tCartNum.tIm + (s.tCartNum.tRe >>> k))
          = s.tCartNum.tIm - -1 * (s.tCartNum.tRe >>> k) := by
        rw [wrap32_of_abs (by rw [abs_le]; omega)]; ring
      have e3 : wrap16 (s.siAngle - FPM_tCordicAngleTabQ15.getD k 0)
          = s.siAngle + -1 * FPM_tCordicAngleTabQ15.getD k 0 := by
        rw [wrap16_of_small (by rw [abs_le]; omega)]; ring
      simp only [cordicStep, if_pos hy, e1, e2, e3]
  · have hy' : 0 ≤ s.tCartNum.tIm := by omega
    obtain ⟨hfy1, hfy2⟩ := hfy.1 hy'
    refine ⟨1, Or.inl rfl, ?_, by omega, ?_⟩
    · rw [abs_of_nonneg hy']; ring
    · have e1 : wrap32 (s.tCartNum.tRe + (s.tCartNum.tIm >>> k))
          = s.tCartNum.tRe + 1 * (s.tCartNum.tIm >>> k) := by
        rw [wrap32_of_abs (by rw [abs_le]; omega)]; ring
      have e2 : wrap32 (s.tCartNum.tIm - (s.tCartNum.tRe >>> k))
          = s.tCartNum.tIm - 1 * (s.tCartNum.tRe >>> k) := by
        rw [wrap32_of_abs (by rw [abs_le]; omega)]; ring
      have e3 : wrap16 (s.siAngle + FPM_tCordicAngleTabQ15.getD k 0)
          = s.siAngle + 1 * FPM_tCordicAngleTabQ15.getD k 0 := by
        rw [wrap16_of_small (by rw [abs_le]; omega)]; ring
      simp only [cordicStep, if_neg hy, e1, e2, e3]

/-- The part of `x / 2^k` that the shift drops lies between `0` and `1 - 2^(-k)`. -/
theorem frac_bounds (x f : Int) (k : Nat) (h1 : f * 2 ^ k ≤ x) (h2 : x ≤ f * 2 ^ k + 2 ^ k - 1) :
    0 ≤ (1 / 2 : ℝ) ^ k * x - f ∧ (1 / 2 : ℝ) ^ k * x - f ≤ 1 - (1 / 2) ^ k := by
  have hS : (1 / 2 : ℝ) ^ k * 2 ^ k = 1 := by
    rw [← mul_pow]; norm_num
  have ht : (0 : ℝ) ≤ (1 / 2) ^ k := by positivity
  have h1' : (f : ℝ) * 2 ^ k ≤ x := by exact_mod_cast h1
  have h2' : (x : ℝ) ≤ f * 2 ^ k + 2 ^ k - 1 := by exact_mod_cast h2
  have e : (1 / 2 : ℝ) ^ k * x - f = (1 / 2) ^ k * (x - f * 2 ^ k) := by
    have : (1 / 2 : ℝ) ^ k * (x - f * 2 ^ k) = (1 / 2) ^ k * x - f * ((1 / 2) ^ k * 2 ^ k) := by
      ring
    rw [this, hS, mul_one]
  rw [e]
  constructor
  · exact mul_nonneg ht (by linarith)
  · have h3 : (1 / 2 : ℝ) ^ k * (x - f * 2 ^ k) ≤ (1 / 2) ^ k * (2 ^ k - 1) :=
      mul_le_mul_of_nonneg_left (by linarith) ht
    have h4 : (1 / 2 : ℝ) ^ k * (2 ^ k - 1) = 1 - (1 / 2) ^ k := by
      rw [mul_sub, hS, mul_one]
    linarith

/-- The gain of 14 iterations lies between `1.64676` and `1.64677`. -/
theorem gain14_bounds :
    (164676 / 100000 : ℝ) ^ 2 ≤ ∏ j in Finset.range 14, (1 + (1 / 4 : ℝ) ^ j) ∧
    ∏ j in Finset.range 14, (1 + (1 / 4 : ℝ) ^ j) ≤ (164677 / 100000 : ℝ) ^ 2 := by
  simp only [Finset.prod_range_succ, Finset.prod_range_zero]
  norm_num

/-- Recurrence of the componentwise error bound, over the reals. -/
theorem cordicErr_succ (k : Nat) :
    ((cordicErr (k + 1) : ℚ) : ℝ)
      = (1 + (1 / 2 : ℝ) ^ k) * ((cordicErr k : ℚ) : ℝ) + (1 - (1 / 2 : ℝ) ^ k) := by
  simp only [cordicErr]
  push_cast
  ring

/-- The componentwise error bound is non-negative. -/
theorem cordicErr_nonneg (k : Nat) : (0 : ℝ) ≤ ((cordicErr k : ℚ) : ℝ) := by
  induction k with
  | zero => simp [cordicErr]
  | succ k ih =>
    rw [cordicErr_succ]
    have ht0 : (0 : ℝ) ≤ (1 / 2) ^ k := by positivity
    have ht1 : ((1 / 2 : ℝ) ^ k) ≤ 1 := pow_le_one₀ (by norm_num) (by norm_num)
    have := mul_nonneg (by linarith : (0 : ℝ) ≤ 1 + (1 / 2) ^ k) ih
    linarith

/-- The componentwise error bound stays below `12` before each of the 14 iterations, and the
bounds after the last iteration. -/
theorem cordicErr_bounds :
    (∀ k, k ≤ 13 → ((cordicErr k : ℚ) : ℝ) ≤ 12) ∧
    ((cordicErr 14 : ℚ) : ℝ) ≤ 127324 / 10000 ∧
    ((cordicSlack 14 : ℚ) : ℝ) ≤ 117311 / 10000 := by
  have h : (∀ k, k ≤ 13 → cordicErr k ≤ 12) ∧ cordicErr 14 ≤ 127324 / 10000 ∧
      cordicSlack 14 ≤ 117311 / 10000 := by
    refine ⟨?_, ?_, ?_⟩
    · intro k hk
      interval_cases k <;> norm_num [cordicErr]
    · norm_num [cordicErr]
    · norm_num [cordicErr, cordicSlack]
  obtain ⟨h1, h2, h3⟩ := h
  refine ⟨fun k hk => ?_, ?_, ?_⟩
  · exact_mod_cast h1 k hk
  · have h : ((cordicErr 14 : ℚ) : ℝ) ≤ ((127324 / 10000 : ℚ) : ℝ) := Rat.cast_le.mpr h2
    push_cast at h
    exact h
  · have h : ((cordicSlack 14 : ℚ) : ℝ) ≤ ((117311 / 10000 : ℚ) : ℝ) := Rat.cast_le.mpr h3
    push_cast at h
    exact h

/-- The additive term of the convergence bound is at most the componentwise error bound
scaled by the squared gain of the next iteration. -/
theorem cordicSlack_le (k : Nat) :
    ((cordicSlack k : ℚ) : ℝ) ≤ ((cordicErr k : ℚ) : ℝ) * (1 + ((1 / 2 : ℝ) ^ k) ^ 2) := by
  cases k with
  | zero => simp [cordicSlack, cordicErr]
  | succ k =>
    rw [cordicErr_succ]
    have hE := cordicErr_nonneg k
    have ht0 : (0 : ℝ) ≤ (1 / 2) ^ k := by positivity
    have ht1 : ((1 / 2 : ℝ) ^ k) ≤ 1 := pow_le_one₀ (by norm_num) (by norm_num)
    have e4 : (1 / 4 : ℝ) ^ k = ((1 / 2 : ℝ) ^ k) ^ 2 := by
      rw [← pow_mul, mul_comm, pow_mul]; norm_num
    have e2 : (1 / 2 : ℝ) ^ (k + 1) = (1 / 2) ^ k / 2 := by
      rw [pow_succ]; ring
    simp only [cordicSlack]
    push_cast
    rw [e4, e2]
    generalize (1 / 2 : ℝ) ^ k = t at *
    generalize ((cordicErr k : ℚ) : ℝ) = E at *
    have h1 : 0 ≤ E * t := mul_nonneg hE ht0
    have h2 : 0 ≤ E * t * (1 - t) := mul_nonneg h1 (by linarith)
    have h3 : 0 ≤ E * t * t ^ 2 := mul_nonneg h1 (sq_nonneg t)
    have h4 : 0 ≤ (1 - t) * (1 + (t / 2) ^ 2) := mul_nonneg (by linarith) (by positivity)
    nlinarith

/-- Componentwise error of the working vector after one micro-rotation. -/
theorem err_update (u v t dx dy E σ : ℝ) (hσ : σ = 1 ∨ σ = -1) (ht0 : 0 ≤ t)
    (hu : |u| ≤ E) (hv : |v| ≤ E) (hdx0 : 0 ≤ dx) (hdx1 : dx ≤ 1 - t)
    (hdy0 : 0 ≤ dy) (hdy1 : dy ≤ 1 - t) :
    |u + σ * t * v - σ * dy| ≤ (1 + t) * E + (1 - t) ∧
    |v - σ * t * u + σ * dx| ≤ (1 + t) * E + (1 - t) := by
  have htu : |t * u| ≤ t * E := by
    rw [abs_mul, abs_of_nonneg ht0]; exact mul_le_mul_of_nonneg_left hu ht0
  have htv : |t * v| ≤ t * E := by
    rw [abs_mul, abs_of_nonneg ht0]; exact mul_le_mul_of_nonneg_left hv ht0
  rw [abs_le] at hu hv htu htv
  rcases hσ with h | h <;> subst h <;> constructor <;> rw [abs_le] <;> constructor <;> linarith

/-- The convergence bound on the exactly rotated input is preserved by an iteration whose
direction is chosen by the sign of the computed imaginary part. -/
theorem conv_exact (X Y v t E S σ : ℝ) (hσ : σ = 1 ∨ σ = -1) (ht0 : 0 ≤ t) (ht1 : t ≤ 1)
    (hX : 0 ≤ X) (hE : 0 ≤ E) (hv : |v| ≤ E) (hσy : 0 ≤ σ * (Y + v))
    (hconv : |Y| ≤ 2 * t * X + S) (hS : S ≤ E * (1 + t ^ 2)) :
    |Y - σ * t * X| ≤ t * (X + σ * t * Y) + E * (1 + t ^ 2) := by
  rw [abs_le] at hv hconv
  have htX : 0 ≤ t * X := mul_nonneg ht0 hX
  have ht2 : 0 ≤ 1 - t ^ 2 := by nlinarith
  have hEt : 0 ≤ E * t ^ 2 := mul_nonneg hE (sq_nonneg t)
  rw [abs_le]
  rcases hσ with h | h
  · subst h
    have hYE : 0 ≤ Y + E := by linarith
    have hlow : 0 ≤ (Y + E) * (1 + t ^ 2) := mul_nonneg hYE (by positivity)
    constructor
    · nlinarith
    · rcases le_or_lt 0 Y with hY | hY
      · have : 0 ≤ t ^ 2 * Y := mul_nonneg (sq_nonneg t) hY
        nlinarith
      · have : 0 ≤ (-Y) * (1 - t ^ 2) := mul_nonneg (by linarith) ht2
        nlinarith
  · subst h
    have hYE : 0 ≤ E - Y := by linarith
    have hlow : 0 ≤ (E - Y) * (1 + t ^ 2) := mul_nonneg hYE (by positivity)
    constructor
    · rcases le_or_lt Y 0 with hY | hY
      · have : 0 ≤ t ^ 2 * (-Y) := mul_nonneg (sq_nonneg t) (by linarith)
        nlinarith
      · have : 0 ≤ Y * (1 - t ^ 2) := mul_nonneg hY.le ht2
        nlinarith
    · nlinarith

/-- The exactly rotated input after one micro-rotation. -/
theorem exact_update (n0 θ β P t σ : ℝ) (hσ : σ = 1 ∨ σ = -1) :
    n0 * (P * Real.sqrt (1 + t ^ 2)) * Real.cos (θ - (β + σ * Real.arctan t))
      = n0 * P * Real.cos (θ - β) + σ * t * (n0 * P * Real.sin (θ - β)) ∧
    n0 * (P * Real.sqrt (1 + t ^ 2)) * Real.sin (θ - (β + σ * Real.arctan t))
      = n0 * P * Real.sin (θ - β) - σ * t * (n0 * P * Real.cos (θ - β)) := by
  obtain ⟨hrc, hrs⟩ := rot_trig (θ - β) t σ hσ
  have eγ : θ - (β + σ * Real.arctan t) = θ - β - σ * Real.arctan t := by ring
  rw [eγ]
  constructor
  · have : n0 * (P * Real.sqrt (1 + t ^ 2)) * Real.cos (θ - β - σ * Real.arctan t)
        = n0 * P * (Real.sqrt (1 + t ^ 2) * Real.cos (θ - β - σ * Real.arctan t)) := by ring
    rw [this, hrc]; ring
  · have : n0 * (P * Real.sqrt (1 + t ^ 2)) * Real.sin (θ - β - σ * Real.arctan t)
        = n0 * P * (Real.sqrt (1 + t ^ 2) * Real.sin (θ - β - σ * Real.arctan t)) := by ring
    rw [this, hrs]; ring

/-- An iteration whose additions do not overflow is the exact integer micro-rotation with
shifted operands, in the direction `σ` given by the sign of the imaginary part. -/
theorem cordicStep_eq_fits (k : Nat) (s : CordicState) (hk : k < 14) (hfit : StepFits32 k s)
    (ha : |s.siAngle| ≤ (FPM_tCordicAngleTabQ15.take k).sum) :
    ∃ σ : Int, (σ = 1 ∨ σ = -1) ∧ σ * s.tCartNum.tIm = |s.tCartNum.tIm| ∧
      0 ≤ σ * (s.tCartNum.tIm >>> k) ∧
      cordicStep k s =
        { tCartNum :=
            { tRe := s.tCartNum.tRe + σ * (s.tCartNum.tIm >>> k)
              tIm := s.tCartNum.tIm - σ * (s.tCartNum.tRe >>> k) }
          siAngle := s.siAngle + σ * FPM_tCordicAngleTabQ15.getD k 0 } := by
  obtain ⟨ht1, ht2, ht3⟩ := cordicTab_facts k hk
  have hfy := shiftRight_range s.tCartNum.tIm k
  have ha' := abs_le.mp ha
  unfold StepFits32 at hfit
  by_cases hy : s.tCartNum.tIm < 0
  · rw [if_pos hy] at hfit
    obtain ⟨hfy1, hfy2⟩ := hfy.2 hy
    refine ⟨-1, Or.inr rfl, ?_, by omega, ?_⟩
    · rw [abs_of_neg hy]; ring
    · have e1 : wrap32 (s.tCartNum.tRe - (s.tCartNum.tIm >>> k))
          = s.tCartNum.tRe + -1 * (s.tCartNum.tIm >>> k) := by
        rw [wrap32_of_inRange hfit.1]; ring
      have e2 : wrap32 (s.tCartNum.tIm + (s.tCartNum.tRe >>> k))
          = s.tCartNum.tIm - -1 * (s.tCartNum.tRe >>> k) := by
        rw [wrap32_of_inRange hfit.2]; ring
      have e3 : wrap16 (s.siAngle - FPM_tCordicAngleTabQ15.getD k 0)
          = s.siAngle + -1 * FPM_tCordicAngleTabQ15.getD k 0 := by
        rw [wrap16_of_small (by rw [abs_le]; omega)]; ring
      simp only [cordicStep, if_pos hy, e1, e2, e3]
  · rw [if_neg hy] at hfit
    have hy' : 0 ≤ s.tCartNum.tIm := by omega
    obtain ⟨hfy1, hfy2⟩ := hfy.1 hy'
    refine ⟨1, Or.inl rfl, ?_, by omega, ?_⟩
    · rw [abs_of_nonneg hy']; ring
    · have e1 : wrap32 (s.tCartNum.tRe + (s.tCartNum.tIm >>> k))
          = s.tCartNum.tRe + 1 * (s.tCartNum.tIm >>> k) := by
        rw [wrap32_of_inRange hfit.1]; ring
      have e2 : wrap32 (s.tCartNum.tIm - (s.tCartNum.tRe >>> k))
          = s.tCartNum.tIm - 1 * (s.tCartNum.tRe >>> k) := by
        rw [wrap32_of_inRange hfit.2]; ring
      have e3 : wrap16 (s.siAngle + FPM_tCordicAngleTabQ15.getD k 0)
          = s.siAngle + 1 * FPM_tCordicAngleTabQ15.getD k 0 := by
        rw [wrap16_of_small (by rw [abs_le]; omega)]; ring
      simp only [cordicStep, if_neg hy, e1, e2, e3]

/-- The loop invariant is preserved by an iteration with counter `k < 14` whose additions do
not overflow. -/
theorem CordicInv_step (n0 θ : ℝ) (k : Nat) (hk : k < 14) (s : CordicState)
    (hfit : StepFits32 k s) (h : CordicInv n0 θ k s) : CordicInv n0 θ (k + 1) (cordicStep k s) := by
  obtain ⟨⟨x, y⟩, a⟩ := s
  unfold CordicInv at h ⊢
  dsimp only at h
  obtain ⟨hx, hk0, hk1, ha, P, β, hP, hP2, hu, hv, hconv, hang⟩ := h
  have hE0 := cordicErr_nonneg k
  have hE12 := cordicErr_bounds.1 k (by omega)
  have hEs := cordicErr_succ k
  have hSl := cordicSlack_le k
  have hS1 : ((cordicSlack (k + 1) : ℚ) : ℝ)
      = ((cordicErr k : ℚ) : ℝ) * (1 + ((1 / 2 : ℝ) ^ k) ^ 2) := by
    have e4 : (1 / 4 : ℝ) ^ k = ((1 / 2 : ℝ) ^ k) ^ 2 := by
      rw [← pow_mul, mul_comm, pow_mul]; norm_num
    simp only [cordicSlack]
    push_cast
    rw [e4]
  have hE00 : k = 0 → ((cordicErr k : ℚ) : ℝ) = 0 := by
    intro h0; subst h0; simp [cordicErr]
  generalize ((cordicErr (k + 1) : ℚ) : ℝ) = E' at hEs ⊢
  generalize ((cordicSlack (k + 1) : ℚ) : ℝ) = S' at hS1 ⊢
  generalize ((cordicSlack k : ℚ) : ℝ) = S at hSl hconv
  generalize ((cordicErr k : ℚ) : ℝ) = E at *
  obtain ⟨σ, hσ, hσy, hσf, heq⟩ := cordicStep_eq_fits k ⟨⟨x, y⟩, a⟩ hk hfit ha
  dsimp only at hσy hσf heq
  rw [heq]
  dsimp only
  rw [Finset.sum_range_succ, Finset.prod_range_succ]
  obtain ⟨hfx1, hfx2⟩ := shiftRight_bounds x k
  obtain ⟨hfy1, hfy2⟩ := shiftRight_bounds y k
  obtain ⟨ht1, ht2, ht3⟩ := cordicTab_facts k hk
  obtain ⟨hdx0, hdx1⟩ := frac_bounds x (x >>> k) k hfx1 hfx2
  obtain ⟨hdy0, hdy1⟩ := frac_bounds y (y >>> k) k hfy1 hfy2
  have hfy0 : k = 0 → y >>> k = y := by
    intro h0
    subst h0
    simp only [pow_zero, mul_one] at hfy1 hfy2
    omega
  generalize x >>> k = fx at *
  generalize y >>> k = fy at *
  generalize FPM_tCordicAngleTabQ15.getD k 0 = tk at *
  have hσR : (σ : ℝ) = 1 ∨ (σ : ℝ) = -1 := by
    rcases hσ with h | h
    · left; rw [h]; norm_num
    · right; rw [h]; norm_num
  have hσabs : |(σ : ℝ)| = 1 := by
    rcases hσR with h | h <;> rw [h] <;> norm_num
  have hσyR : (σ : ℝ) * (y : ℝ) = |(y : ℝ)| := by
    have : ((σ * y : Int) : ℝ) = ((|y| : Int) : ℝ) := by rw [hσy]
    rw [Int.cast_abs] at this
    rw [← this]; push_cast; rfl
  refine ⟨by omega, fun h0 => absurd h0 (by omega), fun _ => ?_, ?_, ?_⟩
  · -- the real part is at least the norm of the input
    rcases Nat.eq_zero_or_pos k with h0 | h1
    · have hfy := hfy0 h0
      have hk0' := hk0 h0
      have e : ((x + σ * fy : Int) : ℝ) = (x : ℝ) + |(y : ℝ)| := by
        rw [hfy, hσy]; push_cast; rfl
      rw [e]; exact hk0'
    · have h1' := hk1 h1
      have : (x : ℝ) ≤ ((x + σ * fy : Int) : ℝ) := by
        exact_mod_cast (by omega : x ≤ x + σ * fy)
      linarith
  · -- accumulated angle stays inside the partial table sum
    rw [ht1]
    rw [abs_le] at ha ⊢
    rcases hσ with h | h <;> subst h <;> constructor <;> omega
  · -- the exactly rotated vector
    have ht0 : (0 : ℝ) ≤ (1 / 2) ^ k := by positivity
    have ht1' : ((1 / 2 : ℝ) ^ k) ≤ 1 := pow_le_one₀ (by norm_num) (by norm_num)
    have htsq : ((1 / 2 : ℝ) ^ k) ^ 2 = (1 / 4) ^ k := by
      rw [← pow_mul, mul_comm, pow_mul]; norm_num
    have ht1eq : k = 0 → (1 / 2 : ℝ) ^ k = 1 := by
      intro h0; rw [h0]; norm_num
    have ht2 : 2 * (1 / 2 : ℝ) ^ (k + 1) = (1 / 2) ^ k := by
      rw [pow_succ]; ring
    rw [ht2]
    generalize (1 / 2 : ℝ) ^ k = t at *
    have hcpos : 0 < Real.sqrt (1 + t ^ 2) := Real.sqrt_pos.mpr (by positivity)
    have hc2 : Real.sqrt (1 + t ^ 2) ^ 2 = 1 + t ^ 2 := Real.sq_sqrt (by positivity)
    obtain ⟨hX', hY'⟩ := exact_update n0 θ β P t σ hσR
    refine ⟨P * Real.sqrt (1 + t ^ 2), β + σ * Real.arctan t, mul_pos hP hcpos, ?_, ?_, ?_, ?_, ?_⟩
    · rw [← hP2, mul_pow, hc2, htsq]
    · rw [hX', hEs]
      have e : ((x + σ * fy : Int) : ℝ)
            - (n0 * P * Real.cos (θ - β) + σ * t * (n0 * P * Real.sin (θ - β)))
          = ((x : ℝ) - n0 * P * Real.cos (θ - β)) + σ * t * ((y : ℝ) - n0 * P * Real.sin (θ - β))
            - σ * (t * y - fy) := by
        push_cast; ring
      rw [e]
      exact (err_update _ _ t (t * x - fx) (t * y - fy) E σ hσR ht0 hu hv
        hdx0 hdx1 hdy0 hdy1).1
    · rw [hY', hEs]
      have e : ((y - σ * fx : Int) : ℝ)
            - (n0 * P * Real.sin (θ - β) - σ * t * (n0 * P * Real.cos (θ - β)))
          = ((y : ℝ) - n0 * P * Real.sin (θ - β)) - σ * t * ((x : ℝ) - n0 * P * Real.cos (θ - β))
            + σ * (t * x - fx) := by
        push_cast; ring
      rw [e]
      exact (err_update _ _ t (t * x - fx) (t * y - fy) E σ hσR ht0 hu hv
        hdx0 hdx1 hdy0 hdy1).2
    · intro _ h13
      rw [hX', hY', hS1]
      have hx0 : (0 : ℝ) ≤ x := by exact_mod_cast hx
      rcases Nat.eq_zero_or_pos k with h0 | h1
      · -- first iteration: the working vector is still exact
        have hE0' := hE00 h0
        have ht1'' := ht1eq h0
        rw [hE0'] at hu hv ⊢
        rw [ht1'']
        have hu0 : (x : ℝ) - n0 * P * Real.cos (θ - β) = 0 := abs_nonpos_iff.mp hu
        have hv0 : (y : ℝ) - n0 * P * Real.sin (θ - β) = 0 := abs_nonpos_iff.mp hv
        have eX : n0 * P * Real.cos (θ - β) = x := by linarith
        have eY : n0 * P * Real.sin (θ - β) = y := by linarith
        rw [eX, eY]
        have hy0 : 0 ≤ (σ : ℝ) * (y : ℝ) := by rw [hσyR]; exact abs_nonneg _
        rw [abs_le]
        rcases hσR with h | h <;> rw [h] at hy0 ⊢ <;> constructor <;> linarith
      · have hX0 : 0 ≤ n0 * P * Real.cos (θ - β) := by
          have h1' := hk1 h1
          have := (abs_le.mp hu).2
          linarith
        have hσy' : 0 ≤ (σ : ℝ) * (n0 * P * Real.sin (θ - β)
            + ((y : ℝ) - n0 * P * Real.sin (θ - β))) := by
          have e : n0 * P * Real.sin (θ - β) + ((y : ℝ) - n0 * P * Real.sin (θ - β)) = y := by
            ring
          rw [e, hσyR]; exact abs_nonneg _
        have hc := hconv h1 h13
        have hSl' : S ≤ E * (1 + t ^ 2) := hSl
        exact conv_exact _ _ _ t E S σ hσR ht0 ht1' hX0 hE0 hv hσy' hc hSl'
    · have e : ((a + σ * tk : Int) : ℝ) - 32768 / Real.pi * (β + σ * Real.arctan t)
          = ((a : ℝ) - 32768 / Real.pi * β) + σ * ((tk : ℝ) - 32768 / Real.pi * Real.arctan t) := by
        push_cast; ring
      rw [e]
      refine le_trans (abs_add _ _) ?_
      rw [abs_mul, hσabs, one_mul]
      exact add_le_add hang (le_refl _)

/-- The state after `n + 1` iterations is one iteration applied to the state after `n`. -/
theorem cordicLoop_succ (n : Nat) : ∀ (i : Nat) (s : CordicState),
    cordicLoop (n + 1) i s = cordicStep (i + n) (cordicLoop n i s) := by
  induction n with
  | zero =>
    intro i s
    rfl
  | succ n ih =>
    intro i s
    show cordicLoop (n + 1) (i + 1) (cordicStep i s) = _
    rw [ih (i + 1) (cordicStep i s)]
    have e : i + 1 + n = i + (n + 1) := by omega
    rw [e]
    rfl

/-- The loop invariant holds after any number `k ≤ 14` of iterations none of which
overflows. -/
theorem CordicInv_loop (n0 θ : ℝ) (s0 : CordicState) (h0 : CordicInv n0 θ 0 s0) (k : Nat)
    (hk : k ≤ 14) (hfit : ∀ j, j < k → StepFits32 j (cordicLoop j 0 s0)) :
    CordicInv n0 θ k (cordicLoop k 0 s0) := by
  induction k with
  | zero => exact h0
  | succ k ih =>
    rw [cordicLoop_succ, Nat.zero_add]
    exact CordicInv_step n0 θ k (by omega) _ (hfit k (by omega))
      (ih (by omega) (fun j hj => hfit j (by omega)))

/-- The loop invariant holds on entry for an input in the right half plane. -/
theorem CordicInv_init (re im : Int) (hre : 0 ≤ re) :
    CordicInv (Real.sqrt ((re : ℝ) ^ 2 + (im : ℝ) ^ 2)) (Complex.arg ⟨re, im⟩) 0
      { tCartNum := { tRe := re, tIm := im }, siAngle := 0 } := by
  have habs : Complex.abs ⟨re, im⟩ = Real.sqrt ((re : ℝ) ^ 2 + (im : ℝ) ^ 2) := by
    rw [Complex.abs_apply, Complex.normSq_mk]
    congr 1
    ring
  have hcos := Complex.abs_mul_cos_arg ⟨re, im⟩
  have hsin := Complex.abs_mul_sin_arg ⟨re, im⟩
  rw [habs] at hcos hsin
  simp only at hcos hsin
  unfold CordicInv
  dsimp only
  refine ⟨hre, fun _ => ?_, fun h => absurd h (by omega), ?_, ?_⟩
  · rw [Real.sqrt_le_iff]
    have hre' : (0 : ℝ) ≤ re := by exact_mod_cast hre
    refine ⟨add_nonneg hre' (abs_nonneg _), ?_⟩
    have : ((re : ℝ) + |(im : ℝ)|) ^ 2 = (re : ℝ) ^ 2 + 2 * (re * |(im : ℝ)|) + |(im : ℝ)| ^ 2 := by
      ring
    rw [this, sq_abs]
    have : 0 ≤ (re : ℝ) * |(im : ℝ)| := mul_nonneg hre' (abs_nonneg _)
    linarith
  · simp
  · refine ⟨1, 0, one_pos, by simp, ?_, ?_, fun h => absurd h (by omega), by simp⟩
    · rw [mul_one, sub_zero, hcos]
      simp [cordicErr]
    · rw [mul_one, sub_zero, hsin]
      simp [cordicErr]

/-- The loop invariant holds after the 14 iterations of `FPM_vCart2Pol` for every input with
non-negative real part on which no iteration overflows. -/
theorem CordicInv_final (re im : Int) (hre : 0 ≤ re) (hfit : CordicLoopFits ⟨re, im⟩) :
    CordicInv (Real.sqrt ((re : ℝ) ^ 2 + (im : ℝ) ^ 2)) (Complex.arg ⟨re, im⟩) 14
      (cordicLoop FPM_CORDIC_ITERATIONS 0
        { tCartNum := (preRotate ⟨re, im⟩).1, siAngle := 0 }) := by
  have hpre : (preRotate ⟨re, im⟩).1 = ⟨re, im⟩ := by
    have hn' : ¬ (re < 0) := by omega
    simp only [preRotate, if_neg hn']
  unfold CordicLoopFits at hfit
  rw [hpre] at hfit ⊢
  exact CordicInv_loop _ _ _ (CordicInv_init re im hre) 14 (le_refl _)
    (fun j hj => hfit j hj)

/-- The facts on the final loop state that the magnitude and angle bounds use, for an
input of norm `n0` and angle `θ`. -/
theorem cordic_final_facts (n0 θ : ℝ) (x y a : Int)
    (h : CordicInv n0 θ 14 ⟨⟨x, y⟩, a⟩) :
    0 ≤ x ∧ n0 ≤ (x : ℝ) ∧ |a| ≤ 18181 ∧
    ∃ P β : ℝ, 164676 / 100000 ≤ P ∧ P ≤ 164677 / 100000 ∧
      |(x : ℝ) - n0 * P * Real.cos (θ - β)| ≤ 127324 / 10000 ∧
      |(y : ℝ) - n0 * P * Real.sin (θ - β)| ≤ 127324 / 10000 ∧
      (13 ≤ n0 → |n0 * P * Real.sin (θ - β)|
        ≤ n0 * P * Real.cos (θ - β) / 8192 + 117311 / 10000) ∧
      |(a : ℝ) - 32768 / Real.pi * β| ≤
        ∑ j in Finset.range 14, |((FPM_tCordicAngleTabQ15.getD j 0 : Int) : ℝ)
          - 32768 / Real.pi * Real.arctan ((1 / 2 : ℝ) ^ j)| := by
  unfold CordicInv at h
  dsimp only at h
  obtain ⟨hx, -, hk1, ha, P, β, hP, hP2, hu, hv, hconv, hang⟩ := h
  obtain ⟨hg1, hg2⟩ := gain14_bounds
  obtain ⟨-, hE14, hS14⟩ := cordicErr_bounds
  rw [← hP2] at hg1 hg2
  have hPlo : 164676 / 100000 ≤ P := by
    by_contra hc
    have : P < 164676 / 100000 := lt_of_not_le hc
    nlinarith
  have hPhi : P ≤ 164677 / 100000 := by
    by_contra hc
    have : 164677 / 100000 < P := lt_of_not_le hc
    nlinarith
  refine ⟨hx, hk1 (by norm_num), ?_, P, β, hPlo, hPhi, le_trans hu hE14, le_trans hv hE14,
    fun h13 => ?_, hang⟩
  · have : (FPM_tCordicAngleTabQ15.take 14).sum = 18181 := by decide
    rw [this] at ha
    exact ha
  · have hc := hconv (by norm_num) h13
    have e : 2 * (1 / 2 : ℝ) ^ 14 * (n0 * P * Real.cos (θ - β))
        = n0 * P * Real.cos (θ - β) / 8192 := by
      norm_num
      ring
    rw [e] at hc
    linarith

/-! ## Accuracy of the angle table -/

/-- A function on `[0, ∞)` that vanishes at `0` and has a non-negative derivative is non-
negative. -/
theorem nonneg_of_hasDerivAt_nonneg (f f' : ℝ → ℝ) (h0 : f 0 = 0)
    (hd : ∀ x, HasDerivAt f (f' x) x) (hpos : ∀ x, 0 ≤ x → 0 ≤ f' x) :
    ∀ x, 0 ≤ x → 0 ≤ f x := by
  have hdiff : Differentiable ℝ f := fun x => (hd x).differentiableAt
  have hmono : MonotoneOn f (Set.Ici 0) := by
    apply monotoneOn_of_deriv_nonneg (convex_Ici 0) hdiff.continuous.continuousOn
      hdiff.differentiableOn
    intro x hx
    rw [interior_Ici] at hx
    rw [(hd x).deriv]
    exact hpos x (le_of_lt hx)
  intro x hx
  have := hmono (Set.mem_Ici.mpr (le_refl 0)) (Set.mem_Ici.mpr hx) hx
  rw [h0] at this
  exact this

/-- Lower bound of `arctan` by its alternating series truncated after the term `-x^15 / 15`. -/
theorem arctan_series_lower (x : ℝ) (hx : 0 ≤ x) :
    x - x ^ 3 / 3 + x ^ 5 / 5 - x ^ 7 / 7 + x ^ 9 / 9 - x ^ 11 / 11 + x ^ 13 / 13 - x ^ 15 / 15
      ≤ Real.arctan x := by
  have key := nonneg_of_hasDerivAt_nonneg
    (fun x => Real.arctan x - (x - x ^ 3 / 3 + x ^ 5 / 5 - x ^ 7 / 7 + x ^ 9 / 9 - x ^ 11 / 11
      + x ^ 13 / 13 - x ^ 15 / 15))
    (fun x => x ^ 16 / (1 + x ^ 2)) (by simp) ?_ ?_ x hx
  · simp only at key
    linarith
  · intro x
    have h := (Real.hasDerivAt_arctan x).sub
      ((((((((hasDerivAt_id x).sub ((hasDerivAt_pow 3 x).div_const 3)).add
        ((hasDerivAt_pow 5 x).div_const 5)).sub ((hasDerivAt_pow 7 x).div_const 7)).add
        ((hasDerivAt_pow 9 x).div_const 9)).sub ((hasDerivAt_pow 11 x).div_const 11)).add
        ((hasDerivAt_pow 13 x).div_const 13)).sub ((hasDerivAt_pow 15 x).div_const 15))
    convert h using 1
    have hne : (1 + x ^ 2) ≠ 0 := by positivity
    field_simp
    ring
  · intro x _
    positivity

/-- Upper bound of `arctan` by its alternating series truncated after the term `x^13 / 13`. -/
theorem arctan_series_upper (x : ℝ) (hx : 0 ≤ x) :
    Real.arctan x
      ≤ x - x ^ 3 / 3 + x ^ 5 / 5 - x ^ 7 / 7 + x ^ 9 / 9 - x ^ 11 / 11 + x ^ 13 / 13 := by
  have key := nonneg_of_hasDerivAt_nonneg
    (fun x => (x - x ^ 3 / 3 + x ^ 5 / 5 - x ^ 7 / 7 + x ^ 9 / 9 - x ^ 11 / 11
      + x ^ 13 / 13) - Real.arctan x)
    (fun x => x ^ 14 / (1 + x ^ 2)) (by simp) ?_ ?_ x hx
  · simp only at key
    linarith
  · intro x
    have h := ((((((((hasDerivAt_id x).sub ((hasDerivAt_pow 3 x).div_const 3)).add
        ((hasDerivAt_pow 5 x).div_const 5)).sub ((hasDerivAt_pow 7 x).div_const 7)).add
        ((hasDerivAt_pow 9 x).div_const 9)).sub ((hasDerivAt_pow 11 x).div_const 11)).add
        ((hasDerivAt_pow 13 x).div_const 13))).sub (Real.hasDerivAt_arctan x)
    convert h using 1
    have hne : (1 + x ^ 2) ≠ 0 := by positivity
    field_simp
    ring
  · intro x _
    positivity

/-- Error of a table entry `t` against `32768 / π * arctan x`, from rational bounds. -/
theorem tab_err (t x lo hi d : ℝ) (hlo : lo ≤ Real.arctan x) (hhi : Real.arctan x ≤ hi)
    (h0 : 0 ≤ lo) (h1 : t - d ≤ 32768 * lo / 3141593 * 1000000)
    (h2 : 32768 * hi / 3141592 * 1000000 ≤ t + d) :
    |t - 32768 / Real.pi * Real.arctan x| ≤ d := by
  have hpi1 := Real.pi_gt_d6
  have hpi2 := Real.pi_lt_d6
  have hpos : 0 < Real.pi := Real.pi_pos
  have ha0 : 0 ≤ Real.arctan x := le_trans h0 hlo
  have e : 32768 / Real.pi * Real.arctan x = 32768 * Real.arctan x / Real.pi := by ring
  rw [e, abs_le]
  constructor
  · have : 32768 * Real.arctan x / Real.pi ≤ 32768 * hi / 3141592 * 1000000 := by
      rw [div_le_iff₀ hpos]
      have h3 : 32768 * Real.arctan x ≤ 32768 * hi := by linarith
      have h4 : 0 ≤ 32768 * hi / 3141592 * 1000000 := by
        have : 0 ≤ hi := le_trans ha0 hhi
        positivity
      have h5 : 32768 * hi / 3141592 * 1000000 * 3.141592 ≤
          32768 * hi / 3141592 * 1000000 * Real.pi :=
        mul_le_mul_of_nonneg_left hpi1.le h4
      have h6 : 32768 * hi / 3141592 * 1000000 * 3.141592 = 32768 * hi := by
        norm_num
        ring
      linarith
    linarith
  · have : 32768 * lo / 3141593 * 1000000 ≤ 32768 * Real.arctan x / Real.pi := by
      rw [le_div_iff₀ hpos]
      have h3 : 32768 * lo ≤ 32768 * Real.arctan x := by linarith
      have h4 : 0 ≤ 32768 * lo / 3141593 * 1000000 := by positivity
      have h5 : 32768 * lo / 3141593 * 1000000 * Real.pi ≤
          32768 * lo / 3141593 * 1000000 * 3.141593 :=
        mul_le_mul_of_nonneg_left hpi2.le h4
      have h6 : 32768 * lo / 3141593 * 1000000 * 3.141593 = 32768 * lo := by
        norm_num
        ring
      linarith
    linarith

/-- Rounding error of the table entry `1` against `32768 / π * arctan (2^(-1))`. -/
theorem cordicTab_error_1 :
    |((FPM_tCordicAngleTabQ15.getD 1 0 : Int) : ℝ)
      - 32768 / Real.pi * Real.arctan ((1 / 2 : ℝ) ^ 1)| ≤ 77 / 2000 := by
  have e : ((FPM_tCordicAngleTabQ15.getD 1 0 : Int) : ℝ) = 4836 := by
    rw [show FPM_tCordicAngleTabQ15.getD 1 0 = 4836 from rfl]
    norm_num
  rw [e]
  have hx : (0 : ℝ) ≤ (1 / 2) ^ 1 := by positivity
  exact tab_err _ _ _ _ _ (arctan_series_lower _ hx) (arctan_series_upper _ hx)
    (by norm_num) (by norm_num) (by norm_num)

/-- Rounding error of the table entry `2` against `32768 / π * arctan (2^(-2))`. -/
theorem cordicTab_error_2 :
    |((FPM_tCordicAngleTabQ15.getD 2 0 : Int) : ℝ)
      - 32768 / Real.pi * Real.arctan ((1 / 2 : ℝ) ^ 2)| ≤ 138 / 625 := by
  have e : ((FPM_tCordicAngleTabQ15.getD 2 0 : Int) : ℝ) = 2555 := by
    rw [show FPM_tCordicAngleTabQ15.getD 2 0 = 2555 from rfl]
    norm_num
  rw [e]
  have hx : (0 : ℝ) ≤ (1 / 2) ^ 2 := by positivity
  exact tab_err _ _ _ _ _ (arctan_series_lower _ hx) (arctan_series_upper _ hx)
    (by norm_num) (by norm_num) (by norm_num)

/-- Rounding error of the table entry `3` against `32768 / π * arctan (2^(-3))`. -/
theorem cordicTab_error_3 :
    |((FPM_tCordicAngleTabQ15.getD 3 0 : Int) : ℝ)
      - 32768 / Real.pi * Real.arctan ((1 / 2 : ℝ) ^ 3)| ≤ 701 / 10000 := by
  have e : ((FPM_tCordicAngleTabQ15.getD 3 0 : Int) : ℝ) = 1297 := by
    rw [show FPM_tCordicAngleTabQ15.getD 3 0 = 1297 from rfl]
    norm_num
  rw [e]
  have hx : (0 : ℝ) ≤ (1 / 2) ^ 3 := by positivity
  exact tab_err _ _ _ _ _ (arctan_series_lower _ hx) (arctan_series_upper _ hx)
    (by norm_num) (by norm_num) (by norm_num)

/-- Rounding error of the table entry `4` against `32768 / π * arctan (2^(-4))`. -/
theorem cordicTab_error_4 :
    |((FPM_tCordicAngleTabQ15.getD 4 0 : Int) : ℝ)
      - 32768 / Real.pi * Real.arctan ((1 / 2 : ℝ) ^ 4)| ≤ 521 / 10000 := by
  have e : ((FPM_tCordicAngleTabQ15.getD 4 0 : Int) : ℝ) = 651 := by
    rw [show FPM_tCordicAngleTabQ15.getD 4 0 = 651 from rfl]
    norm_num
  rw [e]
  have hx : (0 : ℝ) ≤ (1 / 2) ^ 4 := by positivity
  exact tab_err _ _ _ _ _ (arctan_series_lower _ hx) (arctan_series_upper _ hx)
    (by norm_num) (by norm_num) (by norm_num)

/-- Rounding error of the table entry `5` against `32768 / π * arctan (2^(-5))`. -/
theorem cordicTab_error_5 :
    |((FPM_tCordicAngleTabQ15.getD 5 0 : Int) : ℝ)
      - 32768 / Real.pi * Real.arctan ((1 / 2 : ℝ) ^ 5)| ≤ 1569 / 10000 := by
  have e : ((FPM_tCordicAngleTabQ15.getD 5 0 : Int) : ℝ) = 326 := by
    rw [show FPM_tCordicAngleTabQ15.getD 5 0 = 326 from rfl]
    norm_num
  rw [e]
  have hx : (0 : ℝ) ≤ (1 / 2) ^ 5 := by positivity
  exact tab_err _ _ _ _ _ (arctan_series_lower _ hx) (arctan_series_upper _ hx)
    (by norm_num) (by norm_num) (by norm_num)

/-- Rounding error of the table entry `6` against `32768 / π * arctan (2^(-6))`. -/
theorem cordicTab_error_6 :
    |((FPM_tCordicAngleTabQ15.getD 6 0 : Int) : ℝ)
      - 32768 / Real.pi * Real.arctan ((1 / 2 : ℝ) ^ 6)| ≤ 97 / 2500 := by
  have e : ((FPM_tCordicAngleTabQ15.getD 6 0 : Int) : ℝ) = 163 := by
    rw [show FPM_tCordicAngleTabQ15.getD 6 0 = 163 from rfl]
    norm_num
  rw [e]
  have hx : (0 : ℝ) ≤ (1 / 2) ^ 6 := by positivity
  exact tab_err _ _ _ _ _ (arctan_series_lower _ hx) (arctan_series_upper _ hx)
    (by norm_num) (by norm_num) (by norm_num)

/-- Rounding error of the table entry `7` against `32768 / π * arctan (2^(-7))`. -/
theorem cordicTab_error_7 :
    |((FPM_tCordicAngleTabQ15.getD 7 0 : Int) : ℝ)
      - 32768 / Real.pi * Real.arctan ((1 / 2 : ℝ) ^ 7)| ≤ 2429 / 5000 := by
  have e : ((FPM_tCordicAngleTabQ15.getD 7 0 : Int) : ℝ) = 81 := by
    rw [show FPM_tCordicAngleTabQ15.getD 7 0 = 81 from rfl]
    norm_num
  rw [e]
  have hx : (0 : ℝ) ≤ (1 / 2) ^ 7 := by positivity
  exact tab_err _ _ _ _ _ (arctan_series_lower _ hx) (arctan_series_upper _ hx)
    (by norm_num) (by norm_num) (by norm_num)

/-- Rounding error of the table entry `8` against `32768 / π * arctan (2^(-8))`. -/
theorem cordicTab_error_8 :
    |((FPM_tCordicAngleTabQ15.getD 8 0 : Int) : ℝ)
      - 32768 / Real.pi * Real.arctan ((1 / 2 : ℝ) ^ 8)| ≤ 2567 / 10000 := by
  have e : ((FPM_tCordicAngleTabQ15.getD 8 0 : Int) : ℝ) = 41 := by
    rw [show FPM_tCordicAngleTabQ15.getD 8 0 = 41 from rfl]
    norm_num
  rw [e]
  have hx : (0 : ℝ) ≤ (1 / 2) ^ 8 := by positivity
  exact tab_err _ _ _ _ _ (arctan_series_lower _ hx) (arctan_series_upper _ hx)
    (by norm_num) (by norm_num) (by norm_num)

/-- Rounding error of the table entry `9` against `32768 / π * arctan (2^(-9))`. -/
theorem cordicTab_error_9 :
    |((FPM_tCordicAngleTabQ15.getD 9 0 : Int) : ℝ)
      - 32768 / Real.pi * Real.arctan ((1 / 2 : ℝ) ^ 9)| ≤ 93 / 250 := by
  have e : ((FPM_tCordicAngleTabQ15.getD 9 0 : Int) : ℝ) = 20 := by
    rw [show FPM_tCordicAngleTabQ15.getD 9 0 = 20 from rfl]
    norm_num
  rw [e]
  have hx : (0 : ℝ) ≤ (1 / 2) ^ 9 := by positivity
  exact tab_err _ _ _ _ _ (arctan_series_lower _ hx) (arctan_series_upper _ hx)
    (by norm_num) (by norm_num) (by norm_num)

/-- Rounding error of the table entry `10` against `32768 / π * arctan (2^(-10))`. -/
theorem cordicTab_error_10 :
    |((FPM_tCordicAngleTabQ15.getD 10 0 : Int) : ℝ)
      - 32768 / Real.pi * Real.arctan ((1 / 2 : ℝ) ^ 10)| ≤ 1861 / 10000 := by
  have e : ((FPM_tCordicAngleTabQ15.getD 10 0 : Int) : ℝ) = 10 := by
    rw [show FPM_tCordicAngleTabQ15.getD 10 0 = 10 from rfl]
    norm_num
  rw [e]
  have hx : (0 : ℝ) ≤ (1 / 2) ^ 10 := by positivity
  exact tab_err _ _ _ _ _ (arctan_series_lower _ hx) (arctan_series_upper _ hx)
    (by norm_num) (by norm_num) (by norm_num)

/-- Rounding error of the table entry `11` against `32768 / π * arctan (2^(-11))`. -/
theorem cordicTab_error_11 :
    |((FPM_tCordicAngleTabQ15.getD 11 0 : Int) : ℝ)
      - 32768 / Real.pi * Real.arctan ((1 / 2 : ℝ) ^ 11)| ≤ 931 / 10000 := by
  have e : ((FPM_tCordicAngleTabQ15.getD 11 0 : Int) : ℝ) = 5 := by
    rw [show FPM_tCordicAngleTabQ15.getD 11 0 = 5 from rfl]
    norm_num
  rw [e]
  have hx : (0 : ℝ) ≤ (1 / 2) ^ 11 := by positivity
  exact tab_err _ _ _ _ _ (arctan_series_lower _ hx) (arctan_series_upper _ hx)
    (by norm_num) (by norm_num) (by norm_num)

/-- Rounding error of the table entry `12` against `32768 / π * arctan (2^(-12))`. -/
theorem cordicTab_error_12 :
    |((FPM_tCordicAngleTabQ15.getD 12 0 : Int) : ℝ)
      - 32768 / Real.pi * Real.arctan ((1 / 2 : ℝ) ^ 12)| ≤ 4537 / 10000 := by
  have e : ((FPM_tCordicAngleTabQ15.getD 12 0 : Int) : ℝ) = 3 := by
    rw [show FPM_tCordicAngleTabQ15.getD 12 0 = 3 from rfl]
    norm_num
  rw [e]
  have hx : (0 : ℝ) ≤ (1 / 2) ^ 12 := by positivity
  exact tab_err _ _ _ _ _ (arctan_series_lower _ hx) (arctan_series_upper _ hx)
    (by norm_num) (by norm_num) (by norm_num)

/-- Rounding error of the table entry `13` against `32768 / π * arctan (2^(-13))`. -/
theorem cordicTab_error_13 :
    |((FPM_tCordicAngleTabQ15.getD 13 0 : Int) : ℝ)
      - 32768 / Real.pi * Real.arctan ((1 / 2 : ℝ) ^ 13)| ≤ 1367 / 5000 := by
  have e : ((FPM_tCordicAngleTabQ15.getD 13 0 : Int) : ℝ) = 1 := by
    rw [show FPM_tCordicAngleTabQ15.getD 13 0 = 1 from rfl]
    norm_num
  rw [e]
  have hx : (0 : ℝ) ≤ (1 / 2) ^ 13 := by positivity
  exact tab_err _ _ _ _ _ (arctan_series_lower _ hx) (arctan_series_upper _ hx)
    (by norm_num) (by norm_num) (by norm_num)

/-- Rounding error of the table entry `0` against `32768 / π * arctan (2^(-0))`. -/
theorem cordicTab_error_0 :
    |((FPM_tCordicAngleTabQ15.getD 0 0 : Int) : ℝ)
      - 32768 / Real.pi * Real.arctan ((1 / 2 : ℝ) ^ 0)| ≤ 0 := by
  have e : ((FPM_tCordicAngleTabQ15.getD 0 0 : Int) : ℝ) = 8192 := by
    rw [show FPM_tCordicAngleTabQ15.getD 0 0 = 8192 from rfl]
    norm_num
  have hpi : Real.pi ≠ 0 := Real.pi_ne_zero
  rw [e, pow_zero, Real.arctan_one]
  have : 32768 / Real.pi * (Real.pi / 4) = 8192 := by
    field_simp
    norm_num
  rw [this]
  norm_num

/-- Truncating division by a positive divisor: sign and remainder bounds. -/
theorem tdiv_bounds (p d : Int) (hd : 0 < d) :
    (0 ≤ p → 0 ≤ p.tdiv d ∧ p.tdiv d * d ≤ p ∧ p < p.tdiv d * d + d) ∧
    (p ≤ 0 → p.tdiv d ≤ 0 ∧ p ≤ p.tdiv d * d ∧ p.tdiv d * d - d < p) := by
  constructor
  · intro hp
    rw [Int.tdiv_eq_ediv hp hd.le]
    refine ⟨Int.ediv_nonneg hp hd.le, Int.ediv_mul_le p hd.ne', ?_⟩
    have := Int.lt_ediv_add_one_mul_self p hd
    linarith
  · intro hp
    have hn : 0 ≤ -p := by omega
    have e : p.tdiv d = -((-p).tdiv d) := by rw [Int.neg_tdiv, neg_neg]
    rw [e, Int.tdiv_eq_ediv hn hd.le]
    have h1 := Int.ediv_nonneg hn hd.le
    have h2 := Int.ediv_mul_le (-p) hd.ne'
    have h3 := Int.lt_ediv_add_one_mul_self (-p) hd
    refine ⟨by omega, by linarith, by linarith⟩

/-- The quotient of a truncating division by a positive divisor is not larger in absolute
value than the dividend. -/
theorem tdiv_abs_le (p d : Int) (hd : 0 < d) : |p.tdiv d| ≤ |p| := by
  have h := tdiv_bounds p d hd
  rcases le_total 0 p with hp | hp
  · obtain ⟨h1, h2, _⟩ := h.1 hp
    rw [abs_of_nonneg h1, abs_of_nonneg hp]
    nlinarith
  · obtain ⟨h1, h2, _⟩ := h.2 hp
    rw [abs_of_nonpos h1, abs_of_nonpos hp]
    nlinarith

/-- The value of `(TFp)(1UL << k)` for `k ≤ 30` is `2^k`. -/
theorem oneShl_eq (k : Nat) (hk : k ≤ 30) : oneShl k = some (2 ^ k : Int) := by
  have h1 : (2 : Nat) ^ k ≤ 2 ^ 30 := Nat.pow_le_pow_right (by norm_num) hk
  have h2 : (1 <<< k : Nat) = 2 ^ k := by rw [Nat.shiftLeft_eq, one_mul]
  unfold oneShl
  rw [if_pos (by omega), h2, Nat.mod_eq_of_lt (by omega)]
  have h3 : wrap32 ((2 ^ k : Nat) : Int) = ((2 ^ k : Nat) : Int) := by
    have h4 : ((2 ^ k : Nat) : Int) ≤ 2 ^ 30 := by exact_mod_cast h1
    have h5 : (0 : Int) ≤ ((2 ^ k : Nat) : Int) := Int.natCast_nonneg _
    generalize ((2 ^ k : Nat) : Int) = m at h4 h5 ⊢
    unfold wrap32
    omega
  rw [h3]
  push_cast
  rfl

/-- The divisor `(TFp)(1UL << n)` of the multiplication macros for `n ≤ 30` is `2^n`. -/
theorem shl_cast_eq (n : Nat) (hn : n ≤ 30) :
    wrap32 (((1 <<< n : Nat) % 2 ^ 32 : Nat) : Int) = 2 ^ n := by
  have h := oneShl_eq n hn
  unfold oneShl at h
  rw [if_pos (by omega)] at h
  exact Option.some.inj h

/-- The constant `Q15(0.577350279)` is `18918`. -/
theorem FPM_SQRT3_INV_Q15_eq : FPM_SQRT3_INV_Q15 = 18918 := by decide!

/-- With operands and raw product inside the `int32_t` range, the multiplication macros
return the raw product divided by `2^n` with truncation toward zero. -/
theorem FPM_FpMulQn_eq (n : Nat) (x y : Int) (hn : n ≤ 30) (hx : InRange32 x)
    (hy : InRange32 y) (hxy : InRange32 (x * y)) :
    FPM_FpMulQn n x y = (x * y).tdiv (2 ^ n) := by
  unfold FPM_FpMulQn
  rw [shl_cast_eq n hn, wrap32_of_inRange hx, wrap32_of_inRange hy, wrap32_of_inRange hxy]
  apply wrap32_of_inRange
  have hd : (0 : Int) < 2 ^ n := by positivity
  have h := tdiv_abs_le (x * y) (2 ^ n) hd
  unfold InRange32 at hxy ⊢
  have h1 := abs_le.mp (le_trans h (le_refl _))
  have h2 : |x * y| ≤ 2 ^ 31 := by
    rw [abs_le]
    constructor <;> omega
  rcases le_total 0 (x * y) with hp | hp
  · have := (tdiv_bounds (x * y) (2 ^ n) hd).1 hp
    rw [abs_of_nonneg hp] at h1
    omega
  · have := (tdiv_bounds (x * y) (2 ^ n) hd).2 hp
    rw [abs_of_nonpos hp] at h1
    omega

/-- Relation between the truncating division by `2^n` and the arithmetic right shift: they
agree on non-negative values and on multiples of `2^n`, and differ by one otherwise. -/
theorem tdiv_pow_two_shiftRight (p : Int) (n : Nat) :
    ((0 ≤ p ∨ (2 : Int) ^ n ∣ p) → p.tdiv (2 ^ n) = p >>> n) ∧
    (p < 0 → ¬ (2 : Int) ^ n ∣ p → p.tdiv (2 ^ n) = (p >>> n) + 1) := by
  have hd : (0 : Int) < 2 ^ n := by positivity
  have hs : p >>> n = p / 2 ^ n := by
    rw [Int.shiftRight_eq_div_pow]
    norm_cast
  rw [hs]
  have hdvd : (2 : Int) ^ n ∣ p → p.tdiv (2 ^ n) = p / 2 ^ n := by
    rintro ⟨c, rfl⟩
    rw [Int.mul_tdiv_cancel_left _ hd.ne', Int.mul_ediv_cancel_left _ hd.ne']
  constructor
  · rintro (h | h)
    · exact Int.tdiv_eq_ediv h hd.le
    · exact hdvd h
  · intro hneg hnd
    have hb := (tdiv_bounds p (2 ^ n) hd).2 hneg.le
    have h1 := Int.ediv_mul_le p hd.ne'
    have h2 := Int.lt_ediv_add_one_mul_self p hd
    have h3 : p ≠ p / 2 ^ n * 2 ^ n := by
      intro h
      exact hnd ⟨p / 2 ^ n, by rw [mul_comm]; exact h⟩
    generalize p.tdiv (2 ^ n) = q at hb ⊢
    generalize p / 2 ^ n = f at h1 h2 h3 ⊢
    generalize (2 : Int) ^ n = D at hd hb h1 h2 h3 ⊢
    obtain ⟨_, hb2, hb3⟩ := hb
    have h4 : f * D < p := lt_of_le_of_ne h1 (Ne.symm h3)
    have h5 : (q - f - 1) * D < D := by nlinarith
    have h6 : -D < (q - f - 1) * D := by nlinarith
    have h7 : q - f - 1 < 1 := by
      by_contra hc
      have : 1 * D ≤ (q - f - 1) * D := mul_le_mul_of_nonneg_right (by omega) hd.le
      linarith
    have h8 : -1 < q - f - 1 := by
      by_contra hc
      have : (q - f - 1) * D ≤ (-1) * D := mul_le_mul_of_nonneg_right (by omega) hd.le
      linarith
    omega

set_option maxRecDepth 1000000 in
/-- The values of the sine table: each entry `Q15(x)` of the source evaluated. -/
theorem FPM_tSineTabQ15_eq :
    FPM_tSineTabQ15 = [
      0, 804, 1607, 2410, 3211, 4011, 4808, 5602, 6392, 7179, 7961, 8739,
      9512, 10278, 11039, 11793, 12539, 13278, 14010, 14732, 15446, 16151, 16846, 17530,
      18204, 18868, 19519, 20159, 20787, 21403, 22005, 22594, 23170, 23732, 24279, 24812,
      25330, 25832, 26319, 26790, 27245, 27684, 28106, 28511, 28898, 29269, 29621, 29956,
      30273, 30572, 30852, 31114, 31357, 31581, 31785, 31971, 32138, 32285, 32413, 32521,
      32610, 32679, 32728, 32758, 32768, 32758, 32728, 32679, 32610, 32521, 32413, 32285,
      32138, 31971, 31785, 31581, 31357, 31114, 30852, 30572, 30273, 29956, 29621, 29269,
      28898, 28511, 28106, 27684, 27245, 26790, 26319, 25832, 25330, 24812, 24279, 23732,
      23170, 22594, 22005, 21403, 20787, 20159, 19519, 18868, 18204, 17530, 16846, 16151,
      15446, 14732, 14010, 13278, 12539, 11793, 11039, 10278, 9512, 8739, 7961, 7179,
      6392, 5602, 4808, 4011, 3211, 2410, 1607, 804, 0, -804, -1607, -2410,
      -3211, -4011, -4808, -5602, -6392, -7179, -7961, -8739, -9512, -10278, -11039, -11793,
      -12539, -13278, -14010, -14732, -15446, -16151, -16846, -17530, -18204, -18868, -19519, -20159,
      -20787, -21403, -22005, -22594, -23170, -23732, -24279, -24812, -25330, -25832, -26319, -26790,
      -27245, -27684, -28106, -28511, -28898, -29269, -29621, -29956, -30273, -30572, -30852, -31114,
      -31357, -31581, -31785, -31971, -32138, -32285, -32413, -32521, -32610, -32679, -32728, -32758,
      -32768, -32758, -32728, -32679, -32610, -32521, -32413, -32285, -32138, -31971, -31785, -31581,
      -31357, -31114, -30852, -30572, -30273, -29956, -29621, -29269, -28898, -28511, -28106, -27684,
      -27245, -26790, -26319, -25832, -25330, -24812, -24279, -23732, -23170, -22594, -22005, -21403,
      -20787, -20159, -19519, -18868, -18204, -17530, -16846, -16151, -15446, -14732, -14010, -13278,
      -12539, -11793, -11039, -10278, -9512, -8739, -7961, -7179, -6392, -5602, -4808, -4011,
      -3211, -2410, -1607, -804] := by
  unfold FPM_tSineTabQ15
  repeat (refine congrArg₂ List.cons (by decide!) ?_)
  rfl

set_option maxRecDepth 1000000 in
/-- The sine table has 256 entries. -/
theorem FPM_tSineTab_length : FPM_tSineTab.length = 256 := by
  decide!

/-- The index that `FPM_tSin` computes is the unsigned 16-bit reading of the angle divided
by `256`, and lies inside the table. -/
theorem FPM_tSin_index (Phi : Int) :
    (Phi % 2 ^ 16).toNat >>> (16 - FPM_SINE_TAB_ANGLE_BITS) = (Phi % 65536).toNat / 256 ∧
    (Phi % 65536).toNat / 256 < 256 := by
  have h : (16 - FPM_SINE_TAB_ANGLE_BITS) = 8 := rfl
  rw [h, Nat.shiftRight_eq_div_pow]
  constructor
  · norm_num
  · omega

/-- The index that `FPM_tCos` computes is the index of `FPM_tSin` at the angle advanced by
a quarter turn. -/
theorem FPM_tCos_index (Phi : Int) :
    ((((Phi % 2 ^ 32).toNat + (FPM_PI_HALF % 2 ^ 32).toNat) % 2 ^ 32) &&& 0x0000FFFF)
      >>> (16 - FPM_SINE_TAB_ANGLE_BITS) = ((Phi + 16384) % 65536).toNat / 256 := by
  have h : (16 - FPM_SINE_TAB_ANGLE_BITS) = 8 := rfl
  have hm : (0x0000FFFF : Nat) = 2 ^ 16 - 1 := by norm_num
  have hp : (FPM_PI_HALF % 2 ^ 32).toNat = 16384 := by decide
  rw [h, Nat.shiftRight_eq_div_pow, hm, Nat.and_pow_two_sub_one_eq_mod, hp]
  norm_num
  omega

set_option maxRecDepth 1000000 in
/-- The entry half a turn further in the sine table is the negated entry. -/
theorem FPM_tSineTabQ15_half_turn : ∀ j : Nat, j < 256 →
    FPM_tSineTabQ15[(j + 128) % 256]? = (FPM_tSineTabQ15[j]?).map (fun v => -v) := by
  rw [FPM_tSineTabQ15_eq]
  decide!

set_option maxRecDepth 1000000 in
/-- The first half of the sine table is symmetric about its middle entry. -/
theorem FPM_tSineTabQ15_mirror : ∀ i : Nat, i ≤ 128 →
    FPM_tSineTabQ15[128 - i]? = FPM_tSineTabQ15[i]? := by
  rw [FPM_tSineTabQ15_eq]
  decide!

/-- The cast of a rational to `TFp` is the floor of a non-negative and the ceiling of a
negative value: truncation toward zero. -/
theorem truncToFp_eq (q : ℚ) : truncToFp q = if 0 ≤ q then ⌊q⌋ else ⌈q⌉ := by
  unfold truncToFp
  have hden : (0 : Int) < q.den := by exact_mod_cast q.den_pos
  split_ifs with h
  · rw [Rat.floor_def, Int.tdiv_eq_ediv (Rat.num_nonneg.mpr h) hden.le]
  · have hn : 0 ≤ (-q).num := by
      rw [Rat.num_nonneg]
      linarith
    have e : q.num.tdiv q.den = -((-q).num.tdiv (-q).den) := by
      rw [Rat.neg_num, Rat.neg_den, Int.neg_tdiv, neg_neg]
    have hden' : (0 : Int) < (-q).den := by exact_mod_cast (-q).den_pos
    have hc : ⌈q⌉ = -⌊-q⌋ := by rw [Int.floor_neg, neg_neg]
    rw [e, hc, Rat.floor_def, Int.tdiv_eq_ediv hn hden'.le]

/-- Each multiplier of the literal macros `Q0 .. Q28` is the power of two of its format. -/
theorem literalMacros_lookup : ∀ F : Nat, F < 29 →
    literalMacros.lookup F = some ((2 : ℚ) ^ F) := by
  decide!

/-- No literal macro is defined for the formats `29` and `30`. -/
theorem literalMacros_lookup_none : literalMacros.lookup 29 = none ∧
    literalMacros.lookup 30 = none := by
  decide!

/-! ## Lemmas on the observer list -/

/-- A store to the object `p` is visible when `p` is read back. -/
theorem getElem?_set_same (mem : List Observer_t) (p : Nat) (o o' : Observer_t)
    (h : mem[p]? = some o) : (mem.set p o')[p]? = some o' :=
  List.getElem?_set_self (List.getElem?_eq_some.mp h).1

/-- The result of `OBS_CreateObserver` on a pointer that refers to an object. -/
theorem OBS_CreateObserver_eq (s : ObsState) (p : Nat) (cb : Option Nat) (o : Observer_t)
    (h : s.observers[p]? = some o) :
    OBS_CreateObserver s p cb
      = some { s with observers := s.observers.set p ⟨none, none, cb⟩ } := by
  have e1 : setNext s.observers p none
      = some (s.observers.set p { o with p_next := none }) := by
    unfold setNext
    rw [h, Option.map_some']
  have e2 : setPrev (s.observers.set p { o with p_next := none }) p none
      = some (s.observers.set p ⟨none, none, o.p_cb⟩) := by
    unfold setPrev
    rw [getElem?_set_same _ _ _ _ h, Option.map_some', List.set_set]
  have e3 : setCb (s.observers.set p ⟨none, none, o.p_cb⟩) p cb
      = some (s.observers.set p ⟨none, none, cb⟩) := by
    unfold setCb
    rw [getElem?_set_same _ _ _ _ h, Option.map_some', List.set_set]
  unfold OBS_CreateObserver
  rw [e1, Option.some_bind, e2, Option.some_bind, e3, Option.map_some']

/-- The state after `OBS_Attach` of an object `p` other than the head: `p` becomes the head
with `p_next` the old head and `p_prev` `NULL`; the old head gets `p_prev = p`; no other
field of any object changes. -/
theorem OBS_Attach_spec (s : ObsState) (p : Nat) (o : Observer_t)
    (hp : s.observers[p]? = some o)
    (hh : ∀ h, s.subject.pHead = some h → h ≠ p ∧ ∃ oh, s.observers[h]? = some oh) :
    ∃ s', OBS_Attach s p = some s' ∧ s'.subject.pHead = some p ∧
      s'.subject.cnt = s.subject.cnt ∧ s'.calls = s.calls ∧
      s'.observers.length = s.observers.length ∧
      s'.observers[p]? = some ⟨s.subject.pHead, none, o.p_cb⟩ ∧
      (∀ q, q ≠ p → (s'.observers[q]?).map (fun x => x.p_next)
          = (s.observers[q]?).map (fun x => x.p_next) ∧
        cbOf s'.observers q = cbOf s.observers q) ∧
      (∀ q, q ≠ p → s.subject.pHead ≠ some q → s'.observers[q]? = s.observers[q]?) := by
  have h1 : setNext s.observers p s.subject.pHead
      = some (s.observers.set p { o with p_next := s.subject.pHead }) := by
    unfold setNext
    rw [hp, Option.map_some']
  have h2 : setPrev (s.observers.set p { o with p_next := s.subject.pHead }) p none
      = some (s.observers.set p ⟨s.subject.pHead, none, o.p_cb⟩) := by
    unfold setPrev
    rw [getElem?_set_same _ _ _ _ hp, Option.map_some', List.set_set]
  unfold OBS_Attach
  rw [h1, Option.some_bind, h2, Option.some_bind]
  cases hhead : s.subject.pHead with
  | none =>
    refine ⟨_, rfl, rfl, rfl, rfl, ?_, ?_, ?_, ?_⟩
    · simp only [List.length_set]
    · exact getElem?_set_same _ _ _ _ hp
    · intro q hq
      simp only [cbOf, List.getElem?_set_ne (Ne.symm hq)]
      exact ⟨trivial, trivial⟩
    · intro q hq _
      simp only [List.getElem?_set_ne (Ne.symm hq)]
  | some h =>
    obtain ⟨hne, oh, hoh⟩ := hh h hhead
    have hoh' : (s.observers.set p ⟨some h, none, o.p_cb⟩)[h]? = some oh := by
      rw [List.getElem?_set_ne (Ne.symm hne)]
      exact hoh
    have h3 : setPrev (s.observers.set p ⟨some h, none, o.p_cb⟩) h (some p)
        = some ((s.observers.set p ⟨some h, none, o.p_cb⟩).set h
            { oh with p_prev := some p }) := by
      unfold setPrev
      rw [hoh', Option.map_some']
    simp only [h3, Option.map_some']
    refine ⟨_, rfl, rfl, rfl, rfl, ?_, ?_, ?_, ?_⟩
    · simp only [List.length_set]
    · show ((s.observers.set p ⟨some h, none, o.p_cb⟩).set h { oh with p_prev := some p })[p]?
        = _
      rw [List.getElem?_set_ne hne]
      exact getElem?_set_same _ _ _ _ hp
    · intro q hq
      show (((s.observers.set p ⟨some h, none, o.p_cb⟩).set h
          { oh with p_prev := some p })[q]?).map (fun x => x.p_next) = _ ∧
        cbOf ((s.observers.set p ⟨some h, none, o.p_cb⟩).set h
          { oh with p_prev := some p }) q = _
      by_cases hqh : q = h
      · subst hqh
        unfold cbOf
        rw [getElem?_set_same _ _ _ _ hoh', hoh]
        exact ⟨rfl, rfl⟩
      · unfold cbOf
        rw [List.getElem?_set_ne (Ne.symm hqh), List.getElem?_set_ne (Ne.symm hq)]
        exact ⟨rfl, rfl⟩
    · intro q hq hqh
      have hqh' : q ≠ h := fun e => hqh (by rw [e])
      show ((s.observers.set p ⟨some h, none, o.p_cb⟩).set h { oh with p_prev := some p })[q]?
        = _
      rw [List.getElem?_set_ne (Ne.symm hqh'), List.getElem?_set_ne (Ne.symm hq)]

/-- A chain depends only on the `p_next` fields of its objects. -/
theorem IsChain_congr (mem mem' : List Observer_t) :
    ∀ (l : List Nat) (start : Option Nat),
      (∀ q ∈ l, (mem'[q]?).map (fun x => x.p_next) = (mem[q]?).map (fun x => x.p_next)) →
      IsChain mem start l → IsChain mem' start l := by
  intro l
  induction l with
  | nil =>
    intro start _ h
    exact h
  | cons p l ih =>
    intro start hq h
    obtain ⟨hs, o, ho, hc⟩ := h
    have hp := hq p (List.mem_cons_self _ _)
    rw [ho, Option.map_some'] at hp
    obtain ⟨o', ho', hn⟩ := Option.map_eq_some'.mp hp
    refine ⟨hs, o', ho', ?_⟩
    rw [hn]
    exact ih _ (fun q hql => hq q (List.mem_cons_of_mem _ hql)) hc

/-- Every object of a chain exists. -/
theorem IsChain_valid (mem : List Observer_t) :
    ∀ (l : List Nat) (start : Option Nat), IsChain mem start l →
      ∀ q ∈ l, q < mem.length := by
  intro l
  induction l with
  | nil =>
    intro start _ q hq
    cases hq
  | cons p l ih =>
    intro start h q hq
    obtain ⟨_, o, ho, hc⟩ := h
    rcases List.mem_cons.mp hq with rfl | hql
    · exact (List.getElem?_eq_some.mp ho).1
    · exact ih _ hc q hql

/-- The walk of `OBS_Notify` along a chain invokes the callbacks of its objects in order. -/
theorem notifyLoop_chain (mem : List Observer_t) :
    ∀ (l : List Nat) (fuel : Nat) (start : Option Nat) (calls : List Nat),
      IsChain mem start l → l.length ≤ fuel →
      notifyLoop mem fuel start calls = some (calls ++ l.filterMap (cbOf mem)) := by
  intro l
  induction l with
  | nil =>
    intro fuel start calls h _
    have hs : start = none := h
    subst hs
    cases fuel <;> simp [notifyLoop]
  | cons p l ih =>
    intro fuel start calls h hf
    obtain ⟨hs, o, ho, hc⟩ := h
    subst hs
    obtain ⟨f, rfl⟩ : ∃ f, fuel = f + 1 := ⟨fuel - 1, by simp at hf; omega⟩
    have hlen : l.length ≤ f := by simp at hf; omega
    have hcb : cbOf mem p = o.p_cb := by
      unfold cbOf
      rw [ho, Option.some_bind]
    simp only [notifyLoop, ho]
    rw [ih f o.p_next _ hc hlen]
    cases hcbo : o.p_cb with
    | none =>
      rw [hcbo] at hcb
      simp [List.filterMap_cons, hcb]
    | some cb =>
      rw [hcbo] at hcb
      simp [List.filterMap_cons, hcb]

/-- A list of distinct numbers below `n` has at most `n` entries. -/
theorem nodup_length_le (l : List Nat) (n : Nat) (hnd : l.Nodup) (h : ∀ p ∈ l, p < n) :
    l.length ≤ n := by
  have hsub : l.toFinset ⊆ Finset.range n := by
    intro p hp
    rw [List.mem_toFinset] at hp
    exact Finset.mem_range.mpr (h p hp)
  have hc := Finset.card_le_card hsub
  rw [List.toFinset_card_of_nodup hnd, Finset.card_range] at hc
  exact hc

/-- Creating a list of distinct existing observers initialises each of them and changes
nothing else. -/
theorem createObservers_spec :
    ∀ (obs : List (Nat × Nat)) (s : ObsState), (obs.map Prod.fst).Nodup →
      (∀ x ∈ obs, x.1 < s.observers.length) →
      ∃ s', createObservers s obs = some s' ∧ s'.subject = s.subject ∧
        s'.calls = s.calls ∧ s'.observers.length = s.observers.length ∧
        (∀ x ∈ obs, s'.observers[x.1]? = some ⟨none, none, some x.2⟩) ∧
        (∀ q, q ∉ obs.map Prod.fst → s'.observers[q]? = s.observers[q]?) := by
  intro obs
  induction obs with
  | nil =>
    intro s _ _
    refine ⟨s, rfl, rfl, rfl, rfl, ?_, ?_⟩
    · intro x hx
      cases hx
    · intro _ _
      rfl
  | cons x r ih =>
    intro s hnd hv
    obtain ⟨p, cb⟩ := x
    rw [List.map_cons, List.nodup_cons] at hnd
    obtain ⟨hp, hnd'⟩ := hnd
    have hplt : p < s.observers.length := hv (p, cb) (List.mem_cons_self _ _)
    have ho : s.observers[p]? = some s.observers[p] := List.getElem?_eq_getElem hplt
    have hc := OBS_CreateObserver_eq s p (some cb) _ ho
    obtain ⟨s', h1, h2, h3, h4, h5, h6⟩ :=
      ih { s with observers := s.observers.set p ⟨none, none, some cb⟩ } hnd'
        (fun y hy => by
          simp only [List.length_set]
          exact hv y (List.mem_cons_of_mem _ hy))
    refine ⟨s', ?_, h2, h3, ?_, ?_, ?_⟩
    · simp only [createObservers, hc, Option.some_bind]
      exact h1
    · rw [h4]
      simp only [List.length_set]
    · intro y hy
      rcases List.mem_cons.mp hy with rfl | hyr
      · rw [h6 p hp]
        exact getElem?_set_same _ _ _ _ ho
      · exact h5 y hyr
    · intro q hq
      rw [List.map_cons, List.mem_cons, not_or] at hq
      rw [h6 q hq.2]
      exact List.getElem?_set_ne (Ne.symm hq.1)

/-- Attaching a list of distinct freshly created observers, none of them in the list
already, puts them in front of the list in reverse order and keeps every callback. -/
theorem attachObservers_chain :
    ∀ (rest : List (Nat × Nat)) (s : ObsState) (done : List (Nat × Nat)),
      (rest.map Prod.fst).Nodup →
      (∀ x ∈ rest, x.1 ∉ done.map Prod.fst) →
      (∀ x ∈ rest, s.observers[x.1]? = some ⟨none, none, some x.2⟩) →
      IsChain s.observers s.subject.pHead (done.map Prod.fst) →
      (∀ x ∈ done, cbOf s.observers x.1 = some x.2) →
      ∃ s', attachObservers s (rest.map Prod.fst) = some s' ∧
        s'.calls = s.calls ∧ s'.subject.cnt = s.subject.cnt ∧
        s'.observers.length = s.observers.length ∧
        IsChain s'.observers s'.subject.pHead ((rest.reverse ++ done).map Prod.fst) ∧
        ∀ x ∈ rest.reverse ++ done, cbOf s'.observers x.1 = some x.2 := by
  intro rest
  induction rest with
  | nil =>
    intro s done _ _ _ hc hcb
    exact ⟨s, rfl, rfl, rfl, rfl, hc, hcb⟩
  | cons x r ih =>
    intro s done hnd hdis hfresh hc hcb
    obtain ⟨p, cb⟩ := x
    rw [List.map_cons, List.nodup_cons] at hnd
    obtain ⟨hpr, hnd'⟩ := hnd
    have hpd : p ∉ done.map Prod.fst := hdis (p, cb) (List.mem_cons_self _ _)
    have hpo : s.observers[p]? = some ⟨none, none, some cb⟩ :=
      hfresh (p, cb) (List.mem_cons_self _ _)
    have hhead : ∀ h, s.subject.pHead = some h →
        h ∈ done.map Prod.fst ∧ ∃ oh, s.observers[h]? = some oh := by
      intro h hh
      cases hd : done.map Prod.fst with
      | nil =>
        rw [hd] at hc
        have : s.subject.pHead = none := hc
        rw [this] at hh
        cases hh
      | cons q t =>
        rw [hd] at hc
        obtain ⟨hs, o, ho, _⟩ := hc
        rw [hs] at hh
        cases hh
        exact ⟨List.mem_cons_self _ _, o, ho⟩
    obtain ⟨s1, ha, hh1, hcnt1, hcalls1, hlen1, hp1, hq1, hq2⟩ :=
      OBS_Attach_spec s p _ hpo (fun h hh =>
        ⟨fun e => hpd (e ▸ (hhead h hh).1), (hhead h hh).2⟩)
    have hfresh1 : ∀ y ∈ r, s1.observers[y.1]? = some ⟨none, none, some y.2⟩ := by
      intro y hy
      have hyp : y.1 ≠ p := by
        intro e
        have hm : y.1 ∈ r.map Prod.fst := List.mem_map_of_mem Prod.fst hy
        rw [e] at hm
        exact hpr hm
      have hyd : y.1 ∉ done.map Prod.fst := hdis y (List.mem_cons_of_mem _ hy)
      have hyh : s.subject.pHead ≠ some y.1 := fun e => hyd (hhead _ e).1
      rw [hq2 y.1 hyp hyh]
      exact hfresh y (List.mem_cons_of_mem _ hy)
    have hc1 : IsChain s1.observers s1.subject.pHead (((p, cb) :: done).map Prod.fst) := by
      rw [List.map_cons]
      refine ⟨hh1, _, hp1, ?_⟩
      apply IsChain_congr s.observers s1.observers _ _ _ hc
      intro q hq
      have hqp : q ≠ p := fun e => hpd (e ▸ hq)
      exact (hq1 q hqp).1
    have hcb1 : ∀ y ∈ (p, cb) :: done, cbOf s1.observers y.1 = some y.2 := by
      intro y hy
      rcases List.mem_cons.mp hy with rfl | hyd
      · unfold cbOf
        rw [hp1, Option.some_bind]
      · have hyp : y.1 ≠ p := by
          intro e
          have hm : y.1 ∈ done.map Prod.fst := List.mem_map_of_mem Prod.fst hyd
          rw [e] at hm
          exact hpd hm
        rw [(hq1 y.1 hyp).2]
        exact hcb y hyd
    have hdis1 : ∀ y ∈ r, y.1 ∉ ((p, cb) :: done).map Prod.fst := by
      intro y hy
      rw [List.map_cons, List.mem_cons, not_or]
      refine ⟨?_, hdis y (List.mem_cons_of_mem _ hy)⟩
      intro e
      have hm : y.1 ∈ r.map Prod.fst := List.mem_map_of_mem Prod.fst hy
      rw [e] at hm
      exact hpr hm
    obtain ⟨s', h1, h2, h3, h4, h5, h6⟩ := ih s1 ((p, cb) :: done) hnd' hdis1 hfresh1 hc1 hcb1
    have hrev : ((p, cb) :: r).reverse ++ done = r.reverse ++ (p, cb) :: done := by
      rw [List.reverse_cons, List.append_assoc]
      rfl
    refine ⟨s', ?_, by rw [h2, hcalls1], by rw [h3, hcnt1], by rw [h4, hlen1], ?_, ?_⟩
    · simp only [List.map_cons, attachObservers, ha, Option.some_bind]
      exact h1
    · rw [hrev]
      exact h5
    · rw [hrev]
      exact h6

/-- The callbacks along a list of observers whose callbacks are known. -/
theorem filterMap_cbOf (mem : List Observer_t) :
    ∀ (l : List (Nat × Nat)), (∀ x ∈ l, cbOf mem x.1 = some x.2) →
      (l.map Prod.fst).filterMap (cbOf mem) = l.map Prod.snd := by
  intro l
  induction l with
  | nil =>
    intro _
    rfl
  | cons x t ih =>
    intro h
    rw [List.map_cons, List.map_cons, List.filterMap_cons, h x (List.mem_cons_self _ _)]
    simp only
    rw [ih (fun y hy => h y (List.mem_cons_of_mem _ hy))]

/-- The result of `OBS_Notify` on a subject whose list is the chain `l`: the callbacks of
the objects of `l` are appended to the log in list order, nothing else changes. -/
theorem OBS_Notify_chain (s : ObsState) (l : List Nat)
    (hc : IsChain s.observers s.subject.pHead l) (hl : l.length ≤ s.observers.length) :
    OBS_Notify s = some { s with calls := s.calls ++ l.filterMap (cbOf s.observers) } := by
  unfold OBS_Notify
  rw [notifyLoop_chain s.observers l _ _ _ hc hl, Option.map_some']

/-- The result of `m` calls of `OBS_Notify` on a subject whose list is the chain `l`. -/
theorem notifyTimes_chain (l : List Nat) :
    ∀ (m : Nat) (s : ObsState), IsChain s.observers s.subject.pHead l →
      l.length ≤ s.observers.length →
      notifyTimes m s = some { s with calls := s.calls
        ++ (List.replicate m (l.filterMap (cbOf s.observers))).flatten } := by
  intro m
  induction m with
  | zero =>
    intro s _ _
    simp [notifyTimes]
  | succ m ih =>
    intro s hc hl
    simp only [notifyTimes, OBS_Notify_chain s l hc hl, Option.some_bind]
    rw [ih { s with calls := s.calls ++ l.filterMap (cbOf s.observers) } hc hl]
    simp [List.replicate_succ, List.append_assoc]

/-- The number of occurrences of an entry in `m` repetitions of a list. -/
theorem count_replicate_flatten (c : Nat) (l : List Nat) :
    ∀ m : Nat, ((List.replicate m l).flatten).count c = m * l.count c := by
  intro m
  induction m with
  | zero => simp
  | succ m ih =>
    rw [List.replicate_succ, List.flatten_cons, List.count_append, ih]
    ring

/-- After the two final stores of `OBS_Detach` both links of the object are `NULL`. -/
theorem links_cleared (mem mem' : List Observer_t) (p : Nat)
    (h : (setNext mem p none).bind (fun m => setPrev m p none) = some mem') :
    ∃ o, mem'[p]? = some o ∧ o.p_next = none ∧ o.p_prev = none := by
  unfold setNext at h
  cases ho : mem[p]? with
  | none =>
    rw [ho] at h
    cases h
  | some o =>
    rw [ho, Option.map_some', Option.some_bind] at h
    unfold setPrev at h
    rw [getElem?_set_same _ _ _ _ ho, Option.map_some'] at h
    cases h
    exact ⟨_, getElem?_set_same _ _ _ _ (getElem?_set_same _ _ _ _ ho), rfl, rfl⟩

/-- An object whose links are both `NULL` is left alone by `OBS_Detach`, together with
everything else. -/
theorem OBS_Detach_null_links (s : ObsState) (p : Nat) (o : Observer_t)
    (ho : s.observers[p]? = some o) (hn : o.p_next = none) (hp : o.p_prev = none) :
    OBS_Detach s p = some s := by
  unfold OBS_Detach
  rw [ho, Option.some_bind, if_pos ⟨hp, hn⟩]

/-! ## Termination of the table searches -/

/-- A search of `FPM_tInterpolate2D` that ends within `fuel` steps ends with the same index
within any larger number of steps. -/
theorem scanLUT_fuel_mono (x : Int) (lut : List TPoint) (bound : Nat) :
    ∀ (fuel fuel' idx k : Nat), fuel ≤ fuel' → scanLUT x lut bound fuel idx = some k →
      scanLUT x lut bound fuel' idx = some k := by
  intro fuel
  induction fuel with
  | zero =>
    intro fuel' idx k _ h
    simp only [scanLUT] at h
    cases h
  | succ f ih =>
    intro fuel' idx k hle h
    obtain ⟨f', rfl⟩ : ∃ f', fuel' = f' + 1 := ⟨fuel' - 1, by omega⟩
    simp only [scanLUT] at h ⊢
    by_cases hlt : idx < bound
    · rw [if_pos hlt] at h ⊢
      cases hp : lut[idx]? with
      | none =>
        rw [hp] at h
        cases h
      | some p =>
        rw [hp] at h
        simp only at h ⊢
        by_cases hx : x ≤ p.tXValue
        · rw [if_pos hx] at h ⊢
          exact h
        · rw [if_neg hx] at h ⊢
          exact ih f' _ k (by omega) h
    · rw [if_neg hlt] at h ⊢
      exact h

/-- A search of `FPM_tInterpolate3D` that ends within `fuel` steps ends with the same
result within any larger number of steps. -/
theorem scanAxis_fuel_mono (v : Int) (xs : List Int) (size stride : Nat) :
    ∀ (fuel fuel' idx z : Nat) (r : Nat × Nat), fuel ≤ fuel' →
      scanAxis v xs size stride fuel idx z = some r →
      scanAxis v xs size stride fuel' idx z = some r := by
  intro fuel
  induction fuel with
  | zero =>
    intro fuel' idx z r _ h
    simp only [scanAxis] at h
    cases h
  | succ f ih =>
    intro fuel' idx z r hle h
    obtain ⟨f', rfl⟩ : ∃ f', fuel' = f' + 1 := ⟨fuel' - 1, by omega⟩
    simp only [scanAxis] at h ⊢
    by_cases hstop : (size : Int) - 1 ≤ (idx : Int)
    · rw [if_pos hstop] at h ⊢
      exact h
    · rw [if_neg hstop] at h ⊢
      cases hp : xs[idx]? with
      | none =>
        rw [hp] at h
        cases h
      | some c =>
        rw [hp] at h
        simp only at h ⊢
        by_cases hx : v ≤ c
        · rw [if_pos hx] at h ⊢
          exact h
        · rw [if_neg hx] at h ⊢
          exact ih f' _ _ r (by omega) h

/-! ## Nodes, bounds and monotonicity of the interpolation -/

/-- Truncating division of a non-positive value by a positive divisor. -/
theorem tdiv_of_nonpos (a d : Int) (ha : a ≤ 0) (hd : 0 < d) : a.tdiv d = -((-a) / d) := by
  have e : a.tdiv d = -((-a).tdiv d) := by rw [Int.neg_tdiv, neg_neg]
  rw [e, Int.tdiv_eq_ediv (by omega) hd.le]

/-- The rounded quotient of an exact multiple is the exact quotient. -/
theorem roundDiv_mul (d m : Int) (hd : 0 < d) : roundDiv (d * m) d = m := by
  have h2 : d.tdiv 2 = d / 2 := Int.tdiv_eq_ediv hd.le (by norm_num)
  have hh0 : 0 ≤ d / 2 := by omega
  have hh1 : d / 2 < d := by omega
  unfold roundDiv
  rw [h2]
  by_cases hm : 0 ≤ m
  · have hp : d * m ≥ 0 := mul_nonneg hd.le hm
    rw [if_pos hp, Int.tdiv_eq_ediv (by omega) hd.le]
    exact ((Int.ediv_emod_unique hd).mpr ⟨by ring, hh0, hh1⟩).1
  · have hm' : m < 0 := by omega
    have hp : d * m < 0 := mul_neg_of_pos_of_neg hd hm'
    rw [if_neg (by omega), tdiv_of_nonpos _ _ (by omega) hd]
    have e : -(d * m - d / 2) = d / 2 + d * (-m) := by ring
    rw [e, ((Int.ediv_emod_unique hd).mpr ⟨rfl, hh0, hh1⟩).1]
    ring

/-- The rounded quotient of zero is zero. -/
theorem roundDiv_zero (d : Int) (hd : 0 < d) : roundDiv 0 d = 0 := by
  have h := roundDiv_mul d 0 hd
  rwa [mul_zero] at h

/-- The rounded quotient is monotone in the dividend. -/
theorem roundDiv_mono (p p' d : Int) (hd : 0 < d) (hpp : p ≤ p') :
    roundDiv p d ≤ roundDiv p' d := by
  have h2 : d.tdiv 2 = d / 2 := Int.tdiv_eq_ediv hd.le (by norm_num)
  have hh0 : 0 ≤ d / 2 := by omega
  by_cases hp : 0 ≤ p
  · unfold roundDiv
    rw [h2, if_pos hp, if_pos (show p' ≥ 0 by omega), Int.tdiv_eq_ediv (by omega) hd.le,
      Int.tdiv_eq_ediv (by omega) hd.le]
    exact Int.ediv_le_ediv hd (by omega)
  · by_cases hp' : 0 ≤ p'
    · have h1 := (roundDiv_nearest p d hd).2.2.2 (by omega)
      have h3 := (roundDiv_nearest p' d hd).2.2.1 hp'
      omega
    · unfold roundDiv
      rw [h2, if_neg (by omega), if_neg (by omega), tdiv_of_nonpos _ _ (by omega) hd,
        tdiv_of_nonpos _ _ (by omega) hd]
      have := Int.ediv_le_ediv hd (show -(p' - d / 2) ≤ -(p - d / 2) by omega)
      omega

/-- The rounded quotient of `t * Δ` by `d` for a rising segment (`Δ ≥ 0`): non-negative
right of the left node, at most `Δ` left of the right node. -/
theorem roundDiv_rising (t d Δ : Int) (hd : 0 < d) (hΔ : 0 ≤ Δ) :
    (0 ≤ t → 0 ≤ roundDiv (t * Δ) d) ∧ (t ≤ d → roundDiv (t * Δ) d ≤ Δ) := by
  constructor
  · intro ht
    have h := roundDiv_mono 0 (t * Δ) d hd (mul_nonneg ht hΔ)
    rwa [roundDiv_zero d hd] at h
  · intro ht
    have h := roundDiv_mono (t * Δ) (d * Δ) d hd (mul_le_mul_of_nonneg_right ht hΔ)
    rwa [roundDiv_mul d Δ hd] at h

/-- The rounded quotient of `t * Δ` by `d` for a falling segment (`Δ ≤ 0`): non-positive
right of the left node, at least `Δ` left of the right node. -/
theorem roundDiv_falling (t d Δ : Int) (hd : 0 < d) (hΔ : Δ ≤ 0) :
    (0 ≤ t → roundDiv (t * Δ) d ≤ 0) ∧ (t ≤ d → Δ ≤ roundDiv (t * Δ) d) := by
  constructor
  · intro ht
    have h := roundDiv_mono (t * Δ) 0 d hd (mul_nonpos_of_nonneg_of_nonpos ht hΔ)
    rwa [roundDiv_zero d hd] at h
  · intro ht
    have h := roundDiv_mono (d * Δ) (t * Δ) d hd (mul_le_mul_of_nonpos_right ht hΔ)
    rwa [roundDiv_mul d Δ hd] at h

/-- The interpolation over a segment reproduces the two nodes of the segment. -/
theorem interpolateSegment_node (x : Int) (p0 p1 : TPoint) (hd : p0.tXValue < p1.tXValue)
    (hfit : Fits32Segment x p0 p1) :
    (x = p0.tXValue → interpolateSegment x p0 p1 = some p0.tYValue) ∧
    (x = p1.tXValue → interpolateSegment x p0 p1 = some p1.tYValue) := by
  have he := interpolateSegment_exact x p0 p1 hd hfit
  have hdpos : 0 < p1.tXValue - p0.tXValue := by omega
  constructor
  · intro hx
    rw [he, hx, sub_self, zero_mul, roundDiv_zero _ hdpos, add_zero]
  · intro hx
    rw [he, hx, roundDiv_mul _ _ hdpos]
    congr 1
    ring

/-- What the segment index of a query says about the two nodes of the segment: from the
second segment on the query is right of the left node, and before the last segment it is
not right of the right node; every node before the segment is left of the query. -/
theorem IsSegmentIndex_nodes (x : Int) (xs : List Int) (k : Nat)
    (h : IsSegmentIndex x xs k) :
    (∀ i c, 1 ≤ i → i < k → xs[i]? = some c → c < x) ∧
    (∀ c, k + 2 ≤ xs.length → xs[k]? = some c → x ≤ c) ∧ k + 1 ≤ xs.length := by
  rcases h with ⟨_, hlen, ⟨c, hc, hxc⟩, hall⟩ | ⟨hlen, hall⟩
  · refine ⟨?_, ?_, by omega⟩
    · intro i c' h1 h2 hc'
      have := hall i c' h1 h2 hc'
      omega
    · intro c' _ hc'
      rw [hc] at hc'
      cases hc'
      exact hxc
  · refine ⟨?_, ?_, by omega⟩
    · intro i c' h1 h2 hc'
      have := hall i c' h1 (by omega) hc'
      omega
    · intro c' h2 _
      omega

/-- A node `xs[i]` of a strictly ascending axis is one of the two nodes of the segment that
is selected for it as a query. -/
theorem node_segment (xs : List Int) (hasc : StrictAsc xs) (i k : Nat) (v : Int)
    (hi : xs[i]? = some v) (hk1 : 1 ≤ k) (hseg : IsSegmentIndex v xs k) :
    i = k - 1 ∨ i = k := by
  obtain ⟨hbefore, hafter, hklen⟩ := IsSegmentIndex_nodes v xs k hseg
  have hilt : i < xs.length := (List.getElem?_eq_some.mp hi).1
  by_contra hcon
  rw [not_or] at hcon
  rcases Nat.lt_or_gt_of_ne hcon.1 with hlt | hgt
  · -- the node is left of the left node, so the segment is not the first one
    have hk2 : 1 ≤ k - 1 := by omega
    obtain ⟨c, hc⟩ := exists_getElem xs (k - 1) (by omega)
    have h1 := hbefore (k - 1) c hk2 (by omega) hc
    have h2 := strictAsc_getElem xs hasc i (k - 1) v c hi hc hlt
    omega
  · have hgt' : k < i := by omega
    obtain ⟨c, hc⟩ := exists_getElem xs k (by omega)
    have h1 := hafter c (by omega) hc
    have h2 := strictAsc_getElem xs hasc k i c v hc hi hgt'
    omega

/-- The two points of a table segment as entries of the axis of x-values and the list of
y-values. -/
theorem point_coords (lut : List TPoint) (i : Nat) (p : TPoint) (h : lut[i]? = some p) :
    (lut.map TPoint.tXValue)[i]? = some p.tXValue ∧
    (lut.map TPoint.tYValue)[i]? = some p.tYValue := by
  constructor
  · rw [List.getElem?_map, h]; rfl
  · rw [List.getElem?_map, h]; rfl

/-- Entries of a non-decreasing list are ordered like their indices. -/
theorem pairwise_le_getElem (ys : List Int) (h : List.Pairwise (fun u v => u ≤ v) ys)
    (i j : Nat) (u v : Int) (hi : ys[i]? = some u) (hj : ys[j]? = some v) (hij : i ≤ j) :
    u ≤ v := by
  obtain ⟨hi', rfl⟩ := List.getElem?_eq_some.mp hi
  obtain ⟨hj', rfl⟩ := List.getElem?_eq_some.mp hj
  rcases Nat.eq_or_lt_of_le hij with e | hlt
  · subst e
    exact le_refl _
  · exact List.pairwise_iff_getElem.mp h i j hi' hj' hlt

/-! ## Sine table identity -/

/-- The value of `FPM_SIN_MAX_Q15`. -/
theorem FPM_SIN_MAX_Q15_eq : FPM_SIN_MAX_Q15 = 32768 := by
  decide!

set_option maxRecDepth 1000000 in
/-- Entry `j` and the entry a quarter turn further satisfy the Pythagorean identity up to
`2^17`, and both lie in `[-32768, 32768]`. -/
theorem FPM_tSineTabQ15_pythagoras : ∀ j : Nat, j < 256 →
    |(FPM_tSineTabQ15.getD j 0) ^ 2 + (FPM_tSineTabQ15.getD ((j + 64) % 256) 0) ^ 2 - 2 ^ 30|
        ≤ 2 ^ 17 ∧
      -32768 ≤ FPM_tSineTabQ15.getD j 0 ∧ FPM_tSineTabQ15.getD j 0 ≤ 32768 := by
  rw [FPM_tSineTabQ15_eq]
  decide!

/-- Reading the sine table inside its bounds. -/
theorem FPM_tSineTab_getElem (j : Nat) (hj : j < 256) :
    FPM_tSineTab[j]? = some (FPM_tSineTabQ15.getD j 0) := by
  have hl : j < FPM_tSineTabQ15.length := by
    have := FPM_tSineTab_length
    unfold FPM_tSineTab at this
    omega
  unfold FPM_tSineTab
  rw [List.getD_eq_getElem?_getD, List.getElem?_eq_getElem hl]
  rfl

/-! ## Rounding of the angle table and growth of the working vector -/

/-- Rounding error of the table entry `14` against `32768 / π * arctan (2^(-14))`. -/
theorem cordicTab_error_14 :
    |((FPM_tCordicAngleTabQ15.getD 14 0 : Int) : ℝ)
      - 32768 / Real.pi * Real.arctan ((1 / 2 : ℝ) ^ 14)| ≤ 3635 / 10000 := by
  have e : ((FPM_tCordicAngleTabQ15.getD 14 0 : Int) : ℝ) = 1 := by
    rw [show FPM_tCordicAngleTabQ15.getD 14 0 = 1 from rfl]
    norm_num
  rw [e]
  have hx : (0 : ℝ) ≤ (1 / 2) ^ 14 := by positivity
  exact tab_err _ _ _ _ _ (arctan_series_lower _ hx) (arctan_series_upper _ hx)
    (by norm_num) (by norm_num) (by norm_num)

/-- Rounding error of the table entry `15` against `32768 / π * arctan (2^(-15))`. -/
theorem cordicTab_error_15 :
    |((FPM_tCordicAngleTabQ15.getD 15 0 : Int) : ℝ)
      - 32768 / Real.pi * Real.arctan ((1 / 2 : ℝ) ^ 15)| ≤ 3184 / 10000 := by
  have e : ((FPM_tCordicAngleTabQ15.getD 15 0 : Int) : ℝ) = 0 := by
    rw [show FPM_tCordicAngleTabQ15.getD 15 0 = 0 from rfl]
    norm_num
  rw [e]
  have hx : (0 : ℝ) ≤ (1 / 2) ^ 15 := by positivity
  exact tab_err _ _ _ _ _ (arctan_series_lower _ hx) (arctan_series_upper _ hx)
    (by norm_num) (by norm_num) (by norm_num)

/-- Every entry of the angle table is within half a unit of `32768 / π * arctan (2^(-i))`. -/
theorem cordicTab_error_all (i : Nat) (hi : i < 16) :
    |((FPM_tCordicAngleTabQ15.getD i 0 : Int) : ℝ)
      - 32768 / Real.pi * Real.arctan ((1 / 2 : ℝ) ^ i)| ≤ 1 / 2 := by
  interval_cases i
  · exact le_trans cordicTab_error_0 (by norm_num)
  · exact le_trans cordicTab_error_1 (by norm_num)
  · exact le_trans cordicTab_error_2 (by norm_num)
  · exact le_trans cordicTab_error_3 (by norm_num)
  · exact le_trans cordicTab_error_4 (by norm_num)
  · exact le_trans cordicTab_error_5 (by norm_num)
  · exact le_trans cordicTab_error_6 (by norm_num)
  · exact le_trans cordicTab_error_7 (by norm_num)
  · exact le_trans cordicTab_error_8 (by norm_num)
  · exact le_trans cordicTab_error_9 (by norm_num)
  · exact le_trans cordicTab_error_10 (by norm_num)
  · exact le_trans cordicTab_error_11 (by norm_num)
  · exact le_trans cordicTab_error_12 (by norm_num)
  · exact le_trans cordicTab_error_13 (by norm_num)
  · exact le_trans cordicTab_error_14 (by norm_num)
  · exact le_trans cordicTab_error_15 (by norm_num)

/-- One iteration adds or subtracts the table entry `k` to the accumulated angle, without
wrapping, as long as the angle is bounded by the sum of the entries used before. -/
theorem cordicStep_angle (k : Nat) (s : CordicState) (hk : k < 14)
    (ha : |s.siAngle| ≤ (FPM_tCordicAngleTabQ15.take k).sum) :
    ((cordicStep k s).siAngle = s.siAngle + FPM_tCordicAngleTabQ15.getD k 0 ∨
      (cordicStep k s).siAngle = s.siAngle - FPM_tCordicAngleTabQ15.getD k 0) ∧
    |(cordicStep k s).siAngle| ≤ (FPM_tCordicAngleTabQ15.take (k + 1)).sum := by
  obtain ⟨ht1, ht2, ht3⟩ := cordicTab_facts k hk
  have ha' := abs_le.mp ha
  by_cases hy : s.tCartNum.tIm < 0
  · have e : (cordicStep k s).siAngle = s.siAngle - FPM_tCordicAngleTabQ15.getD k 0 := by
      simp only [cordicStep, if_pos hy]
      exact wrap16_of_small (by rw [abs_le]; omega)
    rw [e]
    exact ⟨Or.inr rfl, by rw [abs_le]; omega⟩
  · have e : (cordicStep k s).siAngle = s.siAngle + FPM_tCordicAngleTabQ15.getD k 0 := by
      simp only [cordicStep, if_neg hy]
      exact wrap16_of_small (by rw [abs_le]; omega)
    rw [e]
    exact ⟨Or.inl rfl, by rw [abs_le]; omega⟩

/-- The angle accumulated by the first `k ≤ 14` iterations is bounded by the sum of the
first `k` table entries, whatever the working vector. -/
theorem cordicLoop_angle (c : TCartNum) (k : Nat) (hk : k ≤ 14) :
    |(cordicLoop k 0 { tCartNum := c, siAngle := 0 }).siAngle|
      ≤ (FPM_tCordicAngleTabQ15.take k).sum := by
  induction k with
  | zero =>
    show |(0 : Int)| ≤ (FPM_tCordicAngleTabQ15.take 0).sum
    decide
  | succ k ih =>
    rw [cordicLoop_succ, Nat.zero_add]
    exact (cordicStep_angle k _ (by omega) (ih (by omega))).2

/-- The partial sums of the table entries used by the loop are at most `18181`. -/
theorem cordicTab_sum_le : ∀ k ≤ 14, (FPM_tCordicAngleTabQ15.take k).sum ≤ 18181 := by
  decide

/-- The component bounds stay below `40000`. -/
theorem cordicBound_le : ∀ k ≤ 14, 8192 ≤ cordicBound k ∧ cordicBound k ≤ 39069 := by
  decide

/-- The shift of a value of magnitude up to `B` has magnitude up to `B / 2^k + 1`. -/
theorem shiftRight_abs_le (y B : Int) (k : Nat) (hy : |y| ≤ B) :
    -(B / 2 ^ k) - 1 ≤ y >>> k ∧ y >>> k ≤ B / 2 ^ k := by
  obtain ⟨h1, h2⟩ := shiftRight_bounds y k
  have hpos : (0 : Int) < 2 ^ k := by positivity
  have hd := Int.ediv_add_emod B (2 ^ k)
  have hm0 := Int.emod_nonneg B (ne_of_gt hpos)
  have hm1 := Int.emod_lt_of_pos B hpos
  rw [abs_le] at hy
  generalize y >>> k = f at *
  generalize B / 2 ^ k = q at *
  generalize B % 2 ^ k = m at *
  generalize (2 : Int) ^ k = s at *
  constructor
  · by_contra hc
    have hf : f + 2 ≤ -q := by omega
    have : (f + 2) * s ≤ -q * s := Int.mul_le_mul_of_nonneg_right hf hpos.le
    have e1 : (f + 2) * s = f * s + 2 * s := by ring
    have e2 : -q * s = -(s * q) := by ring
    omega
  · by_contra hc
    have hf : q + 1 ≤ f := by omega
    have : (q + 1) * s ≤ f * s := Int.mul_le_mul_of_nonneg_right hf hpos.le
    have e1 : (q + 1) * s = s * q + s := by ring
    omega

/-- For inputs with components of magnitude up to `8192`: one iteration keeps the real part
non-negative and does not decrease it, and keeps both components within the next bound. -/
theorem cordicStep_small (k : Nat) (s : CordicState) (hk : k < 14)
    (hx : 0 ≤ s.tCartNum.tRe) (hxB : s.tCartNum.tRe ≤ cordicBound k)
    (hyB : |s.tCartNum.tIm| ≤ cordicBound k)
    (ha : |s.siAngle| ≤ (FPM_tCordicAngleTabQ15.take k).sum) :
    s.tCartNum.tRe ≤ (cordicStep k s).tCartNum.tRe ∧
    (cordicStep k s).tCartNum.tRe ≤ cordicBound (k + 1) ∧
    |(cordicStep k s).tCartNum.tIm| ≤ cordicBound (k + 1) ∧
    |(cordicStep k s).siAngle| ≤ (FPM_tCordicAngleTabQ15.take (k + 1)).sum := by
  obtain ⟨hB1, hB2⟩ := cordicBound_le k (by omega)
  have hang := (cordicStep_angle k s hk ha).2
  obtain ⟨σ, hσ, hσy, hσf, heq⟩ := cordicStep_eq k s hk hx (by omega)
    (le_trans hyB (by omega)) ha
  obtain ⟨hf1, hf2⟩ := shiftRight_abs_le s.tCartNum.tIm (cordicBound k) k hyB
  obtain ⟨hg1, hg2⟩ := shiftRight_abs_le s.tCartNum.tRe (cordicBound k) k
    (by rw [abs_of_nonneg hx]; exact hxB)
  have hg0 := ((shiftRight_range s.tCartNum.tRe k).1 hx).1
  have hq : 0 ≤ cordicBound k / 2 ^ k := Int.ediv_nonneg (by omega) (by positivity)
  have hnext : cordicBound (k + 1) = cordicBound k + cordicBound k / 2 ^ k + 1 := rfl
  refine ⟨?_, ?_, ?_, hang⟩
  · rw [heq]
    dsimp only
    omega
  · rw [heq, hnext]
    dsimp only
    rcases hσ with h | h <;> subst h <;> omega
  · rw [heq, hnext]
    dsimp only
    rw [abs_le] at hyB ⊢
    rcases hσ with h | h <;> subst h <;> omega

/-- For inputs with components of magnitude up to `8192`, the state after `k ≤ 14`
iterations has a non-negative real part and components within `cordicBound k`. -/
theorem cordicLoop_small (c : TCartNum) (hx : 0 ≤ c.tRe) (hxB : c.tRe ≤ 8192)
    (hyB : |c.tIm| ≤ 8192) (k : Nat) (hk : k ≤ 14) :
    0 ≤ (cordicLoop k 0 { tCartNum := c, siAngle := 0 }).tCartNum.tRe ∧
    (cordicLoop k 0 { tCartNum := c, siAngle := 0 }).tCartNum.tRe ≤ cordicBound k ∧
    |(cordicLoop k 0 { tCartNum := c, siAngle := 0 }).tCartNum.tIm| ≤ cordicBound k := by
  induction k with
  | zero => exact ⟨hx, hxB, hyB⟩
  | succ k ih =>
    obtain ⟨h1, h2, h3⟩ := ih (by omega)
    obtain ⟨h4, h5, h6, -⟩ := cordicStep_small k _ (by omega) h1 h2 h3
      (cordicLoop_angle c k (by omega))
    rw [cordicLoop_succ, Nat.zero_add]
    exact ⟨le_trans h1 h4, h5, h6⟩

/-- The quadrant selection of an input with components of magnitude up to `8192` yields a
working vector with non-negative real part and components of magnitude up to `8192`. -/
theorem preRotate_small (re im : Int) (hre : |re| ≤ 8192) (him : |im| ≤ 8192) :
    0 ≤ (preRotate ⟨re, im⟩).1.tRe ∧ (preRotate ⟨re, im⟩).1.tRe ≤ 8192 ∧
    |(preRotate ⟨re, im⟩).1.tIm| ≤ 8192 := by
  rw [abs_le] at hre him
  unfold preRotate
  dsimp only
  by_cases h1 : re < 0
  · rw [if_pos h1]
    by_cases h2 : im < 0
    · rw [if_pos h2]
      dsimp only
      rw [wrap32_of_abs (by rw [abs_le]; omega), abs_le]
      omega
    · rw [if_neg h2]
      dsimp only
      rw [wrap32_of_abs (by rw [abs_le]; omega), abs_le]
      omega
  · rw [if_neg h1]
    dsimp only
    rw [abs_le]
    omega

/-! ## Backward links of the observer list -/

/-- The store of `OBS_Attach` into the old head: its `p_prev` becomes the attached object,
its other fields stay. -/
theorem OBS_Attach_head_prev (s s' : ObsState) (p h : Nat) (o oh : Observer_t)
    (hp : s.observers[p]? = some o) (hhead : s.subject.pHead = some h) (hne : h ≠ p)
    (hoh : s.observers[h]? = some oh) (ha : OBS_Attach s p = some s') :
    s'.observers[h]? = some { oh with p_prev := some p } := by
  have h1 : setNext s.observers p s.subject.pHead
      = some (s.observers.set p { o with p_next := s.subject.pHead }) := by
    unfold setNext
    rw [hp, Option.map_some']
  have h2 : setPrev (s.observers.set p { o with p_next := s.subject.pHead }) p none
      = some (s.observers.set p ⟨s.subject.pHead, none, o.p_cb⟩) := by
    unfold setPrev
    rw [getElem?_set_same _ _ _ _ hp, Option.map_some', List.set_set]
  unfold OBS_Attach at ha
  rw [h1, Option.some_bind, h2, Option.some_bind, hhead] at ha
  have hoh' : (s.observers.set p ⟨some h, none, o.p_cb⟩)[h]? = some oh := by
    rw [List.getElem?_set_ne (Ne.symm hne)]
    exact hoh
  have h3 : setPrev (s.observers.set p ⟨some h, none, o.p_cb⟩) h (some p)
      = some ((s.observers.set p ⟨some h, none, o.p_cb⟩).set h
          { oh with p_prev := some p }) := by
    unfold setPrev
    rw [hoh', Option.map_some']
  simp only [h3, Option.map_some'] at ha
  cases ha
  exact getElem?_set_same _ _ _ _ hoh'

/-- The backward links along a list depend only on the objects of the list. -/
theorem IsBackChain_congr (mem mem' : List Observer_t) :
    ∀ (l : List Nat) (prev : Option Nat), (∀ q ∈ l, mem'[q]? = mem[q]?) →
      IsBackChain mem prev l → IsBackChain mem' prev l := by
  intro l
  induction l with
  | nil =>
    intro _ _ _
    trivial
  | cons p l ih =>
    intro prev hq h
    obtain ⟨⟨o, ho, hprev⟩, hb⟩ := h
    refine ⟨⟨o, ?_, hprev⟩, ih _ (fun q hql => hq q (List.mem_cons_of_mem _ hql)) hb⟩
    rw [hq p (List.mem_cons_self _ _)]
    exact ho

/-- The head of a chain is its first object. -/
theorem IsChain_head (mem : List Observer_t) (l : List Nat) (start : Option Nat)
    (h : IsChain mem start l) : start = l.head? := by
  cases l with
  | nil => exact h
  | cons p t => exact h.1

/-- Attaching a list of distinct existing observers, none of them in the list already,
puts them in front of the list in reverse order, sets the backward links, and leaves every
other object as it is. -/
theorem attachObservers_list :
    ∀ (rest : List Nat) (s : ObsState) (done : List Nat),
      rest.Nodup → done.Nodup → (∀ p ∈ rest, p ∉ done) →
      (∀ p ∈ rest, ∃ o, s.observers[p]? = some o) →
      IsChain s.observers s.subject.pHead done → IsBackChain s.observers none done →
      ∃ s', attachObservers s rest = some s' ∧
        IsChain s'.observers s'.subject.pHead (rest.reverse ++ done) ∧
        IsBackChain s'.observers none (rest.reverse ++ done) ∧
        (rest.reverse ++ done).Nodup ∧
        ∀ q, q ∉ rest → q ∉ done → s'.observers[q]? = s.observers[q]? := by
  intro rest
  induction rest with
  | nil =>
    intro s done _ hdn _ _ hc hb
    exact ⟨s, rfl, hc, hb, hdn, fun _ _ _ => rfl⟩
  | cons p r ih =>
    intro s done hnd hdn hdis hex hc hb
    rw [List.nodup_cons] at hnd
    obtain ⟨hpr, hnd'⟩ := hnd
    have hpd : p ∉ done := hdis p (List.mem_cons_self _ _)
    obtain ⟨o, hpo⟩ := hex p (List.mem_cons_self _ _)
    have hhd := IsChain_head _ _ _ hc
    have hhead : ∀ h, s.subject.pHead = some h → h ∈ done ∧ ∃ oh, s.observers[h]? = some oh := by
      intro h hh
      cases done with
      | nil =>
        rw [hh] at hhd
        cases hhd
      | cons q t =>
        obtain ⟨hs, oq, hoq, _⟩ := hc
        rw [hs] at hh
        cases hh
        exact ⟨List.mem_cons_self _ _, oq, hoq⟩
    obtain ⟨s1, ha, hh1, -, -, -, hp1, hq1, hq2⟩ :=
      OBS_Attach_spec s p _ hpo (fun h hh =>
        ⟨fun e => hpd (e ▸ (hhead h hh).1), (hhead h hh).2⟩)
    have hc1 : IsChain s1.observers s1.subject.pHead (p :: done) := by
      refine ⟨hh1, _, hp1, ?_⟩
      apply IsChain_congr s.observers s1.observers _ _ _ hc
      intro q hq
      have hqp : q ≠ p := fun e => hpd (e ▸ hq)
      exact (hq1 q hqp).1
    have hb1 : IsBackChain s1.observers none (p :: done) := by
      refine ⟨⟨_, hp1, rfl⟩, ?_⟩
      cases done with
      | nil => trivial
      | cons h t =>
        obtain ⟨hs, oh, hoh, _⟩ := hc
        obtain ⟨_, hbt⟩ := hb
        rw [List.nodup_cons] at hdn
        have hne : h ≠ p := fun e => hpd (e ▸ List.mem_cons_self _ _)
        refine ⟨⟨_, OBS_Attach_head_prev s s1 p h _ oh hpo hs hne hoh ha, rfl⟩, ?_⟩
        apply IsBackChain_congr s.observers s1.observers _ _ _ hbt
        intro q hq
        have hqp : q ≠ p := fun e => hpd (e ▸ List.mem_cons_of_mem _ hq)
        have hqh : s.subject.pHead ≠ some q := by
          rw [hs]
          intro e
          cases e
          exact hdn.1 hq
        exact hq2 q hqp hqh
    have hdis1 : ∀ y ∈ r, y ∉ p :: done := by
      intro y hy
      rw [List.mem_cons, not_or]
      exact ⟨fun e => hpr (e ▸ hy), hdis y (List.mem_cons_of_mem _ hy)⟩
    have hex1 : ∀ y ∈ r, ∃ oy, s1.observers[y]? = some oy := by
      intro y hy
      have hyp : y ≠ p := fun e => hpr (e ▸ hy)
      obtain ⟨oy, hoy⟩ := hex y (List.mem_cons_of_mem _ hy)
      have hm := (hq1 y hyp).1
      rw [hoy, Option.map_some'] at hm
      obtain ⟨oy', hoy', -⟩ := Option.map_eq_some'.mp hm
      exact ⟨oy', hoy'⟩
    have hdn1 : (p :: done).Nodup := List.nodup_cons.mpr ⟨hpd, hdn⟩
    obtain ⟨s', h1, h2, h3, h4, h5⟩ := ih s1 (p :: done) hnd' hdn1 hdis1 hex1 hc1 hb1
    have hrev : (p :: r).reverse ++ done = r.reverse ++ p :: done := by
      rw [List.reverse_cons, List.append_assoc]
      rfl
    refine ⟨s', ?_, ?_, ?_, ?_, ?_⟩
    · simp only [attachObservers, ha, Option.some_bind]
      exact h1
    · rw [hrev]
      exact h2
    · rw [hrev]
      exact h3
    · rw [hrev]
      exact h4
    · intro q hqr hqd
      rw [List.mem_cons, not_or] at hqr
      have hq' : q ∉ p :: done := by
        rw [List.mem_cons, not_or]
        exact ⟨hqr.1, hqd⟩
      rw [h5 q hqr.2 hq']
      apply hq2 q hqr.1
      intro e
      exact hqd (hhead q e).1

/-- In a list with forward and backward links, the successor of an object points back to
it. -/
theorem IsChain_next_prev (mem : List Observer_t) :
    ∀ (l : List Nat) (start prev : Option Nat), IsChain mem start l →
      IsBackChain mem prev l →
      ∀ n ∈ l, ∀ o m, mem[n]? = some o → o.p_next = some m →
        ∃ om, mem[m]? = some om ∧ om.p_prev = some n := by
  intro l
  induction l with
  | nil =>
    intro _ _ _ _ n hn
    cases hn
  | cons p t ih =>
    intro start prev hc hb n hn o m ho hm
    obtain ⟨_, op, hop, hct⟩ := hc
    obtain ⟨_, hbt⟩ := hb
    by_cases hnp : n = p
    · subst hnp
      rw [hop] at ho
      have e : op = o := Option.some.inj ho
      subst e
      cases t with
      | nil =>
        have : op.p_next = none := hct
        rw [this] at hm
        cases hm
      | cons q t' =>
        obtain ⟨hs, _⟩ := hct
        rw [hs] at hm
        cases hm
        exact hbt.1
    · rcases List.mem_cons.mp hn with e | hnt
      · exact absurd e hnp
      · exact ih _ _ hct hbt n hnt o m ho hm

/-- The objects of a list behind its first one have a backward link. -/
theorem IsBackChain_prev_some (mem : List Observer_t) :
    ∀ (l : List Nat) (x : Nat), IsBackChain mem (some x) l →
      ∀ n ∈ l, ∀ o, mem[n]? = some o → o.p_prev ≠ none := by
  intro l
  induction l with
  | nil =>
    intro _ _ n hn
    cases hn
  | cons p t ih =>
    intro x hb n hn o ho
    obtain ⟨⟨op, hop, hprev⟩, hbt⟩ := hb
    by_cases hnp : n = p
    · subst hnp
      rw [hop] at ho
      cases ho
      rw [hprev]
      exact fun e => Option.noConfusion e
    · rcases List.mem_cons.mp hn with e | hnt
      · exact absurd e hnp
      · exact ih p hbt n hnt o ho

/-- In a list with forward and backward links an object has both links `NULL` exactly when
it is the only object of the list. -/
theorem IsChain_both_null (mem : List Observer_t) (l : List Nat) (start : Option Nat)
    (hc : IsChain mem start l) (hb : IsBackChain mem none l) :
    ∀ n ∈ l, ∀ o, mem[n]? = some o → ((o.p_prev = none ∧ o.p_next = none) ↔ l = [n]) := by
  intro n hn o ho
  cases l with
  | nil => cases hn
  | cons h t =>
    obtain ⟨_, oh, hoh, hct⟩ := hc
    obtain ⟨⟨oh', hoh', hprev⟩, hbt⟩ := hb
    rw [hoh] at hoh'
    cases hoh'
    constructor
    · intro ⟨hp, hnx⟩
      by_cases hnh : n = h
      · subst hnh
        rw [hoh] at ho
        cases ho
        rw [hnx] at hct
        cases t with
        | nil => rfl
        | cons q t' => exact absurd hct.1 (fun e => Option.noConfusion e)
      · rcases List.mem_cons.mp hn with e | hnt
        · exact absurd e hnh
        · exact absurd hp (IsBackChain_prev_some mem t h hbt n hnt o ho)
    · intro e
      cases e
      rw [hoh] at ho
      cases ho
      exact ⟨hprev, hct⟩

/-! ## Domain of `FPM_vCart2Pol` and named inputs -/

/-- An iteration whose additions do not overflow does not decrease the real part, and the
iteration with counter `0` adds the magnitude of the imaginary part to it. -/
theorem cordicStep_fits (k : Nat) (s : CordicState) (hfit : StepFits32 k s) :
    s.tCartNum.tRe ≤ (cordicStep k s).tCartNum.tRe ∧
    (k = 0 → (cordicStep k s).tCartNum.tRe = s.tCartNum.tRe + |s.tCartNum.tIm|) := by
  unfold StepFits32 at hfit
  by_cases hy : s.tCartNum.tIm < 0
  · rw [if_pos hy] at hfit
    obtain ⟨h1, h2⟩ := (shiftRight_range s.tCartNum.tIm k).2 hy
    have e : (cordicStep k s).tCartNum.tRe = s.tCartNum.tRe - (s.tCartNum.tIm >>> k) := by
      simp only [cordicStep, if_pos hy]
      exact wrap32_of_inRange hfit.1
    rw [e]
    refine ⟨by omega, ?_⟩
    intro h0
    subst h0
    obtain ⟨h3, h4⟩ := shiftRight_bounds s.tCartNum.tIm 0
    simp only [pow_zero, mul_one] at h3 h4
    rw [abs_of_neg hy]
    omega
  · rw [if_neg hy] at hfit
    have hy' : 0 ≤ s.tCartNum.tIm := by omega
    obtain ⟨h1, h2⟩ := (shiftRight_range s.tCartNum.tIm k).1 hy'
    have e : (cordicStep k s).tCartNum.tRe = s.tCartNum.tRe + (s.tCartNum.tIm >>> k) := by
      simp only [cordicStep, if_neg hy]
      exact wrap32_of_inRange hfit.1
    rw [e]
    refine ⟨by omega, ?_⟩
    intro h0
    subst h0
    obtain ⟨h3, h4⟩ := shiftRight_bounds s.tCartNum.tIm 0
    simp only [pow_zero, mul_one] at h3 h4
    rw [abs_of_nonneg hy']
    omega

/-- When no iteration overflows, the real part after `k ≥ 1` iterations is at least the sum
of the magnitudes of the two components of the vector the loop starts with. -/
theorem cordicLoop_fits (c : TCartNum)
    (hfit : ∀ k, k < 14 → StepFits32 k (cordicLoop k 0 { tCartNum := c, siAngle := 0 }))
    (k : Nat) (hk1 : 1 ≤ k) (hk : k ≤ 14) :
    c.tRe + |c.tIm| ≤ (cordicLoop k 0 { tCartNum := c, siAngle := 0 }).tCartNum.tRe := by
  induction k with
  | zero => omega
  | succ k ih =>
    rw [cordicLoop_succ, Nat.zero_add]
    obtain ⟨h1, h2⟩ := cordicStep_fits k _ (hfit k (by omega))
    rcases Nat.eq_zero_or_pos k with h0 | hpos
    · subst h0
      rw [h2 rfl]
      exact le_refl _
    · exact le_trans (ih hpos (by omega)) h1

/-- For an input with non-negative real part whose computation does not overflow, the final
real part is at most `53962` and so is the sum of the magnitudes of the input components;
the norm of the input is at most that sum. -/
theorem cordic_domain (re im : Int) (hre : 0 ≤ re) (hno : CordicNoOverflow ⟨re, im⟩) :
    (cordicLoop FPM_CORDIC_ITERATIONS 0
      { tCartNum := (preRotate ⟨re, im⟩).1, siAngle := 0 }).tCartNum.tRe ≤ 53962 ∧
    re + |im| ≤ 53962 ∧
    Real.sqrt ((re : ℝ) ^ 2 + (im : ℝ) ^ 2) ≤ 53962 := by
  obtain ⟨-, -, hsteps, hprod⟩ := hno
  have hpre : (preRotate ⟨re, im⟩).1 = ⟨re, im⟩ := by
    have hn' : ¬ (re < 0) := by omega
    simp only [preRotate, if_neg hn']
  rw [hpre] at hsteps hprod ⊢
  have hIt : FPM_CORDIC_ITERATIONS = 14 := rfl
  rw [hIt] at hsteps hprod ⊢
  have hsum := cordicLoop_fits ⟨re, im⟩ hsteps 14 (by omega) (le_refl _)
  dsimp only at hsum
  have hx : (cordicLoop 14 0 { tCartNum := ⟨re, im⟩, siAngle := 0 }).tCartNum.tRe ≤ 53962 := by
    unfold InRange32 FPM_CORDIC_SCALE_FACTOR_Q16 at hprod
    omega
  have hs : re + |im| ≤ 53962 := le_trans hsum hx
  refine ⟨hx, hs, ?_⟩
  rw [Real.sqrt_le_iff]
  refine ⟨by norm_num, ?_⟩
  have h1 : ((re + |im| : Int) : ℝ) ≤ 53962 := by exact_mod_cast hs
  push_cast at h1
  have h2 : (0 : ℝ) ≤ re := by exact_mod_cast hre
  have h3 : (0 : ℝ) ≤ |(im : ℝ)| := abs_nonneg _
  have h4 : (im : ℝ) ^ 2 = |(im : ℝ)| ^ 2 := (sq_abs _).symm
  rw [h4]
  nlinarith

/-- The input `(1, 0)` of norm `1`, whose computation does not overflow, yields the
magnitude `8`, seven above its norm. -/
theorem FPM_vCart2Pol_magnitude_excess (tPN : TPolNum) :
    CordicNoOverflow ⟨1, 0⟩ ∧ (FPM_vCart2Pol ⟨1, 0⟩ tPN).tMag = 8 := by
  have h : FPM_vCart2Pol ⟨1, 0⟩ ⟨0, 0⟩ = ⟨8, -1797⟩ := by decide!
  rw [FPM_vCart2Pol_prior ⟨1, 0⟩ tPN ⟨0, 0⟩, h]
  exact ⟨by decide!, rfl⟩

/-- The input `(0, 693)` on the imaginary axis, of true angle `16384`, does not overflow
and yields the angle `16411`, which is `27` angle units off. -/
theorem FPM_vCart2Pol_angle_short_vector (tPN : TPolNum) :
    CordicLoopFits ⟨0, 693⟩ ∧ (FPM_vCart2Pol ⟨0, 693⟩ tPN).siAngle = 16411 := by
  have h : (FPM_vCart2Pol ⟨0, 693⟩ ⟨0, 0⟩).siAngle = 16411 := by decide!
  rw [FPM_vCart2Pol_prior ⟨0, 693⟩ tPN ⟨0, 0⟩, h]
  exact ⟨by decide!, rfl⟩

/-- On the input `(2147483647, 0)` of true angle `0` an addition of the loop overflows, and
the angle returned with wrapping arithmetic is `-1797`. -/
theorem FPM_vCart2Pol_angle_overflow (tPN : TPolNum) :
    InRange32 2147483647 ∧ ¬ CordicLoopFits ⟨2147483647, 0⟩ ∧
    (FPM_vCart2Pol ⟨2147483647, 0⟩ tPN).siAngle = -1797 := by
  have h : (FPM_vCart2Pol ⟨2147483647, 0⟩ ⟨0, 0⟩).siAngle = -1797 := by decide!
  rw [FPM_vCart2Pol_prior ⟨2147483647, 0⟩ tPN ⟨0, 0⟩, h]
  exact ⟨by decide, by decide!, rfl⟩

/-! ## Verified claims -/

/-- C1: for every 32-bit unsigned radicand `n`, `r = FPM_ulSqrt n` is the floor of the
square root of `n` (`r * r ≤ n < (r + 1) * (r + 1)` over the unbounded naturals), and
`FPM_ulSqrt` maps `0`, `1`, `4` and `0xFFFFFFFF` to `0`, `1`, `2` and `65535`. -/
theorem FPM_ulSqrt_floor (n : Nat) (hn : n < 2 ^ 32) :
    (FPM_ulSqrt n * FPM_ulSqrt n ≤ n ∧ n < (FPM_ulSqrt n + 1) * (FPM_ulSqrt n + 1)) ∧
    FPM_ulSqrt 0 = 0 ∧ FPM_ulSqrt 1 = 1 ∧ FPM_ulSqrt 4 = 2 ∧
    FPM_ulSqrt 0xFFFFFFFF = 65535 := by
  refine ⟨?_, by decide, by decide, by decide, by decide⟩
  obtain ⟨r, hroot, hsum, hrem, -⟩ := SqrtInv_iter n hn 16 (Nat.le_refl _)
  have hval : FPM_ulSqrt n = r := by
    show (sqrtIter 16 (sqrtInit n)).ulRoot >>> 1 = r
    rw [hroot, Nat.shiftRight_eq_div_pow]
    omega
  rw [hval]
  have e : (r + 1) * (r + 1) = r * r + 2 * r + 1 := by ring
  rw [e]
  norm_num at hsum
  omega

/-- Witness for C1 at the largest radicand `0xFFFFFFFF`. -/
theorem FPM_ulSqrt_floor_witness :
    FPM_ulSqrt 4294967295 = 65535 ∧ 65535 * 65535 ≤ 4294967295 ∧
    4294967295 < (65535 + 1) * (65535 + 1) := by
  have h := (FPM_ulSqrt_floor 4294967295 (by decide)).1
  have hv : FPM_ulSqrt 4294967295 = 65535 := by decide
  rw [hv] at h
  exact ⟨hv, h.1, h.2⟩

/-- C2: for every table of `N ≥ 2` points with strictly ascending x and every query `x`
whose intermediate values fit in a signed 32-bit integer, `FPM_tInterpolate2D` returns
`y0 + q`, where `(x0, y0)` and `(x1, y1)` are the end points of the segment the scan
selects, `p = (x - x0) * (y1 - y0)`, `d = x1 - x0`, and `q` is `p / d` rounded to the
nearest integer, `|q * d - p| ≤ d / 2`. For the table `[(0,0), (10,100)]` the query `5`
returns `50`. -/
theorem FPM_tInterpolate2D_rounds_to_nearest (x : Int) (lut : List TPoint)
    (hN : 2 ≤ lut.length) (hsz : lut.length < 2 ^ 32)
    (hasc : StrictAsc (lut.map TPoint.tXValue))
    (hfit : ∀ k p0 p1, selectedIndex x lut lut.length = some k → lut[k - 1]? = some p0 →
      lut[k]? = some p1 → Fits32Segment x p0 p1) :
    (∃ k p0 p1 q, selectedIndex x lut lut.length = some k ∧
      lut[k - 1]? = some p0 ∧ lut[k]? = some p1 ∧
      FPM_tInterpolate2D x lut lut.length = some (p0.tYValue + q) ∧
      |q * (p1.tXValue - p0.tXValue) - (x - p0.tXValue) * (p1.tYValue - p0.tYValue)|
        ≤ (p1.tXValue - p0.tXValue) / 2) ∧
    FPM_tInterpolate2D 5 [⟨0, 0⟩, ⟨10, 100⟩] 2 = some 50 := by
  refine ⟨?_, by decide⟩
  obtain ⟨k, hk, hk1, hklt, -⟩ := selectedIndex_spec x lut hN hsz
  obtain ⟨p0, p1, h0, h1⟩ := segment_points lut k hk1 hklt
  have hd : p0.tXValue < p1.tXValue := strictAsc_points lut hasc (k - 1) k p0 p1 h0 h1 (by omega)
  have hf := hfit k p0 p1 hk h0 h1
  refine ⟨k, p0, p1, roundDiv ((x - p0.tXValue) * (p1.tYValue - p0.tYValue))
    (p1.tXValue - p0.tXValue), hk, h0, h1, ?_, ?_⟩
  · rw [FPM_tInterpolate2D_eq_segment x lut _ k p0 p1 hk hk1 (by omega) h0 h1]
    exact interpolateSegment_exact x p0 p1 hd hf
  · exact (roundDiv_nearest _ _ (by omega)).1

/-- Witness for C2 on the table `[(0,0), (10,7)]` at the query `5`, where the exact
quotient `3.5` is rounded to `4` and not truncated to `3`. -/
theorem FPM_tInterpolate2D_rounds_to_nearest_witness :
    ∃ k p0 p1 q, selectedIndex 5 [⟨0, 0⟩, ⟨10, 7⟩] 2 = some k ∧
      [(⟨0, 0⟩ : TPoint), ⟨10, 7⟩][k - 1]? = some p0 ∧
      [(⟨0, 0⟩ : TPoint), ⟨10, 7⟩][k]? = some p1 ∧
      FPM_tInterpolate2D 5 [⟨0, 0⟩, ⟨10, 7⟩] 2 = some (p0.tYValue + q) ∧
      |q * (p1.tXValue - p0.tXValue) - (5 - p0.tXValue) * (p1.tYValue - p0.tYValue)|
        ≤ (p1.tXValue - p0.tXValue) / 2 := by
  refine (FPM_tInterpolate2D_rounds_to_nearest 5 [⟨0, 0⟩, ⟨10, 7⟩] (by decide) (by decide)
    (by decide) ?_).1
  intro k p0 p1 hk h0 h1
  have hk' : selectedIndex 5 [⟨0, 0⟩, ⟨10, 7⟩] 2 = some 1 := by decide
  have hkeq : k = 1 := by
    have h := hk.symm.trans hk'
    exact Option.some.inj h
  subst hkeq
  have e0 : p0 = ⟨0, 0⟩ := (Option.some.inj h0).symm
  have e1 : p1 = ⟨10, 7⟩ := (Option.some.inj h1).symm
  subst e0 e1
  decide

/-- C3: for every table of `N ≥ 2` points with strictly ascending x and every query `x`
with `x_0 ≤ x ≤ x_(N-1)`, the segment `[k-1, k]` that `FPM_tInterpolate2D` interpolates
over brackets the query, `x_(k-1) ≤ x ≤ x_k`, where `k` is the first index in `1 .. N-2`
whose x-value is `≥` the query, or `N-1` when there is none. -/
theorem FPM_tInterpolate2D_brackets_query (x : Int) (lut : List TPoint)
    (hN : 2 ≤ lut.length) (hsz : lut.length < 2 ^ 32)
    (_hasc : StrictAsc (lut.map TPoint.tXValue))
    (pF pL : TPoint) (hF : lut[0]? = some pF) (hL : lut[lut.length - 1]? = some pL)
    (hlo : pF.tXValue ≤ x) (hhi : x ≤ pL.tXValue) :
    ∃ k p0 p1, IsSegmentIndex x (lut.map TPoint.tXValue) k ∧
      selectedIndex x lut lut.length = some k ∧
      lut[k - 1]? = some p0 ∧ lut[k]? = some p1 ∧
      FPM_tInterpolate2D x lut lut.length = interpolateSegment x p0 p1 ∧
      p0.tXValue ≤ x ∧ x ≤ p1.tXValue := by
  obtain ⟨k, hk, hk1, hklt, hseg⟩ := selectedIndex_spec x lut hN hsz
  obtain ⟨p0, p1, h0, h1⟩ := segment_points lut k hk1 hklt
  have hmap : ∀ (i : Nat) (p : TPoint), lut[i]? = some p →
      (lut.map TPoint.tXValue)[i]? = some p.tXValue := by
    intro i p hp
    rw [List.getElem?_map, hp]; rfl
  have hlen : (lut.map TPoint.tXValue).length = lut.length := List.length_map _ _
  refine ⟨k, p0, p1, hseg, hk, h0, h1,
    FPM_tInterpolate2D_eq_segment x lut _ k p0 p1 hk hk1 (by omega) h0 h1, ?_, ?_⟩
  · by_cases hk' : k = 1
    · subst hk'
      rw [hF] at h0
      cases h0
      exact hlo
    · have hnot : ¬ x ≤ p0.tXValue := by
        rcases hseg with ⟨_, _, _, hall⟩ | ⟨hkl, hall⟩
        · exact hall (k - 1) _ (by omega) (by omega) (hmap _ _ h0)
        · exact hall (k - 1) _ (by omega) (by omega) (hmap _ _ h0)
      omega
  · rcases hseg with ⟨_, _, ⟨c, hc, hxc⟩, _⟩ | ⟨hkl, _⟩
    · rw [hmap _ _ h1] at hc
      cases hc
      exact hxc
    · have hk' : k = lut.length - 1 := by omega
      subst hk'
      rw [hL] at h1
      cases h1
      exact hhi

/-- Witness for C3 on a table of four points at the query `15`. -/
theorem FPM_tInterpolate2D_brackets_query_witness :
    ∃ k p0 p1, IsSegmentIndex 15 ([(⟨0, 0⟩ : TPoint), ⟨10, 100⟩, ⟨20, 150⟩, ⟨30, 160⟩].map
        TPoint.tXValue) k ∧
      selectedIndex 15 [⟨0, 0⟩, ⟨10, 100⟩, ⟨20, 150⟩, ⟨30, 160⟩] 4 = some k ∧
      [(⟨0, 0⟩ : TPoint), ⟨10, 100⟩, ⟨20, 150⟩, ⟨30, 160⟩][k - 1]? = some p0 ∧
      [(⟨0, 0⟩ : TPoint), ⟨10, 100⟩, ⟨20, 150⟩, ⟨30, 160⟩][k]? = some p1 ∧
      FPM_tInterpolate2D 15 [⟨0, 0⟩, ⟨10, 100⟩, ⟨20, 150⟩, ⟨30, 160⟩] 4
        = interpolateSegment 15 p0 p1 ∧
      p0.tXValue ≤ 15 ∧ 15 ≤ p1.tXValue :=
  FPM_tInterpolate2D_brackets_query 15 [⟨0, 0⟩, ⟨10, 100⟩, ⟨20, 150⟩, ⟨30, 160⟩]
    (by decide) (by decide) (by decide) ⟨0, 0⟩ ⟨30, 160⟩ rfl rfl (by decide) (by decide)

/-- C4: for every table of `N ≥ 2` points with strictly ascending x, a query below the
first x-value is evaluated with the first segment (points `0` and `1`) and a query above
the last x-value with the last segment (points `N-2` and `N-1`), by the same rounded linear
formula, so that the result extrapolates along the slope of the border segment. For the
table `[(0,0), (10,100)]` the query `20` returns `200` and the query `-10` returns
`-100`. -/
theorem FPM_tInterpolate2D_extrapolates (x : Int) (lut : List TPoint)
    (hN : 2 ≤ lut.length) (hsz : lut.length < 2 ^ 32)
    (hasc : StrictAsc (lut.map TPoint.tXValue)) :
    (∀ pF, lut[0]? = some pF → x < pF.tXValue →
      ∃ p1, lut[1]? = some p1 ∧ selectedIndex x lut lut.length = some 1 ∧
        FPM_tInterpolate2D x lut lut.length = interpolateSegment x pF p1 ∧
        (Fits32Segment x pF p1 → ∃ q,
          FPM_tInterpolate2D x lut lut.length = some (pF.tYValue + q) ∧
          |q * (p1.tXValue - pF.tXValue) - (x - pF.tXValue) * (p1.tYValue - pF.tYValue)|
            ≤ (p1.tXValue - pF.tXValue) / 2)) ∧
    (∀ pL, lut[lut.length - 1]? = some pL → pL.tXValue < x →
      ∃ p0, lut[lut.length - 2]? = some p0 ∧
        selectedIndex x lut lut.length = some (lut.length - 1) ∧
        FPM_tInterpolate2D x lut lut.length = interpolateSegment x p0 pL ∧
        (Fits32Segment x p0 pL → ∃ q,
          FPM_tInterpolate2D x lut lut.length = some (p0.tYValue + q) ∧
          |q * (pL.tXValue - p0.tXValue) - (x - p0.tXValue) * (pL.tYValue - p0.tYValue)|
            ≤ (pL.tXValue - p0.tXValue) / 2)) ∧
    FPM_tInterpolate2D 20 [⟨0, 0⟩, ⟨10, 100⟩] 2 = some 200 ∧
    FPM_tInterpolate2D (-10) [⟨0, 0⟩, ⟨10, 100⟩] 2 = some (-100) := by
  obtain ⟨k, hk, hk1, hklt, hseg⟩ := selectedIndex_spec x lut hN hsz
  obtain ⟨p0, p1, h0, h1⟩ := segment_points lut k hk1 hklt
  have hmap : ∀ (i : Nat) (p : TPoint), lut[i]? = some p →
      (lut.map TPoint.tXValue)[i]? = some p.tXValue := by
    intro i p hp
    rw [List.getElem?_map, hp]; rfl
  have hlen : (lut.map TPoint.tXValue).length = lut.length := List.length_map _ _
  have heq := FPM_tInterpolate2D_eq_segment x lut _ k p0 p1 hk hk1 (by omega) h0 h1
  have hd : p0.tXValue < p1.tXValue := strictAsc_points lut hasc (k - 1) k p0 p1 h0 h1 (by omega)
  have hround : Fits32Segment x p0 p1 → ∃ q,
      FPM_tInterpolate2D x lut lut.length = some (p0.tYValue + q) ∧
      |q * (p1.tXValue - p0.tXValue) - (x - p0.tXValue) * (p1.tYValue - p0.tYValue)|
        ≤ (p1.tXValue - p0.tXValue) / 2 := by
    intro hf
    exact ⟨_, heq.trans (interpolateSegment_exact x p0 p1 hd hf),
      (roundDiv_nearest _ _ (by omega)).1⟩
  refine ⟨?_, ?_, by decide, by decide⟩
  · intro pF hF hx
    have hk' : k = 1 := by
      by_contra hne
      have h1lt : 1 < lut.length := by omega
      have hp1 : lut[1]? = some lut[1] := List.getElem?_eq_getElem h1lt
      have hlt : pF.tXValue < (lut[1]).tXValue :=
        strictAsc_points lut hasc 0 1 _ _ hF hp1 (by omega)
      have hle : x ≤ (lut[1]).tXValue := by omega
      rcases hseg with ⟨_, _, _, hall⟩ | ⟨hkl, hall⟩
      · exact hall 1 _ (by omega) (by omega) (hmap _ _ hp1) hle
      · exact hall 1 _ (by omega) (by omega) (hmap _ _ hp1) hle
    subst hk'
    rw [hF] at h0
    cases h0
    exact ⟨p1, h1, hk, heq, hround⟩
  · intro pL hL hx
    have hk' : k = lut.length - 1 := by
      rcases hseg with ⟨_, hk2, ⟨c, hc, hxc⟩, _⟩ | ⟨hkl, _⟩
      · exfalso
        rw [hmap _ _ h1] at hc
        cases hc
        have hlt : p1.tXValue < pL.tXValue :=
          strictAsc_points lut hasc k (lut.length - 1) _ _ h1 hL (by omega)
        omega
      · omega
    subst hk'
    rw [hL] at h1
    cases h1
    have e : lut.length - 1 - 1 = lut.length - 2 := by omega
    rw [e] at h0
    exact ⟨p0, h0, hk, heq, hround⟩

/-- Witness for C4 on a table of three points at the query `35` above the last
x-value. -/
theorem FPM_tInterpolate2D_extrapolates_witness :
    (∃ p0, [(⟨0, 0⟩ : TPoint), ⟨10, 100⟩, ⟨20, 150⟩][1]? = some p0 ∧
      selectedIndex 35 [⟨0, 0⟩, ⟨10, 100⟩, ⟨20, 150⟩] 3 = some 2 ∧
      FPM_tInterpolate2D 35 [⟨0, 0⟩, ⟨10, 100⟩, ⟨20, 150⟩] 3
        = interpolateSegment 35 p0 ⟨20, 150⟩) ∧
    FPM_tInterpolate2D 35 [⟨0, 0⟩, ⟨10, 100⟩, ⟨20, 150⟩] 3 = some 225 := by
  obtain ⟨p0, h0, hk, heq, -⟩ :=
    (FPM_tInterpolate2D_extrapolates 35 [⟨0, 0⟩, ⟨10, 100⟩, ⟨20, 150⟩]
      (by decide) (by decide) (by decide)).2.1 ⟨20, 150⟩ rfl (by decide)
  exact ⟨⟨p0, h0, hk, heq⟩, by decide⟩

/-- C5: for every 3D table with `Nx ≥ 2`, `Ny ≥ 2`, strictly ascending x- and y-vectors and
a z grid of length `Nx * Ny`, and every query `(x, y)` for which no intermediate value of
the computation leaves the signed 32-bit range, `FPM_tInterpolate3D` equals the two-stage
composition of the 2D routine: with `j` the y-index of the forward scan (first index in
`1 .. Ny-2` with `y ≤ Y[j]`, else `Ny-1`), `z1` and `z2` the results of
`FPM_tInterpolate2D` at `x` on the rows `j-1` and `j` of the grid, the result is
`FPM_tInterpolate2D` at `y` on the two points `(Y[j-1], z1)`, `(Y[j], z2)`. For
`x = [0,10]`, `y = [0,10]`, `z = [0,10,20,30]` the query `(5,5)` returns `15`. -/
theorem FPM_tInterpolate3D_two_stage (x y : Int) (T : TLookUpTable3D)
    (hNx : 2 ≤ T.ulXSize) (hNy : 2 ≤ T.ulYSize)
    (hNx32 : T.ulXSize < 2 ^ 32) (hNy32 : T.ulYSize < 2 ^ 32)
    (hX : T.ptXValues.length = T.ulXSize) (hY : T.ptYValues.length = T.ulYSize)
    (hZ : T.ptZValues.length = T.ulXSize * T.ulYSize)
    (hascX : StrictAsc T.ptXValues) (hascY : StrictAsc T.ptYValues)
    (hfit : ∀ i2 z j2 zz x1 x2 y1 y2 a b c d,
      scanAxis x T.ptXValues T.ulXSize 1 (2 ^ 32) 1 (1 + T.ulXSize) = some (i2, z) →
      scanAxis y T.ptYValues T.ulYSize T.ulXSize (2 ^ 32) 1 z = some (j2, zz) →
      T.ptXValues[i2 - 1]? = some x1 → T.ptXValues[i2]? = some x2 →
      T.ptYValues[j2 - 1]? = some y1 → T.ptYValues[j2]? = some y2 →
      T.ptZValues[zz - T.ulXSize - 1]? = some a → T.ptZValues[zz - T.ulXSize]? = some b →
      T.ptZValues[zz - 1]? = some c → T.ptZValues[zz]? = some d →
      Fits32Corners x y x1 x2 y1 y2 a b c d) :
    (∃ j y0 y1 z1 z2 r, IsSegmentIndex y T.ptYValues j ∧
      T.ptYValues[j - 1]? = some y0 ∧ T.ptYValues[j]? = some y1 ∧
      FPM_tInterpolate2D x (rowPoints T.ptXValues T.ptZValues T.ulXSize (j - 1)) T.ulXSize
        = some z1 ∧
      FPM_tInterpolate2D x (rowPoints T.ptXValues T.ptZValues T.ulXSize j) T.ulXSize
        = some z2 ∧
      FPM_tInterpolate2D y [⟨y0, z1⟩, ⟨y1, z2⟩] 2 = some r ∧
      FPM_tInterpolate3D ⟨x, y⟩ T = some r) ∧
    FPM_tInterpolate3D ⟨5, 5⟩ ⟨[0, 10], [0, 10], [0, 10, 20, 30], 2, 2⟩ = some 15 := by
  refine ⟨?_, by decide⟩
  obtain ⟨i, hsx, hi1, hilt, hiseg⟩ :=
    scanAxis_index x T.ptXValues T.ulXSize 1 (1 + T.ulXSize) hX hNx hNx32
  obtain ⟨j, hsy, hj1, hjlt, hjseg⟩ :=
    scanAxis_index y T.ptYValues T.ulYSize T.ulXSize (1 + T.ulXSize + (i - 1) * 1) hY hNy hNy32
  have hj : j = (j - 1) + 1 := by omega
  have hm : j * T.ulXSize = (j - 1) * T.ulXSize + T.ulXSize :=
    (congrArg (fun t => t * T.ulXSize) hj).trans (Nat.succ_mul (j - 1) T.ulXSize)
  have hj2 : j + 1 ≤ T.ulYSize := by omega
  have hbound : (j + 1) * T.ulXSize ≤ T.ulYSize * T.ulXSize := Nat.mul_le_mul_right _ hj2
  have hm2 : (j + 1) * T.ulXSize = j * T.ulXSize + T.ulXSize := Nat.succ_mul j T.ulXSize
  have hcomm : T.ulXSize * T.ulYSize = T.ulYSize * T.ulXSize := Nat.mul_comm _ _
  have e11 : 1 + T.ulXSize + (i - 1) * 1 + (j - 1) * T.ulXSize - T.ulXSize - 1
      = (j - 1) * T.ulXSize + (i - 1) := by omega
  have e21 : 1 + T.ulXSize + (i - 1) * 1 + (j - 1) * T.ulXSize - T.ulXSize
      = (j - 1) * T.ulXSize + i := by omega
  have e12 : 1 + T.ulXSize + (i - 1) * 1 + (j - 1) * T.ulXSize - 1
      = j * T.ulXSize + (i - 1) := by omega
  have e22 : 1 + T.ulXSize + (i - 1) * 1 + (j - 1) * T.ulXSize
      = j * T.ulXSize + i := by omega
  obtain ⟨x1, hx1⟩ := exists_getElem T.ptXValues (i - 1) (by omega)
  obtain ⟨x2, hx2⟩ := exists_getElem T.ptXValues i (by omega)
  obtain ⟨y1, hy1⟩ := exists_getElem T.ptYValues (j - 1) (by omega)
  obtain ⟨y2, hy2⟩ := exists_getElem T.ptYValues j (by omega)
  obtain ⟨z11, hz11⟩ := exists_getElem T.ptZValues ((j - 1) * T.ulXSize + (i - 1)) (by omega)
  obtain ⟨z21, hz21⟩ := exists_getElem T.ptZValues ((j - 1) * T.ulXSize + i) (by omega)
  obtain ⟨z12, hz12⟩ := exists_getElem T.ptZValues (j * T.ulXSize + (i - 1)) (by omega)
  obtain ⟨z22, hz22⟩ := exists_getElem T.ptZValues (j * T.ulXSize + i) (by omega)
  have h3 := FPM_tInterpolate3D_eq_corners ⟨x, y⟩ T i _ j _ x1 x2 y1 y2 z11 z21 z12 z22
    hsx hsy hx1 hx2 hy1 hy2
    (by rw [e11]; exact hz11) (by rw [e21]; exact hz21) (by rw [e12]; exact hz12)
    (by rw [e22]; exact hz22)
  have hrow1 := FPM_tInterpolate2D_row x T.ptXValues T.ptZValues T.ulXSize (j - 1) i hNx hNx32 hX
    (by omega) hiseg hi1 x1 x2 z11 z21 hx1 hx2 hz11 hz21
  have hrow2 := FPM_tInterpolate2D_row x T.ptXValues T.ptZValues T.ulXSize j i hNx hNx32 hX
    (by omega) hiseg hi1 x1 x2 z12 z22 hx1 hx2 hz12 hz22
  obtain ⟨hf1, hf2, hf3⟩ := hfit i _ j _ x1 x2 y1 y2 z11 z21 z12 z22 hsx hsy hx1 hx2 hy1 hy2
    (by rw [e11]; exact hz11) (by rw [e21]; exact hz21) (by rw [e12]; exact hz12)
    (by rw [e22]; exact hz22)
  have hdx : x1 < x2 := strictAsc_getElem _ hascX (i - 1) i _ _ hx1 hx2 (by omega)
  have hdy : y1 < y2 := strictAsc_getElem _ hascY (j - 1) j _ _ hy1 hy2 (by omega)
  have hz1 := interpolateSegment_exact x ⟨x1, z11⟩ ⟨x2, z21⟩ hdx hf1
  have hz2 := interpolateSegment_exact x ⟨x1, z12⟩ ⟨x2, z22⟩ hdx hf2
  have hr := interpolateSegment_exact y ⟨y1, _⟩ ⟨y2, _⟩ hdy hf3
  refine ⟨j, y1, y2, _, _, _, hjseg, hy1, hy2, hrow1.trans hz1, hrow2.trans hz2,
    (FPM_tInterpolate2D_pair y _ _).trans hr, ?_⟩
  rw [h3, interpolateCorners_eq, hz1, Option.some_bind, hz2, Option.some_bind]
  exact hr

/-- Witness for C5 on a grid of three by four points at the query `(15, 25)`. -/
theorem FPM_tInterpolate3D_two_stage_witness :
    ∃ j y0 y1 z1 z2 r, IsSegmentIndex 25 [0, 10, 20, 30] j ∧
      [(0 : Int), 10, 20, 30][j - 1]? = some y0 ∧ [(0 : Int), 10, 20, 30][j]? = some y1 ∧
      FPM_tInterpolate2D 15
        (rowPoints [0, 10, 20] [0, 10, 20, 30, 40, 50, 60, 70, 80, 90, 100, 110] 3 (j - 1)) 3
        = some z1 ∧
      FPM_tInterpolate2D 15
        (rowPoints [0, 10, 20] [0, 10, 20, 30, 40, 50, 60, 70, 80, 90, 100, 110] 3 j) 3
        = some z2 ∧
      FPM_tInterpolate2D 25 [⟨y0, z1⟩, ⟨y1, z2⟩] 2 = some r ∧
      FPM_tInterpolate3D ⟨15, 25⟩
        ⟨[0, 10, 20], [0, 10, 20, 30], [0, 10, 20, 30, 40, 50, 60, 70, 80, 90, 100, 110], 3, 4⟩
        = some r := by
  refine (FPM_tInterpolate3D_two_stage 15 25
    ⟨[0, 10, 20], [0, 10, 20, 30], [0, 10, 20, 30, 40, 50, 60, 70, 80, 90, 100, 110], 3, 4⟩
    (by decide) (by decide) (by decide) (by decide) rfl rfl rfl (by decide) (by decide)
    ?_).1
  intro i2 z j2 zz x1 x2 y1 y2 a b c d hsx hsy hx1 hx2 hy1 hy2 ha hb hc hd
  have hsx' : scanAxis 15 [0, 10, 20] 3 1 (2 ^ 32) 1 (1 + 3) = some (2, 5) :=
    scanAxis_fuel_mono 15 [0, 10, 20] 3 1 3 (2 ^ 32) 1 (1 + 3) (2, 5) (by decide) (by decide)
  have e1 : (i2, z) = (2, 5) := Option.some.inj (hsx.symm.trans hsx')
  cases e1
  have hsy' : scanAxis 25 [0, 10, 20, 30] 4 3 (2 ^ 32) 1 5 = some (3, 11) :=
    scanAxis_fuel_mono 25 [0, 10, 20, 30] 4 3 4 (2 ^ 32) 1 5 (3, 11) (by decide) (by decide)
  have e2 : (j2, zz) = (3, 11) := Option.some.inj (hsy.symm.trans hsy')
  cases e2
  have ex1 : x1 = 10 := (Option.some.inj hx1).symm
  have ex2 : x2 = 20 := (Option.some.inj hx2).symm
  have ey1 : y1 = 20 := (Option.some.inj hy1).symm
  have ey2 : y2 = 30 := (Option.some.inj hy2).symm
  have ea : a = 70 := (Option.some.inj ha).symm
  have eb : b = 80 := (Option.some.inj hb).symm
  have ec : c = 100 := (Option.some.inj hc).symm
  have ed : d = 110 := (Option.some.inj hd).symm
  subst ex1 ex2 ey1 ey2 ea eb ec ed
  decide

/-- Counterexample to C7 as stated: the unit vector `(4096, 0)` has a non-negative real
part and its computation does not overflow 32 bits, its Euclidean norm is `4096`, yet
`FPM_vCart2Pol` returns the magnitude `4098`, which is not within one least-significant bit
of the norm (and not between `4095` and `4097`). -/
theorem FPM_vCart2Pol_magnitude_unit_vector :
    (0 : Int) ≤ 4096 ∧ CordicNoOverflow ⟨4096, 0⟩ ∧
    (FPM_vCart2Pol ⟨4096, 0⟩ ⟨0, 0⟩).tMag = 4098 ∧
    Real.sqrt (((4096 : Int) : ℝ) ^ 2 + ((0 : Int) : ℝ) ^ 2) = 4096 ∧
    ¬ |((FPM_vCart2Pol ⟨4096, 0⟩ ⟨0, 0⟩).tMag : ℝ)
        - Real.sqrt (((4096 : Int) : ℝ) ^ 2 + ((0 : Int) : ℝ) ^ 2)| ≤ 1 := by
  have h : (FPM_vCart2Pol ⟨4096, 0⟩ ⟨0, 0⟩).tMag = 4098 := by decide!
  have hs : Real.sqrt (((4096 : Int) : ℝ) ^ 2 + ((0 : Int) : ℝ) ^ 2) = 4096 := by
    have e : (((4096 : Int) : ℝ) ^ 2 + ((0 : Int) : ℝ) ^ 2) = (4096 : ℝ) ^ 2 := by
      norm_num
    rw [e]
    exact Real.sqrt_sq (by norm_num)
  refine ⟨by decide, by decide!, h, hs, ?_⟩
  rw [h, hs]
  norm_num

/-- C7 (amended): for every cartesian input `(re, im)` with `re ≥ 0` whose computation
does not overflow 32 bits, the magnitude `m` returned by `FPM_vCart2Pol` is within 11
least-significant bits of the true Euclidean norm, `|m - sqrt (re * re + im * im)| ≤ 11`,
and exceeds the norm by at most 8. -/
theorem FPM_vCart2Pol_magnitude_error (re im : Int) (tPN : TPolNum)
    (hre : 0 ≤ re) (hno : CordicNoOverflow ⟨re, im⟩) :
    |((FPM_vCart2Pol ⟨re, im⟩ tPN).tMag : ℝ) - Real.sqrt ((re : ℝ) ^ 2 + (im : ℝ) ^ 2)| ≤ 11 ∧
    ((FPM_vCart2Pol ⟨re, im⟩ tPN).tMag : ℝ) - Real.sqrt ((re : ℝ) ^ 2 + (im : ℝ) ^ 2) ≤ 8 := by
  obtain ⟨hxb, -, hn0⟩ := cordic_domain re im hre hno
  have hInv := CordicInv_final re im hre hno.2.2.1
  have hn0nn : 0 ≤ Real.sqrt ((re : ℝ) ^ 2 + (im : ℝ) ^ 2) := Real.sqrt_nonneg _
  have hfit := hno.2.2.2
  rw [FPM_vCart2Pol_eq]
  dsimp only
  rw [wrap32_of_inRange hfit]
  generalize cordicLoop FPM_CORDIC_ITERATIONS 0
    { tCartNum := (preRotate ⟨re, im⟩).1, siAngle := 0 } = s at hInv hxb ⊢
  obtain ⟨⟨x, y⟩, a⟩ := s
  dsimp only at hxb ⊢
  obtain ⟨hx, hn0x, -, P, β, hPlo, hPhi, hu, -, hconv, -⟩ :=
    cordic_final_facts _ _ x y a hInv
  generalize Real.sqrt ((re : ℝ) ^ 2 + (im : ℝ) ^ 2) = n0 at *
  have hXY : (n0 * P * Real.cos (Complex.arg ⟨re, im⟩ - β)) ^ 2
      + (n0 * P * Real.sin (Complex.arg ⟨re, im⟩ - β)) ^ 2 = (n0 * P) ^ 2 := by
    have := Real.cos_sq_add_sin_sq (Complex.arg ⟨re, im⟩ - β)
    linear_combination (n0 * P) ^ 2 * this
  have hnP : 0 ≤ n0 * P := by positivity
  have hcos : n0 * P * Real.cos (Complex.arg ⟨re, im⟩ - β) ≤ n0 * P :=
    mul_le_of_le_one_right hnP (Real.cos_le_one _)
  have hnPU : n0 * P ≤ n0 * (164677 / 100000) := mul_le_mul_of_nonneg_left hPhi hn0nn
  have hnPL : n0 * (164676 / 100000) ≤ n0 * P := mul_le_mul_of_nonneg_left hPlo hn0nn
  generalize n0 * P * Real.cos (Complex.arg ⟨re, im⟩ - β) = X at *
  generalize n0 * P * Real.sin (Complex.arg ⟨re, im⟩ - β) = Y at *
  generalize n0 * P = A at *
  have hu' := abs_le.mp hu
  unfold FPM_CORDIC_SCALE_FACTOR_Q16
  obtain ⟨hm1, hm2⟩ := shiftRight_bounds (39796 * x) 16
  suffices key : ∀ m : Int, m * 2 ^ 16 ≤ 39796 * x → 39796 * x ≤ m * 2 ^ 16 + 2 ^ 16 - 1 →
      |(m : ℝ) - n0| ≤ 11 ∧ (m : ℝ) - n0 ≤ 8 from key _ hm1 hm2
  clear hm1 hm2
  intro m hm1 hm2
  have hm1' : (m : ℝ) * 65536 ≤ 39796 * x := by
    have : ((m * 2 ^ 16 : Int) : ℝ) ≤ ((39796 * x : Int) : ℝ) := by exact_mod_cast hm1
    push_cast at this
    linarith
  have hm2' : (39796 : ℝ) * x ≤ m * 65536 + 65535 := by
    have : ((39796 * x : Int) : ℝ) ≤ ((m * 2 ^ 16 + 2 ^ 16 - 1 : Int) : ℝ) := by exact_mod_cast hm2
    push_cast at this
    linarith
  have hup : (m : ℝ) - n0 ≤ 8 := by linarith
  refine ⟨?_, hup⟩
  rw [abs_le]
  refine ⟨?_, by linarith⟩
  rcases le_or_lt n0 25 with hs | hl
  · -- short vectors: the real part is at least the norm
    linarith
  · -- the exactly rotated vector is close to the real axis
    have hc := abs_le.mp (hconv (by linarith))
    have hX0 : 0 ≤ X := by linarith
    have hD0 : 0 ≤ A - X := by linarith
    have hDA : (A - X) * A ≤ Y ^ 2 := by
      have : (A - X) * A ≤ (A - X) * (A + X) := mul_le_mul_of_nonneg_left (by linarith) hD0
      nlinarith
    rcases le_or_lt n0 1000 with hm | hm
    · have hc2 : Y ^ 2 ≤ (119322 / 10000 : ℝ) ^ 2 :=
        sq_le_sq' (by linarith) (by linarith)
      have h1 : (A - X) * (41169 / 1000) ≤ (A - X) * A :=
        mul_le_mul_of_nonneg_left (by linarith) hD0
      norm_num at hc2
      linarith
    · have hc2 : Y ^ 2 ≤ (2258 / 100 : ℝ) ^ 2 :=
        sq_le_sq' (by linarith) (by linarith)
      have h1 : (A - X) * (164676 / 100) ≤ (A - X) * A :=
        mul_le_mul_of_nonneg_left (by linarith) hD0
      norm_num at hc2
      linarith

/-- Witness for C7 at the input `(3000, 4000)` of norm `5000`. -/
theorem FPM_vCart2Pol_magnitude_error_witness :
    (0 : Int) ≤ 3000 ∧ CordicNoOverflow ⟨3000, 4000⟩ ∧
    |((FPM_vCart2Pol ⟨3000, 4000⟩ ⟨0, 0⟩).tMag : ℝ)
      - Real.sqrt (((3000 : Int) : ℝ) ^ 2 + ((4000 : Int) : ℝ) ^ 2)| ≤ 11 ∧
    ((FPM_vCart2Pol ⟨3000, 4000⟩ ⟨0, 0⟩).tMag : ℝ)
      - Real.sqrt (((3000 : Int) : ℝ) ^ 2 + ((4000 : Int) : ℝ) ^ 2) ≤ 8 :=
  ⟨by decide, by decide!,
    FPM_vCart2Pol_magnitude_error 3000 4000 ⟨0, 0⟩ (by decide) (by decide!)⟩

/-- C8: in the configured format (`FPM_GLOBAL_FP_FORMAT = 12`, `1.0` is `4096`),
`FPM_vCart2Pol` applied to the unit vectors `(4096, 0)`, `(0, 4096)`, `(-4096, 0)` and
`(0, -4096)` yields the angles `1`, `16385`, `-32767` and `-16383`, which are within one
LSB (modulo `65536`) of `0`, `16384`, the boundary (`-32768` or `32767`) and `-16384`. -/
theorem FPM_vCart2Pol_unit_vectors (tPN : TPolNum) :
    (FPM_vCart2Pol ⟨4096, 0⟩ tPN).siAngle = 1 ∧
    (FPM_vCart2Pol ⟨0, 4096⟩ tPN).siAngle = 16385 ∧
    (FPM_vCart2Pol ⟨-4096, 0⟩ tPN).siAngle = -32767 ∧
    (FPM_vCart2Pol ⟨0, -4096⟩ tPN).siAngle = -16383 ∧
    |wrap16 ((FPM_vCart2Pol ⟨4096, 0⟩ tPN).siAngle - 0)| ≤ 1 ∧
    |wrap16 ((FPM_vCart2Pol ⟨0, 4096⟩ tPN).siAngle - 16384)| ≤ 1 ∧
    (|wrap16 ((FPM_vCart2Pol ⟨-4096, 0⟩ tPN).siAngle - (-32768))| ≤ 1 ∨
      |wrap16 ((FPM_vCart2Pol ⟨-4096, 0⟩ tPN).siAngle - 32767)| ≤ 1) ∧
    |wrap16 ((FPM_vCart2Pol ⟨0, -4096⟩ tPN).siAngle - (-16384))| ≤ 1 := by
  have h0 : FPM_vCart2Pol ⟨4096, 0⟩ ⟨0, 0⟩ = ⟨4098, 1⟩ := by decide!
  have h1 : FPM_vCart2Pol ⟨0, 4096⟩ ⟨0, 0⟩ = ⟨4097, 16385⟩ := by decide!
  have h2 : FPM_vCart2Pol ⟨-4096, 0⟩ ⟨0, 0⟩ = ⟨4097, -32767⟩ := by decide!
  have h3 : FPM_vCart2Pol ⟨0, -4096⟩ ⟨0, 0⟩ = ⟨4098, -16383⟩ := by decide!
  rw [FPM_vCart2Pol_prior ⟨4096, 0⟩ tPN ⟨0, 0⟩, FPM_vCart2Pol_prior ⟨0, 4096⟩ tPN ⟨0, 0⟩,
    FPM_vCart2Pol_prior ⟨-4096, 0⟩ tPN ⟨0, 0⟩, FPM_vCart2Pol_prior ⟨0, -4096⟩ tPN ⟨0, 0⟩,
    h0, h1, h2, h3]
  decide

/-- Counterexample to C9 as stated: for the input `(0, 0)` it is not the case that the
angle and the magnitude are both `0`. -/
theorem FPM_vCart2Pol_zero_angle_nonzero :
    ¬ ((FPM_vCart2Pol ⟨0, 0⟩ ⟨0, 0⟩).siAngle = 0 ∧ (FPM_vCart2Pol ⟨0, 0⟩ ⟨0, 0⟩).tMag = 0) := by
  decide!

/-- C9 (amended): `FPM_vCart2Pol` applied to `(0, 0)` yields magnitude `0` and the angle
`18181`, the sum of the 14 table entries the loop uses (the imaginary part stays at zero,
so every iteration adds its table entry). -/
theorem FPM_vCart2Pol_zero (tPN : TPolNum) :
    (FPM_vCart2Pol ⟨0, 0⟩ tPN).siAngle = 18181 ∧ (FPM_vCart2Pol ⟨0, 0⟩ tPN).tMag = 0 ∧
    ((FPM_tCordicAngleTabQ15.take FPM_CORDIC_ITERATIONS).sum = 18181) := by
  have h0 : FPM_vCart2Pol ⟨0, 0⟩ ⟨0, 0⟩ = ⟨0, 18181⟩ := by decide!
  rw [FPM_vCart2Pol_prior ⟨0, 0⟩ tPN ⟨0, 0⟩, h0]
  decide

/-- C10: quadrant pre-rotation of `FPM_vCart2Pol`. For every input `(re, im)` with both
components greater than `INT32_MIN`: if `re < 0` and `im < 0` the result has the magnitude
of `FPM_vCart2Pol (-im, re)` and that result's angle minus `16384` modulo `65536`; if
`re < 0` and `im ≥ 0` it has the magnitude of `FPM_vCart2Pol (im, -re)` and that result's
angle plus `16384` modulo `65536`; in both cases the working vector has a non-negative real
part; for `re ≥ 0` the input is used unchanged with offset `0`. -/
theorem FPM_vCart2Pol_quadrant (re im : Int) (tPN : TPolNum)
    (hre : InRange32 re) (him : InRange32 im) (hre' : -2 ^ 31 < re) (him' : -2 ^ 31 < im) :
    (re < 0 → im < 0 →
      (FPM_vCart2Pol ⟨re, im⟩ tPN).tMag = (FPM_vCart2Pol ⟨-im, re⟩ tPN).tMag ∧
      (FPM_vCart2Pol ⟨re, im⟩ tPN).siAngle
        = wrap16 ((FPM_vCart2Pol ⟨-im, re⟩ tPN).siAngle - 16384) ∧
      preRotate ⟨re, im⟩ = (⟨-im, re⟩, -16384) ∧ 0 ≤ (preRotate ⟨re, im⟩).1.tRe) ∧
    (re < 0 → 0 ≤ im →
      (FPM_vCart2Pol ⟨re, im⟩ tPN).tMag = (FPM_vCart2Pol ⟨im, -re⟩ tPN).tMag ∧
      (FPM_vCart2Pol ⟨re, im⟩ tPN).siAngle
        = wrap16 ((FPM_vCart2Pol ⟨im, -re⟩ tPN).siAngle + 16384) ∧
      preRotate ⟨re, im⟩ = (⟨im, -re⟩, 16384) ∧ 0 ≤ (preRotate ⟨re, im⟩).1.tRe) ∧
    (0 ≤ re → preRotate ⟨re, im⟩ = (⟨re, im⟩, 0)) := by
  unfold InRange32 at hre him
  have hoffm : wrap16 (-FPM_PI_HALF) = -16384 := by decide
  have hoffp : wrap16 FPM_PI_HALF = 16384 := by decide
  refine ⟨?_, ?_, ?_⟩
  · intro h1 h2
    have hw : wrap32 (-im) = -im := by unfold wrap32; omega
    have hpre : preRotate ⟨re, im⟩ = (⟨-im, re⟩, -16384) := by
      simp only [preRotate, if_pos h1, if_pos h2, hw, hoffm]
    have hpre' : preRotate ⟨-im, re⟩ = (⟨-im, re⟩, 0) := by
      have hn : ¬ (-im < 0) := by omega
      simp only [preRotate, if_neg hn]
    rw [FPM_vCart2Pol_eq ⟨re, im⟩, FPM_vCart2Pol_eq ⟨-im, re⟩, hpre, hpre']
    refine ⟨rfl, ?_, rfl, ?_⟩
    · show wrap16 (_ + -16384) = wrap16 (wrap16 (_ + 0) - 16384)
      rw [sub_eq_add_neg, wrap16_wrap16_add, add_zero]
    · show 0 ≤ -im
      omega
  · intro h1 h2
    have hw : wrap32 (-re) = -re := by unfold wrap32; omega
    have hn2 : ¬ (im < 0) := by omega
    have hpre : preRotate ⟨re, im⟩ = (⟨im, -re⟩, 16384) := by
      simp only [preRotate, if_pos h1, if_neg hn2, hw, hoffp]
    have hpre' : preRotate ⟨im, -re⟩ = (⟨im, -re⟩, 0) := by
      simp only [preRotate, if_neg hn2]
    rw [FPM_vCart2Pol_eq ⟨re, im⟩, FPM_vCart2Pol_eq ⟨im, -re⟩, hpre, hpre']
    refine ⟨rfl, ?_, rfl, h2⟩
    show wrap16 (_ + 16384) = wrap16 (wrap16 (_ + 0) + 16384)
    rw [wrap16_wrap16_add, add_zero]
  · intro h
    have hn : ¬ (re < 0) := by omega
    simp only [preRotate, if_neg hn]

/-- Witness for C10 at the input `(-4096, -4096)` in quadrant III. -/
theorem FPM_vCart2Pol_quadrant_witness :
    (FPM_vCart2Pol ⟨-4096, -4096⟩ ⟨0, 0⟩).tMag = (FPM_vCart2Pol ⟨4096, -4096⟩ ⟨0, 0⟩).tMag ∧
    (FPM_vCart2Pol ⟨-4096, -4096⟩ ⟨0, 0⟩).siAngle
      = wrap16 ((FPM_vCart2Pol ⟨4096, -4096⟩ ⟨0, 0⟩).siAngle - 16384) ∧
    preRotate ⟨-4096, -4096⟩ = (⟨4096, -4096⟩, -16384) ∧
    0 ≤ (preRotate ⟨-4096, -4096⟩).1.tRe :=
  (FPM_vCart2Pol_quadrant (-4096) (-4096) ⟨0, 0⟩ (by decide) (by decide) (by decide)
    (by decide)).1 (by decide) (by decide)

/-- C11: for every three-phase value `(a, b, c)` with `(a + 2b) * 18918` inside the signed
32-bit range, `FPM_vClarkeTrans` returns the real part `a` and the imaginary part
`((a + 2b) * 18918) / 32768` (division truncating toward zero), where `18918` is the value
of `FPM_SQRT3_INV_Q15 = Q15(0.577350279)`; hence
`|32768 * imaginary - 18918 * (a + 2b)| < 32768`, and the output does not depend on `c`. -/
theorem FPM_vClarkeTrans_projection (a b c : Int) (ptOutput : TCartNum)
    (hfit : InRange32 ((a + 2 * b) * 18918)) :
    FPM_SQRT3_INV_Q15 = 18918 ∧
    (FPM_vClarkeTrans ⟨a, b, c⟩ ptOutput).tRe = a ∧
    (FPM_vClarkeTrans ⟨a, b, c⟩ ptOutput).tIm = ((a + 2 * b) * 18918).tdiv 32768 ∧
    |32768 * (FPM_vClarkeTrans ⟨a, b, c⟩ ptOutput).tIm - 18918 * (a + 2 * b)| < 32768 ∧
    ∀ c' : Int, FPM_vClarkeTrans ⟨a, b, c'⟩ ptOutput = FPM_vClarkeTrans ⟨a, b, c⟩ ptOutput := by
  have hq := FPM_SQRT3_INV_Q15_eq
  have hs : InRange32 (a + 2 * b) := by
    unfold InRange32 at hfit ⊢
    omega
  have e1 : wrap32 (wrap32 (b * 2) + a) = a + 2 * b := by
    unfold InRange32 at hs
    unfold wrap32
    omega
  have him : (FPM_vClarkeTrans ⟨a, b, c⟩ ptOutput).tIm
      = ((a + 2 * b) * 18918).tdiv 32768 := by
    show FPM_FpMulQ15 (wrap32 (wrap32 (b * 2) + a)) FPM_SQRT3_INV_Q15 = _
    rw [hq, e1]
    unfold FPM_FpMulQ15
    rw [FPM_FpMulQn_eq 15 _ _ (by norm_num) hs (by decide) hfit]
    norm_num
  refine ⟨hq, rfl, him, ?_, fun c' => rfl⟩
  rw [him]
  have hb := tdiv_bounds ((a + 2 * b) * 18918) 32768 (by norm_num)
  rw [abs_lt]
  rcases le_total 0 ((a + 2 * b) * 18918) with hp | hp
  · have := hb.1 hp
    constructor <;> omega
  · have := hb.2 hp
    constructor <;> omega

/-- Witness for C11 at the three-phase value `(1000, 2000, -3000)`. -/
theorem FPM_vClarkeTrans_projection_witness :
    InRange32 (((1000 : Int) + 2 * 2000) * 18918) ∧
    (FPM_vClarkeTrans ⟨1000, 2000, -3000⟩ ⟨0, 0⟩).tRe = 1000 ∧
    (FPM_vClarkeTrans ⟨1000, 2000, -3000⟩ ⟨0, 0⟩).tIm
      = (((1000 : Int) + 2 * 2000) * 18918).tdiv 32768 :=
  ⟨by decide,
    (FPM_vClarkeTrans_projection 1000 2000 (-3000) ⟨0, 0⟩ (by decide)).2.1,
    (FPM_vClarkeTrans_projection 1000 2000 (-3000) ⟨0, 0⟩ (by decide)).2.2.1⟩

/-- C12: format conversion round trip is lossless upward. For all formats
`0 ≤ F1 ≤ F2 ≤ 30` and every value `v` with `|v| * 2^(F2-F1) < 2^31`, `FPM_QxtoQy(v, F1, F2)`
is `v * 2^(F2-F1)` and `FPM_QxtoQy(FPM_QxtoQy(v, F1, F2), F2, F1) = v`. -/
theorem FPM_QxtoQy_roundtrip_up (v : Int) (F1 F2 : Nat) (h12 : F1 ≤ F2) (h2 : F2 ≤ 30)
    (hv : |v| * 2 ^ (F2 - F1) < 2 ^ 31) :
    FPM_QxtoQy v F1 F2 = some (v * 2 ^ (F2 - F1)) ∧
    (FPM_QxtoQy v F1 F2).bind (fun w => FPM_QxtoQy w F2 F1) = some v := by
  have hk : F2 - F1 ≤ 30 := by omega
  have hd : (0 : Int) < 2 ^ (F2 - F1) := by positivity
  have hd1 : (1 : Int) ≤ 2 ^ (F2 - F1) := by omega
  have habs : |v * 2 ^ (F2 - F1)| < 2 ^ 31 := by
    rw [abs_mul, abs_of_pos hd]
    exact hv
  have hvk : InRange32 (v * 2 ^ (F2 - F1)) := by
    have := abs_lt.mp habs
    unfold InRange32
    omega
  have hvr : InRange32 v := by
    have h1 : |v| * 1 ≤ |v| * 2 ^ (F2 - F1) := mul_le_mul_of_nonneg_left hd1 (abs_nonneg v)
    have h2 : |v| < 2 ^ 31 := by omega
    have := abs_lt.mp h2
    unfold InRange32
    omega
  have hup : FPM_QxtoQy v F1 F2 = some (v * 2 ^ (F2 - F1)) := by
    unfold FPM_QxtoQy
    rcases Nat.eq_or_lt_of_le h12 with he | hlt
    · subst he
      rw [if_pos (le_refl _), Nat.sub_self, oneShl_eq 0 (by norm_num), Option.map_some',
        wrap32_of_inRange hvr]
      simp
    · rw [if_neg (by omega), oneShl_eq _ hk, Option.map_some', wrap32_of_inRange hvr, wrap32_of_inRange hvk]
  refine ⟨hup, ?_⟩
  rw [hup, Option.some_bind]
  unfold FPM_QxtoQy
  rw [if_pos (show F2 ≥ F1 from h12), oneShl_eq _ hk, Option.map_some', wrap32_of_inRange hvk,
    Int.mul_tdiv_cancel _ hd.ne']

/-- Witness for C12: the value `-5` from format `3` to format `12` and back. -/
theorem FPM_QxtoQy_roundtrip_up_witness :
    |(-5 : Int)| * 2 ^ (12 - 3) < 2 ^ 31 ∧
    (FPM_QxtoQy (-5) 3 12).bind (fun w => FPM_QxtoQy w 12 3) = some (-5) :=
  ⟨by decide, (FPM_QxtoQy_roundtrip_up (-5) 3 12 (by decide) (by decide) (by decide)).2⟩

/-- C13: format conversion to a narrower format truncates toward zero. For all formats
`0 ≤ F2 < F1 ≤ 30` with `k = F1 - F2` and every 32-bit value `v`, `FPM_QxtoQy(v, F1, F2)` is
the quotient `q` of `v` by `2^k` truncated toward zero (`|q| * 2^k ≤ |v| < (|q| + 1) * 2^k`,
with the sign of `v` or zero), and the round trip
`v' = FPM_QxtoQy(FPM_QxtoQy(v, F1, F2), F2, F1)` is `q * 2^k` and satisfies `|v'| ≤ |v|`,
`|v - v'| < 2^k`, and `v'` has the sign of `v` or is zero. For `v = -1`, `k = 1` the
conversion and the round trip give `0`, not `-1` or `-2`. -/
theorem FPM_QxtoQy_truncates (v : Int) (F1 F2 : Nat) (h21 : F2 < F1) (h1 : F1 ≤ 30)
    (hv : InRange32 v) :
    FPM_QxtoQy v F1 F2 = some (v.tdiv (2 ^ (F1 - F2))) ∧
    |v.tdiv (2 ^ (F1 - F2))| * 2 ^ (F1 - F2) ≤ |v| ∧
    |v| < (|v.tdiv (2 ^ (F1 - F2))| + 1) * 2 ^ (F1 - F2) ∧
    (0 ≤ v → 0 ≤ v.tdiv (2 ^ (F1 - F2))) ∧ (v ≤ 0 → v.tdiv (2 ^ (F1 - F2)) ≤ 0) ∧
    (FPM_QxtoQy v F1 F2).bind (fun w => FPM_QxtoQy w F2 F1)
      = some (v.tdiv (2 ^ (F1 - F2)) * 2 ^ (F1 - F2)) ∧
    |v.tdiv (2 ^ (F1 - F2)) * 2 ^ (F1 - F2)| ≤ |v| ∧
    |v - v.tdiv (2 ^ (F1 - F2)) * 2 ^ (F1 - F2)| < 2 ^ (F1 - F2) ∧
    (0 ≤ v → 0 ≤ v.tdiv (2 ^ (F1 - F2)) * 2 ^ (F1 - F2)) ∧
    (v ≤ 0 → v.tdiv (2 ^ (F1 - F2)) * 2 ^ (F1 - F2) ≤ 0) ∧
    FPM_QxtoQy (-1) 1 0 = some 0 ∧
    (FPM_QxtoQy (-1) 1 0).bind (fun w => FPM_QxtoQy w 0 1) = some 0 := by
  have hk : F1 - F2 ≤ 30 := by omega
  have hd : (0 : Int) < 2 ^ (F1 - F2) := by positivity
  have hb := tdiv_bounds v (2 ^ (F1 - F2)) hd
  have hdown : FPM_QxtoQy v F1 F2 = some (v.tdiv (2 ^ (F1 - F2))) := by
    unfold FPM_QxtoQy
    rw [if_pos (by omega), oneShl_eq _ hk, Option.map_some', wrap32_of_inRange hv]
  generalize hq : v.tdiv (2 ^ (F1 - F2)) = q at hb hdown ⊢
  generalize hD : (2 : Int) ^ (F1 - F2) = D at hb hd hdown ⊢
  have hfacts : |q| * D ≤ |v| ∧ |v| < (|q| + 1) * D ∧ (0 ≤ v → 0 ≤ q) ∧ (v ≤ 0 → q ≤ 0) ∧
      |q * D| ≤ |v| ∧ |v - q * D| < D ∧ (0 ≤ v → 0 ≤ q * D) ∧ (v ≤ 0 → q * D ≤ 0) := by
    rcases le_total 0 v with hp | hp
    · obtain ⟨h1, h2, h3⟩ := hb.1 hp
      have h4 : 0 ≤ q * D := mul_nonneg h1 hd.le
      rw [abs_of_nonneg h1, abs_of_nonneg hp, abs_of_nonneg h4,
        abs_of_nonneg (by linarith : 0 ≤ v - q * D)]
      refine ⟨h2, by linarith, fun _ => h1, fun h => ?_, h2, by linarith, fun _ => h4,
        fun h => ?_⟩
      · have : v = 0 := le_antisymm h hp
        nlinarith
      · have : v = 0 := le_antisymm h hp
        nlinarith
    · obtain ⟨h1, h2, h3⟩ := hb.2 hp
      have h4 : q * D ≤ 0 := mul_nonpos_of_nonpos_of_nonneg h1 hd.le
      rw [abs_of_nonpos h1, abs_of_nonpos hp, abs_of_nonpos h4,
        abs_of_nonpos (by linarith : v - q * D ≤ 0)]
      refine ⟨by linarith, by linarith, fun h => ?_, fun _ => h1, by linarith, by linarith,
        fun h => ?_, fun _ => h4⟩
      · have : v = 0 := le_antisymm hp h
        nlinarith
      · have : v = 0 := le_antisymm hp h
        nlinarith
  obtain ⟨f1, f2, f3, f4, f5, f6, f7, f8⟩ := hfacts
  have hqr : InRange32 (q * D) := by
    have := abs_le.mp f5
    unfold InRange32 at hv ⊢
    rcases le_total 0 v with hp | hp
    · rw [abs_of_nonneg hp] at this
      have := f7 hp
      omega
    · rw [abs_of_nonpos hp] at this
      have := f8 hp
      omega
  have hqr' : InRange32 q := by
    have hD1 : 1 ≤ D := by omega
    have h5 : |q| * 1 ≤ |q| * D := mul_le_mul_of_nonneg_left hD1 (abs_nonneg q)
    unfold InRange32 at hv ⊢
    rcases le_total 0 v with hp | hp
    · have := f3 hp
      rw [abs_of_nonneg this, abs_of_nonneg hp] at *
      omega
    · have := f4 hp
      rw [abs_of_nonpos this, abs_of_nonpos hp] at *
      omega
  have hback : (FPM_QxtoQy v F1 F2).bind (fun w => FPM_QxtoQy w F2 F1) = some (q * D) := by
    rw [hdown, Option.some_bind]
    unfold FPM_QxtoQy
    rw [if_neg (by omega), oneShl_eq _ hk, Option.map_some', wrap32_of_inRange hqr', hD,
      wrap32_of_inRange hqr]
  exact ⟨hdown, f1, f2, f3, f4, hback, f5, f6, f7, f8, by decide, by decide⟩

/-- Witness for C13: the value `-4097` from format `12` to format `0` and back. -/
theorem FPM_QxtoQy_truncates_witness :
    InRange32 (-4097) ∧ FPM_QxtoQy (-4097) 12 0 = some ((-4097 : Int).tdiv (2 ^ (12 - 0))) ∧
    (-4097 : Int).tdiv (2 ^ (12 - 0)) = -1 :=
  ⟨by decide, (FPM_QxtoQy_truncates (-4097) 12 0 (by decide) (by decide) (by decide)).1,
    by decide⟩

/-- Counterexample to C14 as stated: the operands `-1` and `1` have the raw product `-1`,
inside the signed 32-bit range, but `FPM_FpMul(-1, 1)` is `0` while the raw product shifted
right arithmetically by `FPM_GLOBAL_FP_FORMAT` bits is `-1`; likewise `FPM_FpMulQn(-1, 1)`
is `0` and not `(-1) >> n` for every `n` in `1 .. 30`. -/
theorem FPM_FpMul_negative_product :
    InRange32 (-1) ∧ InRange32 1 ∧ InRange32 ((-1) * 1) ∧
    FPM_FpMul (-1) 1 = 0 ∧ ((-1 : Int) * 1) >>> FPM_GLOBAL_FP_FORMAT = -1 ∧
    ¬ (FPM_FpMul (-1) 1 = ((-1 : Int) * 1) >>> FPM_GLOBAL_FP_FORMAT) ∧
    ∀ n : Nat, 1 ≤ n → n ≤ 30 → ¬ (FPM_FpMulQn n (-1) 1 = ((-1 : Int) * 1) >>> n) := by
  refine ⟨by decide, by decide, by decide, by decide, by decide, by decide, ?_⟩
  intro n h1 h30
  interval_cases n <;> decide

/-- C14 (amended): for every pair of fixed-point operands `x`, `y` (positive or negative)
whose raw product fits in a signed 32-bit integer, `FPM_FpMul(x, y)` equals the raw product
`x * y` divided by `2^F`, `F = FPM_GLOBAL_FP_FORMAT`, with truncation toward zero, and
likewise `FPM_FpMulQn(x, y)` equals `(x * y) / 2^n` truncated toward zero for every `n` in
`1 .. 30`. This is the arithmetic right shift `(x * y) >> n` when the raw product is
non-negative or a multiple of `2^n`, and `((x * y) >> n) + 1` otherwise. -/
theorem FPM_FpMul_truncating_division (x y : Int) (hx : InRange32 x) (hy : InRange32 y)
    (hxy : InRange32 (x * y)) :
    FPM_FpMul x y = (x * y).tdiv (2 ^ FPM_GLOBAL_FP_FORMAT) ∧
    ((0 ≤ x * y ∨ (2 : Int) ^ FPM_GLOBAL_FP_FORMAT ∣ x * y) →
      FPM_FpMul x y = (x * y) >>> FPM_GLOBAL_FP_FORMAT) ∧
    (x * y < 0 → ¬ (2 : Int) ^ FPM_GLOBAL_FP_FORMAT ∣ x * y →
      FPM_FpMul x y = ((x * y) >>> FPM_GLOBAL_FP_FORMAT) + 1) ∧
    ∀ n : Nat, 1 ≤ n → n ≤ 30 →
      FPM_FpMulQn n x y = (x * y).tdiv (2 ^ n) ∧
      ((0 ≤ x * y ∨ (2 : Int) ^ n ∣ x * y) → FPM_FpMulQn n x y = (x * y) >>> n) ∧
      (x * y < 0 → ¬ (2 : Int) ^ n ∣ x * y → FPM_FpMulQn n x y = ((x * y) >>> n) + 1) := by
  have hfam : ∀ n : Nat, n ≤ 30 →
      FPM_FpMulQn n x y = (x * y).tdiv (2 ^ n) ∧
      ((0 ≤ x * y ∨ (2 : Int) ^ n ∣ x * y) → FPM_FpMulQn n x y = (x * y) >>> n) ∧
      (x * y < 0 → ¬ (2 : Int) ^ n ∣ x * y → FPM_FpMulQn n x y = ((x * y) >>> n) + 1) := by
    intro n hn
    have e := FPM_FpMulQn_eq n x y hn hx hy hxy
    have s := tdiv_pow_two_shiftRight (x * y) n
    rw [e]
    exact ⟨rfl, s.1, s.2⟩
  have hglob : FPM_FpMul x y = FPM_FpMulQn FPM_GLOBAL_FP_FORMAT x y := rfl
  have h12 := hfam FPM_GLOBAL_FP_FORMAT (by decide)
  rw [hglob]
  exact ⟨h12.1, h12.2.1, h12.2.2, fun n _ hn => hfam n hn⟩

/-- Witness for C14 at the operands `-6144` (`-1.5`) and `1` in the global format. -/
theorem FPM_FpMul_truncating_division_witness :
    InRange32 (-6144) ∧ InRange32 1 ∧ InRange32 ((-6144) * 1) ∧
    FPM_FpMul (-6144) 1 = ((-6144 : Int) * 1).tdiv (2 ^ FPM_GLOBAL_FP_FORMAT) ∧
    ((-6144 : Int) * 1).tdiv (2 ^ FPM_GLOBAL_FP_FORMAT) = -1 ∧
    ((-6144 : Int) * 1) >>> FPM_GLOBAL_FP_FORMAT = -2 :=
  ⟨by decide, by decide, by decide,
    (FPM_FpMul_truncating_division (-6144) 1 (by decide) (by decide) (by decide)).1,
    by decide, by decide⟩

/-- C15: for every dividend `x` with `|x| * 2^F < 2^31` and every divisor `y ≠ 0`,
`FPM_FpDiv(x, y)` equals the integer quotient `(x * 2^F) / y` (truncated toward zero) with
`F = FPM_GLOBAL_FP_FORMAT`; consequently dividing by one (`y = 2^F`) returns `x` unchanged
and `FPM_FpDiv(x, x) = 2^F` for `x ≠ 0`. -/
theorem FPM_FpDiv_quotient (x y : Int) (hx : |x| * 2 ^ FPM_GLOBAL_FP_FORMAT < 2 ^ 31)
    (hy : y ≠ 0) (hyr : InRange32 y) :
    FPM_FpDiv x y = some ((x * 2 ^ FPM_GLOBAL_FP_FORMAT).tdiv y) ∧
    (y = 2 ^ FPM_GLOBAL_FP_FORMAT → FPM_FpDiv x y = some x) ∧
    (x ≠ 0 → FPM_FpDiv x x = some (2 ^ FPM_GLOBAL_FP_FORMAT)) := by
  have hF : (2 : Int) ^ FPM_GLOBAL_FP_FORMAT = 4096 := by decide
  rw [hF] at hx ⊢
  have hxa := abs_lt.mp (show |x| < 524288 by omega)
  have key : ∀ d : Int, d ≠ 0 → InRange32 d →
      FPM_FpDiv x d = some ((x * 4096).tdiv d) := by
    intro d hd hdr
    have hs := shl_cast_eq FPM_GLOBAL_FP_FORMAT (by decide)
    rw [hF] at hs
    have hxr : InRange32 x := by
      unfold InRange32
      omega
    have hnr : InRange32 (x * 4096) := by
      unfold InRange32
      omega
    have hq : |(x * 4096).tdiv d| ≤ |x * 4096| := by
      rcases lt_or_gt_of_ne hd with hneg | hpos
      · have e : (x * 4096).tdiv d = -((x * 4096).tdiv (-d)) := by
          rw [Int.tdiv_neg, neg_neg]
        rw [e, abs_neg]
        exact tdiv_abs_le _ _ (by omega)
      · exact tdiv_abs_le _ _ hpos
    have hqr : InRange32 ((x * 4096).tdiv d) := by
      have h1 : |x * 4096| < 2 ^ 31 := by
        rw [abs_lt]
        constructor <;> omega
      have := abs_lt.mp (lt_of_le_of_lt hq h1)
      unfold InRange32
      omega
    unfold FPM_FpDiv
    simp only []
    rw [hs, wrap32_of_inRange hxr, wrap32_of_inRange hdr, wrap32_of_inRange hnr, if_neg hd,
      if_neg (by omega), wrap32_of_inRange hqr]
  refine ⟨key y hy hyr, ?_, ?_⟩
  · intro h
    rw [key y hy hyr, h, Int.mul_tdiv_cancel _ (by norm_num)]
  · intro hx0
    have hxr : InRange32 x := by
      unfold InRange32
      omega
    rw [key x hx0 hxr, Int.mul_tdiv_cancel_left _ hx0]

/-- Witness for C15: `-3.0 / 2.0 = -1.5` in the global format. -/
theorem FPM_FpDiv_quotient_witness :
    |(-12288 : Int)| * 2 ^ FPM_GLOBAL_FP_FORMAT < 2 ^ 31 ∧ (8192 : Int) ≠ 0 ∧
    FPM_FpDiv (-12288) 8192 = some (((-12288 : Int) * 2 ^ FPM_GLOBAL_FP_FORMAT).tdiv 8192) ∧
    ((-12288 : Int) * 2 ^ FPM_GLOBAL_FP_FORMAT).tdiv 8192 = -6144 :=
  ⟨by decide, by decide,
    (FPM_FpDiv_quotient (-12288) 8192 (by decide) (by decide) (by decide)).1, by decide⟩

/-- Counterexample to C16 as stated: for the 32-bit value `x = -2^31` the negation
overflows; with two's complement wrap-around `FPM_FpAbs(x)` is `-2^31`, which is negative
and is not `-x`. -/
theorem FPM_FpAbs_int32_min :
    InRange32 (-2 ^ 31) ∧ FPM_FpAbs (-2 ^ 31) = -2 ^ 31 ∧
    ¬ (0 ≤ FPM_FpAbs (-2 ^ 31)) ∧ ¬ (FPM_FpAbs (-2 ^ 31) = -(-2 ^ 31)) := by
  decide

/-- C16 (amended): for every 32-bit fixed-point value `x` other than `-2^31`,
`FPM_FpAbs(x)` returns the magnitude of `x`: the result is non-negative, lies in the 32-bit
range and equals `x` when `x ≥ 0` and `-x` otherwise, so
`FPM_FpAbs(FPM_FpAbs(x)) = FPM_FpAbs(x)`. -/
theorem FPM_FpAbs_magnitude (x : Int) (hlo : -2 ^ 31 < x) (hhi : x < 2 ^ 31) :
    FPM_FpAbs x = |x| ∧ 0 ≤ FPM_FpAbs x ∧ InRange32 (FPM_FpAbs x) ∧
    (0 ≤ x → FPM_FpAbs x = x) ∧ (x < 0 → FPM_FpAbs x = -x) ∧
    FPM_FpAbs (FPM_FpAbs x) = FPM_FpAbs x := by
  have hx : wrap32 x = x := by
    unfold wrap32
    omega
  have hnx : wrap32 (-x) = -x := by
    unfold wrap32
    omega
  have h1 : 0 ≤ x → FPM_FpAbs x = x := by
    intro h
    unfold FPM_FpAbs
    rw [hx, if_pos h]
  have h2 : x < 0 → FPM_FpAbs x = -x := by
    intro h
    unfold FPM_FpAbs
    rw [hx, hnx, if_neg (by omega)]
  rcases le_or_lt 0 x with h | h
  · have e := h1 h
    rw [e, abs_of_nonneg h]
    refine ⟨rfl, h, ?_, fun _ => rfl, fun h' => by omega, e⟩
    unfold InRange32
    omega
  · have e := h2 h
    have hn : 0 ≤ -x := by omega
    have e' : FPM_FpAbs (-x) = -x := by
      unfold FPM_FpAbs
      rw [hnx, if_pos hn]
    rw [e, abs_of_neg h]
    refine ⟨rfl, hn, ?_, fun h' => by omega, fun _ => rfl, e'⟩
    unfold InRange32
    omega

/-- Witness for C16 at `x = -4096` (`-1.0` in the global format). -/
theorem FPM_FpAbs_magnitude_witness :
    (-2 ^ 31 : Int) < -4096 ∧ (-4096 : Int) < 2 ^ 31 ∧ FPM_FpAbs (-4096) = |(-4096 : Int)| :=
  ⟨by decide, by decide, (FPM_FpAbs_magnitude (-4096) (by decide) (by decide)).1⟩

/-- C17: for every 16-bit angle `phi` (indeed for every integer), `FPM_tSin(phi)` is the
table entry `FPM_tSineTabQ15[u >> 8]`, where `u` is `phi` read as an unsigned 16-bit
value; the table has exactly `256 = 2^8` entries, so the read is inside the table; no
interpolation between samples is performed: the result is an entry of the table and
`FPM_tSin(phi) = FPM_tSin(phi with its low 8 bits cleared)`. -/
theorem FPM_tSin_lookup (phi : Int) :
    FPM_tSineTabQ15.length = 256 ∧ FPM_SINE_TAB_SIZE = 2 ^ FPM_SINE_TAB_ANGLE_BITS ∧
    (phi % 65536).toNat / 256 < 256 ∧
    FPM_tSin phi = FPM_tSineTabQ15[(phi % 65536).toNat / 256]? ∧
    (∃ v, v ∈ FPM_tSineTabQ15 ∧ FPM_tSin phi = some v) ∧
    FPM_tSin (phi - phi % 256) = FPM_tSin phi := by
  have hlen : FPM_tSineTabQ15.length = 256 := FPM_tSineTab_length
  have hidx := FPM_tSin_index phi
  have hsin : ∀ p : Int, FPM_tSin p = FPM_tSineTabQ15[(p % 65536).toNat / 256]? := by
    intro p
    unfold FPM_tSin FPM_tSineTab
    rw [(FPM_tSin_index p).1]
  refine ⟨hlen, ?_, hidx.2, hsin phi, ?_, ?_⟩
  · unfold FPM_SINE_TAB_SIZE
    rw [hlen]
    rfl
  · have hlt : (phi % 65536).toNat / 256 < FPM_tSineTabQ15.length := by
      rw [hlen]
      exact hidx.2
    refine ⟨FPM_tSineTabQ15[(phi % 65536).toNat / 256], List.getElem_mem _, ?_⟩
    rw [hsin phi, List.getElem?_eq_getElem hlt]
  · rw [hsin, hsin]
    have e : ((phi - phi % 256) % 65536).toNat / 256 = (phi % 65536).toNat / 256 := by
      omega
    rw [e]

/-- C18: for every 16-bit angle `phi` (indeed for every integer, negative angles and
angles whose sum with `16384` passes the boundary included),
`FPM_tCos(phi) = FPM_tSin((phi + 16384) modulo 65536)`, also with the sum reduced to the
signed 16-bit range, and the table index it computes lies in `0 .. 255`, so the read is
inside the table. -/
theorem FPM_tCos_quarter_turn (phi : Int) :
    FPM_tCos phi = FPM_tSin ((phi + 16384) % 65536) ∧
    FPM_tCos phi = FPM_tSin (wrap16 (phi + FPM_PI_HALF)) ∧
    ((((phi % 2 ^ 32).toNat + (FPM_PI_HALF % 2 ^ 32).toNat) % 2 ^ 32) &&& 0x0000FFFF)
      >>> (16 - FPM_SINE_TAB_ANGLE_BITS) < 256 ∧
    ∃ v, FPM_tCos phi = some v := by
  have hlen : FPM_tSineTab.length = 256 := FPM_tSineTab_length
  have hc := FPM_tCos_index phi
  have hcos : FPM_tCos phi = FPM_tSineTab[((phi + 16384) % 65536).toNat / 256]? := by
    unfold FPM_tCos
    rw [hc]
  have hsin : ∀ p : Int, FPM_tSin p = FPM_tSineTab[(p % 65536).toNat / 256]? := by
    intro p
    unfold FPM_tSin
    rw [(FPM_tSin_index p).1]
  have hlt : ((phi + 16384) % 65536).toNat / 256 < 256 := by omega
  refine ⟨?_, ?_, ?_, ?_⟩
  · rw [hcos, hsin]
    have e : ((phi + 16384) % 65536 % 65536).toNat = ((phi + 16384) % 65536).toNat := by
      omega
    rw [e]
  · rw [hcos, hsin]
    have hp : FPM_PI_HALF = 16384 := rfl
    have e : (wrap16 (phi + FPM_PI_HALF) % 65536).toNat = ((phi + 16384) % 65536).toNat := by
      rw [hp]
      unfold wrap16
      omega
    rw [e]
  · rw [hc]
    exact hlt
  · rw [hcos]
    have hlt' : ((phi + 16384) % 65536).toNat / 256 < FPM_tSineTab.length := by
      rw [hlen]
      exact hlt
    exact ⟨_, List.getElem?_eq_getElem hlt'⟩

/-- C19: the sine table is quarter-symmetric. For every index `i` in `0 .. 128`,
`FPM_tSineTabQ15[128 - i] = FPM_tSineTabQ15[i]`, and for every `i` in `0 .. 127`,
`FPM_tSineTabQ15[128 + i] = -FPM_tSineTabQ15[i]`; hence for every angle `phi`,
`FPM_tSin((phi + 32768) modulo 65536) = -FPM_tSin(phi)`. -/
theorem FPM_tSineTabQ15_symmetric :
    (∀ i : Nat, i ≤ 128 → FPM_tSineTabQ15[128 - i]? = FPM_tSineTabQ15[i]?) ∧
    (∀ i : Nat, i < 128 →
      FPM_tSineTabQ15[128 + i]? = (FPM_tSineTabQ15[i]?).map (fun v => -v)) ∧
    ∀ phi : Int, FPM_tSin ((phi + 32768) % 65536) = (FPM_tSin phi).map (fun v => -v) := by
  have hsin : ∀ p : Int, FPM_tSin p = FPM_tSineTabQ15[(p % 65536).toNat / 256]? := by
    intro p
    unfold FPM_tSin FPM_tSineTab
    rw [(FPM_tSin_index p).1]
  refine ⟨FPM_tSineTabQ15_mirror, ?_, ?_⟩
  · intro i hi
    rw [← FPM_tSineTabQ15_half_turn i (by omega)]
    have e : (i + 128) % 256 = 128 + i := by omega
    rw [e]
  · intro phi
    rw [hsin, hsin, ← FPM_tSineTabQ15_half_turn _ (FPM_tSin_index phi).2]
    have e : ((phi + 32768) % 65536 % 65536).toNat / 256
        = ((phi % 65536).toNat / 256 + 128) % 256 := by
      omega
    rw [e]

/-- Witness for C19 at the index `5` and the angle `-1234`. -/
theorem FPM_tSineTabQ15_symmetric_witness :
    FPM_tSineTabQ15[128 - 5]? = FPM_tSineTabQ15[5]? ∧
    FPM_tSineTabQ15[128 + 5]? = (FPM_tSineTabQ15[5]?).map (fun v => -v) ∧
    FPM_tSin ((-1234 + 32768) % 65536) = (FPM_tSin (-1234)).map (fun v => -v) :=
  ⟨FPM_tSineTabQ15_symmetric.1 5 (by decide), FPM_tSineTabQ15_symmetric.2.1 5 (by decide),
    FPM_tSineTabQ15_symmetric.2.2 (-1234)⟩

/-- C20 (failing input): the header defines the literal macros `Q0 .. Q28` only. For the
fractional widths `29` and `30`, inside `0 .. 30`, there is no literal constructor, and
`FP(x)` would expand to the undefined `Q29(x)` or `Q30(x)` if one of them were the
configured format. -/
theorem Qn_undefined_29_30 :
    (29 : Nat) ≤ 30 ∧ (30 : Nat) ≤ 30 ∧
    (∀ x : ℚ, Qn 29 x = none ∧ Qn 30 x = none ∧ FPfor 29 x = none ∧ FPfor 30 x = none) ∧
    ¬ (∀ F : Nat, F ≤ 30 → ∀ x : ℚ, Qn F x = some (truncToFp (x * 2 ^ F))) := by
  have h : ∀ x : ℚ, Qn 29 x = none ∧ Qn 30 x = none ∧ FPfor 29 x = none ∧
      FPfor 30 x = none := by
    intro x
    have h29 : Qn 29 x = none := by
      unfold Qn
      rw [literalMacros_lookup_none.1]
      rfl
    have h30 : Qn 30 x = none := by
      unfold Qn
      rw [literalMacros_lookup_none.2]
      rfl
    refine ⟨h29, h30, ?_, ?_⟩
    · unfold FPfor
      rw [if_pos (by norm_num), h29]
    · unfold FPfor
      rw [if_pos (by norm_num), h30]
  refine ⟨by norm_num, by norm_num, h, ?_⟩
  intro hall
  have h1 := hall 29 (by norm_num) 0
  rw [(h 0).1] at h1
  exact Option.noConfusion h1

/-- The part of C20 that the header implements: for every fractional width `F` in `0 .. 28` there is a literal
constructor `QF(x)` that maps a real literal `x` to the integer `x * 2^F` truncated toward
zero (the floor for `x ≥ 0`, the ceiling for `x < 0`), and `FP(x)` is that constructor for
the configured `F = 12`; for example `FP(0.5) = 2048` in the configured Q12 format,
`Q15(1.0) = 32768` and `Q15(-0.0245412285) = -804`. -/
theorem Qn_literal (F : Nat) (x : ℚ) (hF : F ≤ 28) :
    Qn F x = some (truncToFp (x * 2 ^ F)) ∧
    FPfor F x = some (truncToFp (x * 2 ^ F)) ∧
    truncToFp (x * 2 ^ F) = (if 0 ≤ x then ⌊x * 2 ^ F⌋ else ⌈x * 2 ^ F⌉) ∧
    Qn 15 x = some (Q15 x) ∧
    FP x = some (truncToFp (x * 2 ^ FPM_GLOBAL_FP_FORMAT)) ∧
    FP 0.5 = some 2048 ∧ Q15 1.0 = 32768 ∧ Q15 (-0.0245412285) = -804 := by
  have hq : ∀ G : Nat, G ≤ 28 → ∀ y : ℚ, Qn G y = some (truncToFp (y * 2 ^ G)) := by
    intro G hG y
    unfold Qn
    rw [literalMacros_lookup G (by omega)]
    rfl
  have hpos : (0 : ℚ) < 2 ^ F := by positivity
  have hsign : (0 ≤ x * 2 ^ F) ↔ 0 ≤ x := by
    constructor
    · intro h
      by_contra hc
      have : x * 2 ^ F < 0 := mul_neg_of_neg_of_pos (not_le.mp hc) hpos
      linarith
    · intro h
      exact mul_nonneg h hpos.le
  refine ⟨hq F hF x, ?_, ?_, ?_, ?_, by decide!, by decide!, by decide!⟩
  · unfold FPfor
    rw [if_pos (by omega), hq F hF x]
  · rw [truncToFp_eq]
    by_cases h : 0 ≤ x
    · rw [if_pos h, if_pos (hsign.mpr h)]
    · rw [if_neg h, if_neg (fun h' => h (hsign.mp h'))]
  · rw [hq 15 (by norm_num) x]
    unfold Q15
    norm_num
  · unfold FP FPfor
    rw [if_pos (by decide), hq FPM_GLOBAL_FP_FORMAT (by decide) x]

/-- Example of a literal constructor: the format `16` and the literal `0.607253` of the CORDIC scale
factor. -/
theorem Qn_literal_witness :
    (16 : Nat) ≤ 28 ∧ Qn 16 0.607253 = some (truncToFp (0.607253 * 2 ^ 16)) ∧
    truncToFp (0.607253 * 2 ^ 16) = 39796 :=
  ⟨by decide, (Qn_literal 16 0.607253 (by decide)).1, by decide!⟩

/-- C21: `FPM_vCart2Pol` has no hidden state. For every input cartesian number the polar
result (magnitude and angle) is the same for any two prior contents of the output
structure, so a repeated call with the same input, also on the output of the first call,
gives the identical output. -/
theorem FPM_vCart2Pol_no_hidden_state (tCN : TCartNum) (p q : TPolNum) :
    FPM_vCart2Pol tCN p = FPM_vCart2Pol tCN q ∧
    (FPM_vCart2Pol tCN p).tMag = (FPM_vCart2Pol tCN q).tMag ∧
    (FPM_vCart2Pol tCN p).siAngle = (FPM_vCart2Pol tCN q).siAngle ∧
    FPM_vCart2Pol tCN (FPM_vCart2Pol tCN p) = FPM_vCart2Pol tCN p :=
  ⟨rfl, rfl, rfl, rfl⟩

/-- C22 (counterexample): the table `[(-2^31, 0), (2^31 - 1, -32768)]` has two points
with strictly ascending 32-bit x-values, yet the divisor the code computes, the 32-bit
difference of the two x-values, is `-1` and not strictly positive; at the query
`-2147418112` the numerator is `INT32_MIN`, the division `INT32_MIN / -1` has no result
and `FPM_tInterpolate2D` returns none. -/
theorem FPM_tInterpolate2D_divisor_not_positive :
    StrictAsc ([(⟨-2147483648, 0⟩ : TPoint), ⟨2147483647, -32768⟩].map TPoint.tXValue) ∧
    (∀ p ∈ [(⟨-2147483648, 0⟩ : TPoint), ⟨2147483647, -32768⟩],
      InRange32 p.tXValue ∧ InRange32 p.tYValue) ∧
    wrap32 (2147483647 - (-2147483648)) = -1 ∧
    ¬ 0 < wrap32 (2147483647 - (-2147483648)) ∧
    FPM_tInterpolate2D (-2147418112) [⟨-2147483648, 0⟩, ⟨2147483647, -32768⟩] 2 = none := by
  decide

/-- C22 (amended): for every table of size `N ≥ 2`, the search of `FPM_tInterpolate2D`
ends within `N - 1` evaluations of its loop condition, that is after at most `N - 2` scan
steps, with a segment index `k` in `1 .. N-1`; the result is computed from the table
entries `k-1` and `k` only, both inside `0 .. N-1`. If in addition the x-values are
strictly ascending 32-bit values, the divisor the code computes, the 32-bit difference
`x_k - x_(k-1)`, is not zero, so the division by zero is unreachable; the divisor is
strictly positive when the difference `x_k - x_(k-1)` is below `2^31`, and the function
returns a result whenever the divisor is not `-1`. -/
theorem FPM_tInterpolate2D_scan_safe (x : Int) (lut : List TPoint)
    (hN : 2 ≤ lut.length) (hsz : lut.length < 2 ^ 32) :
    ∃ k p0 p1,
      scanLUT x lut (lut.length - 1) (lut.length - 1) 1 = some k ∧
      selectedIndex x lut lut.length = some k ∧
      1 ≤ k ∧ k ≤ lut.length - 1 ∧
      lut[k - 1]? = some p0 ∧ lut[k]? = some p1 ∧
      FPM_tInterpolate2D x lut lut.length = interpolateSegment x p0 p1 ∧
      (StrictAsc (lut.map TPoint.tXValue) → (∀ p ∈ lut, InRange32 p.tXValue) →
        wrap32 (p1.tXValue - p0.tXValue) ≠ 0 ∧
        (p1.tXValue - p0.tXValue < 2 ^ 31 → 0 < wrap32 (p1.tXValue - p0.tXValue)) ∧
        (wrap32 (p1.tXValue - p0.tXValue) ≠ -1 →
          ∃ r, FPM_tInterpolate2D x lut lut.length = some r)) := by
  obtain ⟨k, hk, hk1, hk2, -, -⟩ :=
    scanLUT_spec x lut (lut.length - 1) (by omega) (by omega) (lut.length - 2)
      (lut.length - 1) 1 (by omega) (by omega)
  have hsel : selectedIndex x lut lut.length = some k := by
    have hbound : (lut.length + 2 ^ 32 - 1) % 2 ^ 32 = lut.length - 1 := by omega
    unfold selectedIndex
    rw [hbound]
    exact scanLUT_fuel_mono x lut _ _ _ 1 k (by omega) hk
  obtain ⟨p0, p1, h0, h1⟩ := segment_points lut k hk1 (by omega)
  have heq := FPM_tInterpolate2D_eq_segment x lut _ k p0 p1 hsel hk1 (by omega) h0 h1
  refine ⟨k, p0, p1, hk, hsel, hk1, hk2, h0, h1, heq, ?_⟩
  intro hasc hr
  have hlt : p0.tXValue < p1.tXValue := strictAsc_points lut hasc (k - 1) k p0 p1 h0 h1 (by omega)
  have hne : wrap32 (p1.tXValue - p0.tXValue) ≠ 0 :=
    wrap32_sub_ne_zero _ _ (hr _ (List.getElem?_mem h0)) (hr _ (List.getElem?_mem h1)) hlt
  refine ⟨hne, fun hfit => wrap32_sub_pos _ _ hlt hfit, ?_⟩
  intro hm1
  obtain ⟨r, hres⟩ := interpolateSegment_isSome x p0 p1 hne hm1
  exact ⟨r, heq.trans hres⟩

/-- Witness for C22 on a table of four points with strictly ascending x-values at the query
`15`: the divisor is positive and the function returns a result. -/
theorem FPM_tInterpolate2D_scan_safe_witness :
    ∃ k p0 p1,
      scanLUT 15 [⟨0, 0⟩, ⟨10, 100⟩, ⟨20, 150⟩, ⟨30, 160⟩] (4 - 1) (4 - 1) 1 = some k ∧
      1 ≤ k ∧ k ≤ 4 - 1 ∧
      [(⟨0, 0⟩ : TPoint), ⟨10, 100⟩, ⟨20, 150⟩, ⟨30, 160⟩][k - 1]? = some p0 ∧
      [(⟨0, 0⟩ : TPoint), ⟨10, 100⟩, ⟨20, 150⟩, ⟨30, 160⟩][k]? = some p1 ∧
      FPM_tInterpolate2D 15 [⟨0, 0⟩, ⟨10, 100⟩, ⟨20, 150⟩, ⟨30, 160⟩] 4
        = interpolateSegment 15 p0 p1 ∧
      0 < wrap32 (p1.tXValue - p0.tXValue) ∧
      ∃ r, FPM_tInterpolate2D 15 [⟨0, 0⟩, ⟨10, 100⟩, ⟨20, 150⟩, ⟨30, 160⟩] 4 = some r := by
  obtain ⟨k, p0, p1, h1, -, h3, h4, h5, h6, h7, h8⟩ :=
    FPM_tInterpolate2D_scan_safe 15 [⟨0, 0⟩, ⟨10, 100⟩, ⟨20, 150⟩, ⟨30, 160⟩]
      (by decide) (by decide)
  have hall : ∀ p ∈ [(⟨0, 0⟩ : TPoint), ⟨10, 100⟩, ⟨20, 150⟩, ⟨30, 160⟩],
      0 ≤ p.tXValue ∧ p.tXValue ≤ 30 := by decide
  have hp0 := hall p0 (List.getElem?_mem h5)
  have hp1 := hall p1 (List.getElem?_mem h6)
  obtain ⟨-, hpos, hres⟩ := h8 (by decide) (by decide)
  have hp := hpos (by omega)
  exact ⟨k, p0, p1, h1, h3, h4, h5, h6, h7, hp, hres (by omega)⟩

/-- C23 (counterexample): the grid with the axes `X = [-2^31, 2^31 - 1]`, `Y = [0, 1]`
and the values `Z = [0, -32768, 0, 0]` has strictly ascending 32-bit axes, yet the divisor
the code computes for the x direction, the 32-bit difference `X[1] - X[0]`, is `-1` and
not strictly positive; at the query `(-2147418112, 0)` the first division is
`INT32_MIN / -1`, which has no result, and `FPM_tInterpolate3D` returns none. -/
theorem FPM_tInterpolate3D_divisor_not_positive :
    StrictAsc [(-2147483648 : Int), 2147483647] ∧ StrictAsc [(0 : Int), 1] ∧
    (∀ v ∈ [(-2147483648 : Int), 2147483647], InRange32 v) ∧
    wrap32 (2147483647 - (-2147483648)) = -1 ∧
    ¬ 0 < wrap32 (2147483647 - (-2147483648)) ∧
    FPM_tInterpolate3D ⟨-2147418112, 0⟩
      ⟨[-2147483648, 2147483647], [0, 1], [0, -32768, 0, 0], 2, 2⟩ = none := by
  decide

/-- C23 (amended): for every 3-D table with `Nx ≥ 2`, `Ny ≥ 2` and a z grid of length
`Nx * Ny`, the two searches of `FPM_tInterpolate3D` end within `Nx - 1` and `Ny - 1`
evaluations of their loop conditions with an x-index `i` in `1 .. Nx-1` and a y-index `j`
in `1 .. Ny-1`, and the four corner values are read from the flat row-major positions
`(j-1)*Nx + (i-1)`, `(j-1)*Nx + i`, `j*Nx + (i-1)` and `j*Nx + i`, all of which are
`< Nx*Ny`. If the axis vectors are strictly ascending 32-bit values, the two divisors the
code computes, the 32-bit differences `X[i] - X[i-1]` and `Y[j] - Y[j-1]`, are not zero;
each is strictly positive when the difference itself is below `2^31`, and the function
returns a result whenever neither divisor is `-1`. -/
theorem FPM_tInterpolate3D_scan_safe (x y : Int) (T : TLookUpTable3D)
    (hNx : 2 ≤ T.ulXSize) (hNy : 2 ≤ T.ulYSize)
    (hNx32 : T.ulXSize < 2 ^ 32) (hNy32 : T.ulYSize < 2 ^ 32)
    (hX : T.ptXValues.length = T.ulXSize) (hY : T.ptYValues.length = T.ulYSize)
    (hZ : T.ptZValues.length = T.ulXSize * T.ulYSize) :
    ∃ i j x1 x2 y1 y2 a b c d,
      scanAxis x T.ptXValues T.ulXSize 1 (T.ulXSize - 1) 1 (1 + T.ulXSize)
        = some (i, T.ulXSize + i) ∧
      scanAxis y T.ptYValues T.ulYSize T.ulXSize (T.ulYSize - 1) 1 (T.ulXSize + i)
        = some (j, j * T.ulXSize + i) ∧
      1 ≤ i ∧ i ≤ T.ulXSize - 1 ∧ 1 ≤ j ∧ j ≤ T.ulYSize - 1 ∧
      (j - 1) * T.ulXSize + (i - 1) < T.ulXSize * T.ulYSize ∧
      (j - 1) * T.ulXSize + i < T.ulXSize * T.ulYSize ∧
      j * T.ulXSize + (i - 1) < T.ulXSize * T.ulYSize ∧
      j * T.ulXSize + i < T.ulXSize * T.ulYSize ∧
      T.ptXValues[i - 1]? = some x1 ∧ T.ptXValues[i]? = some x2 ∧
      T.ptYValues[j - 1]? = some y1 ∧ T.ptYValues[j]? = some y2 ∧
      T.ptZValues[(j - 1) * T.ulXSize + (i - 1)]? = some a ∧
      T.ptZValues[(j - 1) * T.ulXSize + i]? = some b ∧
      T.ptZValues[j * T.ulXSize + (i - 1)]? = some c ∧
      T.ptZValues[j * T.ulXSize + i]? = some d ∧
      FPM_tInterpolate3D ⟨x, y⟩ T = interpolateCorners x y x1 x2 y1 y2 a b c d ∧
      (StrictAsc T.ptXValues → StrictAsc T.ptYValues →
        (∀ v ∈ T.ptXValues, InRange32 v) → (∀ v ∈ T.ptYValues, InRange32 v) →
        wrap32 (x2 - x1) ≠ 0 ∧ wrap32 (y2 - y1) ≠ 0 ∧
        (x2 - x1 < 2 ^ 31 → 0 < wrap32 (x2 - x1)) ∧
        (y2 - y1 < 2 ^ 31 → 0 < wrap32 (y2 - y1)) ∧
        (wrap32 (x2 - x1) ≠ -1 → wrap32 (y2 - y1) ≠ -1 →
          ∃ r, FPM_tInterpolate3D ⟨x, y⟩ T = some r)) := by
  obtain ⟨i, hsx, hi1, hi2, -, -⟩ :=
    scanAxis_spec x T.ptXValues T.ulXSize 1 hX (T.ulXSize - 2) (T.ulXSize - 1) 1
      (1 + T.ulXSize) (by omega) (by omega)
  obtain ⟨j, hsy, hj1, hj2, -, -⟩ :=
    scanAxis_spec y T.ptYValues T.ulYSize T.ulXSize hY (T.ulYSize - 2) (T.ulYSize - 1) 1
      (T.ulXSize + i) (by omega) (by omega)
  have ez1 : 1 + T.ulXSize + (i - 1) * 1 = T.ulXSize + i := by omega
  have hj : j = (j - 1) + 1 := by omega
  have hm : j * T.ulXSize = (j - 1) * T.ulXSize + T.ulXSize :=
    (congrArg (fun t => t * T.ulXSize) hj).trans (Nat.succ_mul (j - 1) T.ulXSize)
  have ez2 : T.ulXSize + i + (j - 1) * T.ulXSize = j * T.ulXSize + i := by omega
  rw [ez1] at hsx
  rw [ez2] at hsy
  have hj3 : j + 1 ≤ T.ulYSize := hj2
  have hbound : (j + 1) * T.ulXSize ≤ T.ulYSize * T.ulXSize := Nat.mul_le_mul_right _ hj3
  have hm2 : (j + 1) * T.ulXSize = j * T.ulXSize + T.ulXSize := Nat.succ_mul j T.ulXSize
  have hcomm : T.ulXSize * T.ulYSize = T.ulYSize * T.ulXSize := Nat.mul_comm _ _
  have e11 : j * T.ulXSize + i - T.ulXSize - 1 = (j - 1) * T.ulXSize + (i - 1) := by omega
  have e21 : j * T.ulXSize + i - T.ulXSize = (j - 1) * T.ulXSize + i := by omega
  have e12 : j * T.ulXSize + i - 1 = j * T.ulXSize + (i - 1) := by omega
  obtain ⟨x1, hx1⟩ := exists_getElem T.ptXValues (i - 1) (by omega)
  obtain ⟨x2, hx2⟩ := exists_getElem T.ptXValues i (by omega)
  obtain ⟨y1, hy1⟩ := exists_getElem T.ptYValues (j - 1) (by omega)
  obtain ⟨y2, hy2⟩ := exists_getElem T.ptYValues j (by omega)
  obtain ⟨a, ha⟩ := exists_getElem T.ptZValues ((j - 1) * T.ulXSize + (i - 1)) (by omega)
  obtain ⟨b, hb⟩ := exists_getElem T.ptZValues ((j - 1) * T.ulXSize + i) (by omega)
  obtain ⟨c, hc⟩ := exists_getElem T.ptZValues (j * T.ulXSize + (i - 1)) (by omega)
  obtain ⟨d, hd⟩ := exists_getElem T.ptZValues (j * T.ulXSize + i) (by omega)
  have hsx' := scanAxis_fuel_mono x T.ptXValues T.ulXSize 1 _ (2 ^ 32) 1 (1 + T.ulXSize) _
    (by omega) hsx
  have hsy' := scanAxis_fuel_mono y T.ptYValues T.ulYSize T.ulXSize _ (2 ^ 32) 1
    (T.ulXSize + i) _ (by omega) hsy
  have h3 := FPM_tInterpolate3D_eq_corners ⟨x, y⟩ T i _ j _ x1 x2 y1 y2 a b c d
    hsx' hsy' hx1 hx2 hy1 hy2
    (by rw [e11]; exact ha) (by rw [e21]; exact hb) (by rw [e12]; exact hc) hd
  refine ⟨i, j, x1, x2, y1, y2, a, b, c, d, hsx, hsy, hi1, by omega, hj1, by omega,
    by omega, by omega, by omega, by omega, hx1, hx2, hy1, hy2, ha, hb, hc, hd, h3, ?_⟩
  intro hascX hascY hrX hrY
  have hltx : x1 < x2 := strictAsc_getElem _ hascX (i - 1) i _ _ hx1 hx2 (by omega)
  have hlty : y1 < y2 := strictAsc_getElem _ hascY (j - 1) j _ _ hy1 hy2 (by omega)
  have hdx : wrap32 (x2 - x1) ≠ 0 :=
    wrap32_sub_ne_zero _ _ (hrX _ (List.getElem?_mem hx1)) (hrX _ (List.getElem?_mem hx2)) hltx
  have hdy : wrap32 (y2 - y1) ≠ 0 :=
    wrap32_sub_ne_zero _ _ (hrY _ (List.getElem?_mem hy1)) (hrY _ (List.getElem?_mem hy2)) hlty
  refine ⟨hdx, hdy, fun hfit => wrap32_sub_pos _ _ hltx hfit,
    fun hfit => wrap32_sub_pos _ _ hlty hfit, ?_⟩
  intro hmx hmy
  obtain ⟨z1, hz1⟩ := interpolateSegment_isSome x ⟨x1, a⟩ ⟨x2, b⟩ hdx hmx
  obtain ⟨z2, hz2⟩ := interpolateSegment_isSome x ⟨x1, c⟩ ⟨x2, d⟩ hdx hmx
  obtain ⟨r, hr⟩ := interpolateSegment_isSome y ⟨y1, z1⟩ ⟨y2, z2⟩ hdy hmy
  refine ⟨r, ?_⟩
  rw [h3, interpolateCorners_eq, hz1, Option.some_bind, hz2, Option.some_bind]
  exact hr

/-- Witness for C23 on a grid of three by four points with strictly ascending axes at the
query `(15, 25)`: both divisors are positive and the function returns a result. -/
theorem FPM_tInterpolate3D_scan_safe_witness :
    ∃ i j x1 x2 y1 y2, scanAxis 15 [0, 10, 20] 3 1 (3 - 1) 1 (1 + 3) = some (i, 3 + i) ∧
      scanAxis 25 [0, 10, 20, 30] 4 3 (4 - 1) 1 (3 + i) = some (j, j * 3 + i) ∧
      1 ≤ i ∧ i ≤ 3 - 1 ∧ 1 ≤ j ∧ j ≤ 4 - 1 ∧ j * 3 + i < 3 * 4 ∧
      [(0 : Int), 10, 20][i - 1]? = some x1 ∧ [(0 : Int), 10, 20][i]? = some x2 ∧
      [(0 : Int), 10, 20, 30][j - 1]? = some y1 ∧ [(0 : Int), 10, 20, 30][j]? = some y2 ∧
      0 < wrap32 (x2 - x1) ∧ 0 < wrap32 (y2 - y1) ∧
      ∃ r, FPM_tInterpolate3D ⟨15, 25⟩
        ⟨[0, 10, 20], [0, 10, 20, 30], [0, 10, 20, 30, 40, 50, 60, 70, 80, 90, 100, 110], 3, 4⟩
          = some r := by
  obtain ⟨i, j, x1, x2, y1, y2, -, -, -, -, h1, h2, h3, h4, h5, h6, -, -, -, h10,
      hx1, hx2, hy1, hy2, -, -, -, -, -, h20⟩ :=
    FPM_tInterpolate3D_scan_safe 15 25
      ⟨[0, 10, 20], [0, 10, 20, 30], [0, 10, 20, 30, 40, 50, 60, 70, 80, 90, 100, 110], 3, 4⟩
      (by decide) (by decide) (by decide) (by decide) rfl rfl rfl
  have hallX : ∀ v ∈ [(0 : Int), 10, 20], 0 ≤ v ∧ v ≤ 20 := by decide
  have hallY : ∀ v ∈ [(0 : Int), 10, 20, 30], 0 ≤ v ∧ v ≤ 30 := by decide
  have hx1' := hallX x1 (List.getElem?_mem hx1)
  have hx2' := hallX x2 (List.getElem?_mem hx2)
  have hy1' := hallY y1 (List.getElem?_mem hy1)
  have hy2' := hallY y2 (List.getElem?_mem hy2)
  obtain ⟨-, -, hpx, hpy, hres⟩ := h20 (by decide) (by decide) (by decide) (by decide)
  have hx := hpx (by omega)
  have hy := hpy (by omega)
  exact ⟨i, j, x1, x2, y1, y2, h1, h2, h3, h4, h5, h6, h10, hx1, hx2, hy1, hy2, hx, hy,
    hres (by omega) (by omega)⟩

/-- C24: for every subject initialised by `OBS_CreateSubject` (whatever its and the
observers' prior contents) to which `n ≥ 0` distinct observers initialised by
`OBS_CreateObserver` have been attached with `OBS_Attach`, attaching invokes no callback
(the call log is unchanged), and each call of `OBS_Notify` invokes the callback of every
attached observer exactly once, latest attached first, so that after `m` notifications
each callback has run `m` times. -/
theorem OBS_Notify_invokes_attached (s0 : ObsState) (obs : List (Nat × Nat)) (m : Nat)
    (hnd : (obs.map Prod.fst).Nodup) (hvalid : ∀ x ∈ obs, x.1 < s0.observers.length) :
    ∃ s1, (createObservers (OBS_CreateSubject s0) obs).bind
        (fun s => attachObservers s (obs.map Prod.fst)) = some s1 ∧
      s1.calls = s0.calls ∧
      IsChain s1.observers s1.subject.pHead (obs.reverse.map Prod.fst) ∧
      OBS_Notify s1 = some { s1 with calls := s1.calls ++ obs.reverse.map Prod.snd } ∧
      notifyTimes m s1 = some { s1 with calls := s1.calls
        ++ (List.replicate m (obs.reverse.map Prod.snd)).flatten } ∧
      ∀ c, ((List.replicate m (obs.reverse.map Prod.snd)).flatten).count c
        = m * (obs.map Prod.snd).count c := by
  obtain ⟨sc, hc1, hc2, hc3, hc4, hc5, -⟩ :=
    createObservers_spec obs (OBS_CreateSubject s0) hnd hvalid
  have hhead : sc.subject.pHead = none := by
    rw [hc2]
    rfl
  obtain ⟨s1, ha1, ha2, -, ha4, ha5, ha6⟩ :=
    attachObservers_chain obs sc [] hnd (fun _ _ h => by cases h) hc5
      (by rw [hhead]; rfl) (fun _ h => by cases h)
  rw [List.append_nil] at ha5 ha6
  have hlen : (obs.reverse.map Prod.fst).length ≤ s1.observers.length := by
    apply nodup_length_le
    · rw [List.map_reverse]
      exact List.nodup_reverse.mpr hnd
    · exact IsChain_valid _ _ _ ha5
  have hcb := filterMap_cbOf s1.observers obs.reverse ha6
  refine ⟨s1, ?_, ?_, ha5, ?_, ?_, ?_⟩
  · rw [hc1, Option.some_bind]
    exact ha1
  · rw [ha2, hc3]
    rfl
  · rw [OBS_Notify_chain s1 _ ha5 hlen, hcb]
  · rw [notifyTimes_chain _ m s1 ha5 hlen, hcb]
  · intro c
    rw [count_replicate_flatten, List.map_reverse, List.count_reverse]

/-- Witness for C24: the three observers of the test with the callbacks `11`, `12`, `13`
and two notifications, started from uninitialised memory. -/
theorem OBS_Notify_invokes_attached_witness :
    ∃ s1, (createObservers
        (OBS_CreateSubject ⟨⟨some 1234, 1⟩,
          [⟨some 1234, some 1234, none⟩, ⟨some 7, none, some 5⟩, ⟨none, some 9, none⟩], []⟩)
        [(0, 11), (1, 12), (2, 13)]).bind
        (fun s => attachObservers s [0, 1, 2]) = some s1 ∧
      s1.calls = [] ∧
      notifyTimes 2 s1 = some { s1 with calls := s1.calls ++ [13, 12, 11, 13, 12, 11] } := by
  obtain ⟨s1, h1, h2, -, -, h5, -⟩ := OBS_Notify_invokes_attached
    ⟨⟨some 1234, 1⟩,
      [⟨some 1234, some 1234, none⟩, ⟨some 7, none, some 5⟩, ⟨none, some 9, none⟩], []⟩
    [(0, 11), (1, 12), (2, 13)] 2 (by decide) (by decide)
  exact ⟨s1, h1, h2, h5⟩

/-- C25 (failing input): a subject with the single attached observer `0` (callback `11`).
`OBS_Detach` finds both links of the observer `NULL`, takes it for an object outside the
list and returns early: the observer stays the head of the list, and the following
`OBS_Notify` still invokes its callback. -/
theorem OBS_Detach_only_observer_still_notified :
    (((createObservers
        (OBS_CreateSubject ⟨⟨some 1234, 1⟩, [⟨some 1234, some 1234, none⟩], []⟩)
        [(0, 11)]).bind
      (fun s => attachObservers s [0])).bind
      (fun s => OBS_Detach s 0)).bind OBS_Notify
      = some ⟨⟨some 0, 0⟩, [⟨none, none, some 11⟩], [11]⟩ := by
  decide

/-- C26 (failing input): the observers `0`, `1`, `2` with the callbacks `11`, `12`, `13`
are attached in this order (list `2, 1, 0`). After `OBS_Detach` of `1` and then of `0` the
list is still `2, 0` and `OBS_Notify` invokes the callback `11` of the detached observer
`0`; after `OBS_Detach` of `2` and then of `1` the head is still the detached observer `1`,
`OBS_Notify` invokes its callback `12` and not the callback `11` of the observer `0`, which
was never detached. -/
theorem OBS_Detach_sequence_still_notified :
    (((createObservers
        (OBS_CreateSubject ⟨⟨none, 0⟩, [⟨none, none, none⟩, ⟨none, none, none⟩,
          ⟨none, none, none⟩], []⟩)
        [(0, 11), (1, 12), (2, 13)]).bind
      (fun s => attachObservers s [0, 1, 2])).bind
      (fun s => detachObservers s [1, 0])).bind OBS_Notify
      = some ⟨⟨some 2, 0⟩, [⟨none, none, some 11⟩, ⟨none, none, some 12⟩,
          ⟨some 0, none, some 13⟩], [13, 11]⟩ ∧
    (((createObservers
        (OBS_CreateSubject ⟨⟨none, 0⟩, [⟨none, none, none⟩, ⟨none, none, none⟩,
          ⟨none, none, none⟩], []⟩)
        [(0, 11), (1, 12), (2, 13)]).bind
      (fun s => attachObservers s [0, 1, 2])).bind
      (fun s => detachObservers s [2, 1])).bind OBS_Notify
      = some ⟨⟨some 1, 0⟩, [⟨none, some 1, some 11⟩, ⟨none, none, some 12⟩,
          ⟨some 0, none, some 13⟩], [12]⟩ := by
  decide

/-- C27: `OBS_Detach` of an observer that is not part of the subject's list is a no-op.
For an observer whose links are both `NULL` the whole state (the subject's head and every
observer's links) is unchanged, and a subsequent `OBS_Notify` has the result it has
without the call; a freshly created observer and an already detached observer are such
observers. -/
theorem OBS_Detach_not_in_list (s : ObsState) (p : Nat) :
    (∀ o, s.observers[p]? = some o → o.p_next = none → o.p_prev = none →
      OBS_Detach s p = some s ∧ (OBS_Detach s p).bind OBS_Notify = OBS_Notify s) ∧
    (∀ cb s', OBS_CreateObserver s p cb = some s' → OBS_Detach s' p = some s') ∧
    (∀ s', OBS_Detach s p = some s' → OBS_Detach s' p = some s') := by
  refine ⟨?_, ?_, ?_⟩
  · intro o ho hn hp
    have h := OBS_Detach_null_links s p o ho hn hp
    exact ⟨h, by rw [h, Option.some_bind]⟩
  · intro cb s' h
    cases ho : s.observers[p]? with
    | none =>
      unfold OBS_CreateObserver setNext at h
      rw [ho] at h
      cases h
    | some o =>
      rw [OBS_CreateObserver_eq s p cb o ho] at h
      cases h
      exact OBS_Detach_null_links _ p ⟨none, none, cb⟩ (getElem?_set_same _ _ _ _ ho) rfl rfl
  · intro s' h
    have h' := h
    unfold OBS_Detach at h
    cases ho : s.observers[p]? with
    | none =>
      rw [ho] at h
      cases h
    | some o =>
      rw [ho, Option.some_bind] at h
      by_cases hc : o.p_prev = none ∧ o.p_next = none
      · rw [if_pos hc] at h
        cases h
        exact h'
      · rw [if_neg hc] at h
        obtain ⟨s1, -, h2⟩ := Option.bind_eq_some.mp h
        obtain ⟨m1, h3, h4⟩ := Option.bind_eq_some.mp h2
        obtain ⟨m2, h5, h6⟩ := Option.map_eq_some'.mp h4
        have hb : (setNext s1.observers p none).bind (fun m => setPrev m p none)
            = some m2 := by
          rw [h3, Option.some_bind]
          exact h5
        obtain ⟨o2, ho2, hn2, hp2⟩ := links_cleared _ _ _ hb
        rw [← h6]
        exact OBS_Detach_null_links _ p o2 ho2 hn2 hp2

/-- Witness for C27: in the list `2, 1, 0` of the test the observer `0` is detached twice;
the second call changes nothing. -/
theorem OBS_Detach_not_in_list_witness :
    OBS_Detach ⟨⟨some 2, 0⟩, [⟨none, some 1, some 11⟩, ⟨some 0, some 2, some 12⟩,
        ⟨some 1, none, some 13⟩], []⟩ 0
      = some ⟨⟨some 2, 0⟩, [⟨none, none, some 11⟩, ⟨none, some 2, some 12⟩,
        ⟨some 1, none, some 13⟩], []⟩ ∧
    OBS_Detach ⟨⟨some 2, 0⟩, [⟨none, none, some 11⟩, ⟨none, some 2, some 12⟩,
        ⟨some 1, none, some 13⟩], []⟩ 0
      = some ⟨⟨some 2, 0⟩, [⟨none, none, some 11⟩, ⟨none, some 2, some 12⟩,
        ⟨some 1, none, some 13⟩], []⟩ :=
  ⟨by decide,
    (OBS_Detach_not_in_list ⟨⟨some 2, 0⟩, [⟨none, some 1, some 11⟩, ⟨some 0, some 2, some 12⟩,
        ⟨some 1, none, some 13⟩], []⟩ 0).2.2 _ (by decide)⟩

/-- C28: for any prior contents of the subject structure, after `OBS_CreateSubject` the
subject's head pointer is `NULL` and its count is `0`; nothing else is written. -/
theorem OBS_CreateSubject_init (s : ObsState) :
    (OBS_CreateSubject s).subject.pHead = none ∧ (OBS_CreateSubject s).subject.cnt = 0 ∧
    (OBS_CreateSubject s).observers = s.observers ∧ (OBS_CreateSubject s).calls = s.calls :=
  ⟨rfl, rfl, rfl, rfl⟩

/-- C29: for any prior contents of the observer structure and any callback `cb`, after
`OBS_CreateObserver(o, cb)` the observer's next and previous links are `NULL` and its
callback is `cb`; no other object is written. -/
theorem OBS_CreateObserver_init (s : ObsState) (p : Nat) (cb : Option Nat)
    (hp : p < s.observers.length) :
    ∃ s', OBS_CreateObserver s p cb = some s' ∧
      s'.observers[p]? = some ⟨none, none, cb⟩ ∧
      s'.subject = s.subject ∧ s'.calls = s.calls ∧
      ∀ q, q ≠ p → s'.observers[q]? = s.observers[q]? := by
  have ho : s.observers[p]? = some s.observers[p] := List.getElem?_eq_getElem hp
  refine ⟨_, OBS_CreateObserver_eq s p cb _ ho, getElem?_set_same _ _ _ _ ho, rfl, rfl, ?_⟩
  intro q hq
  exact List.getElem?_set_ne (Ne.symm hq)

/-- Witness for C29: the uninitialised observer of the test and the callback `4321`. -/
theorem OBS_CreateObserver_init_witness :
    ∃ s', OBS_CreateObserver ⟨⟨some 1234, 1⟩, [⟨some 1234, some 1234, none⟩], []⟩ 0
        (some 4321) = some s' ∧
      s'.observers[0]? = some ⟨none, none, some 4321⟩ := by
  obtain ⟨s', h1, h2, -⟩ := OBS_CreateObserver_init
    ⟨⟨some 1234, 1⟩, [⟨some 1234, some 1234, none⟩], []⟩ 0 (some 4321) (by decide)
  exact ⟨s', h1, h2⟩

/-- C30: the CORDIC angle-step table `FPM_tCordicAngleTabQ15` (16 entries) is monotonically
non-increasing (each entry is at most its predecessor), its last entry is zero, and every
entry the 14 iterations use (indices `0 .. 13`) is strictly positive, starting at `8192`
(45 degrees). -/
theorem FPM_tCordicAngleTabQ15_monotone :
    FPM_tCordicAngleTabQ15.length = 16 ∧
    List.Pairwise (fun a b => b ≤ a) FPM_tCordicAngleTabQ15 ∧
    (∀ i : Nat, i + 1 < 16 →
      ∃ a b, FPM_tCordicAngleTabQ15[i]? = some a ∧ FPM_tCordicAngleTabQ15[i + 1]? = some b ∧
        b ≤ a) ∧
    FPM_tCordicAngleTabQ15.getLast? = some 0 ∧
    FPM_tCordicAngleTabQ15[15]? = some 0 ∧
    (∀ i : Nat, i < FPM_CORDIC_ITERATIONS →
      ∃ v, FPM_tCordicAngleTabQ15[i]? = some v ∧ 0 < v) ∧
    FPM_tCordicAngleTabQ15[0]? = some 8192 := by
  refine ⟨by decide, by decide, ?_, by decide, by decide, ?_, by decide⟩
  · intro i hi
    have hi' : i < 15 := by omega
    interval_cases i <;> exact ⟨_, _, rfl, rfl, by decide⟩
  · intro i hi
    have hi' : i < 14 := hi
    interval_cases i <;> exact ⟨_, rfl, by decide⟩

/-- Witness for C30 at the indices `12`, `13` and `14`. -/
theorem FPM_tCordicAngleTabQ15_monotone_witness :
    (∃ a b, FPM_tCordicAngleTabQ15[12]? = some a ∧ FPM_tCordicAngleTabQ15[12 + 1]? = some b ∧
      b ≤ a) ∧
    (∃ v, FPM_tCordicAngleTabQ15[13]? = some v ∧ 0 < v) :=
  ⟨FPM_tCordicAngleTabQ15_monotone.2.2.1 12 (by decide),
    FPM_tCordicAngleTabQ15_monotone.2.2.2.2.2.1 13 (by decide)⟩

/-- C31: every entry `i` (0..15) of the CORDIC angle-step table approximates `arctan(2^-i)`
in the angle format of 65536 units per full turn to the nearest integer: the table has 16
entries and `|FPM_tCordicAngleTabQ15[i] - arctan(2^-i) * 32768 / π| ≤ 1/2` for each. -/
theorem FPM_tCordicAngleTabQ15_nearest :
    FPM_tCordicAngleTabQ15.length = 16 ∧
    ∀ i : Nat, i < 16 → ∃ t : Int, FPM_tCordicAngleTabQ15[i]? = some t ∧
      |(t : ℝ) - Real.arctan ((2 : ℝ) ^ (-(i : ℤ))) * 32768 / Real.pi| ≤ 1 / 2 := by
  refine ⟨rfl, fun i hi => ⟨FPM_tCordicAngleTabQ15.getD i 0, ?_, ?_⟩⟩
  · have hl : i < FPM_tCordicAngleTabQ15.length := hi
    rw [List.getD_eq_getElem?_getD, List.getElem?_eq_getElem hl]
    rfl
  · have e : (2 : ℝ) ^ (-(i : ℤ)) = (1 / 2 : ℝ) ^ i := by
      rw [zpow_neg, zpow_natCast, one_div, inv_pow]
    have e2 : Real.arctan ((1 / 2 : ℝ) ^ i) * 32768 / Real.pi
        = 32768 / Real.pi * Real.arctan ((1 / 2 : ℝ) ^ i) := by ring
    rw [e, e2]
    exact cordicTab_error_all i hi

/-- C32: table nodes are reproduced exactly. For every table of `N ≥ 2` points with
strictly ascending x and every index `i` in `0 .. N-1`, when no intermediate value of the
computation leaves the signed 32-bit range, `FPM_tInterpolate2D(x_i) = y_i`. -/
theorem FPM_tInterpolate2D_node (lut : List TPoint) (i : Nat) (pi : TPoint)
    (hN : 2 ≤ lut.length) (hsz : lut.length < 2 ^ 32)
    (hasc : StrictAsc (lut.map TPoint.tXValue)) (hi : lut[i]? = some pi)
    (hfit : ∀ k p0 p1, selectedIndex pi.tXValue lut lut.length = some k →
      lut[k - 1]? = some p0 → lut[k]? = some p1 → Fits32Segment pi.tXValue p0 p1) :
    FPM_tInterpolate2D pi.tXValue lut lut.length = some pi.tYValue := by
  obtain ⟨k, hk, hk1, hklt, hseg⟩ := selectedIndex_spec pi.tXValue lut hN hsz
  obtain ⟨p0, p1, h0, h1⟩ := segment_points lut k hk1 hklt
  have hd : p0.tXValue < p1.tXValue := strictAsc_points lut hasc (k - 1) k p0 p1 h0 h1 (by omega)
  have hf := hfit k p0 p1 hk h0 h1
  obtain ⟨hleft, hright⟩ := interpolateSegment_node pi.tXValue p0 p1 hd hf
  rw [FPM_tInterpolate2D_eq_segment pi.tXValue lut _ k p0 p1 hk hk1 (by omega) h0 h1]
  rcases node_segment _ hasc i k pi.tXValue (point_coords lut i pi hi).1 hk1 hseg with e | e
  · subst e
    rw [hi] at h0
    cases h0
    exact hleft rfl
  · subst e
    rw [hi] at h1
    cases h1
    exact hright rfl

/-- Witness for C32 on a table of three points at the middle node. -/
theorem FPM_tInterpolate2D_node_witness :
    FPM_tInterpolate2D 10 [⟨0, 0⟩, ⟨10, 7⟩, ⟨25, -40⟩] 3 = some 7 := by
  refine FPM_tInterpolate2D_node [⟨0, 0⟩, ⟨10, 7⟩, ⟨25, -40⟩] 1 ⟨10, 7⟩ (by decide) (by decide)
    (by decide) rfl ?_
  intro k p0 p1 hk h0 h1
  have hk' : selectedIndex 10 [⟨0, 0⟩, ⟨10, 7⟩, ⟨25, -40⟩] 3 = some 1 := by decide
  have hkeq : k = 1 := Option.some.inj (hk.symm.trans hk')
  subst hkeq
  have e0 : p0 = ⟨0, 0⟩ := (Option.some.inj h0).symm
  have e1 : p1 = ⟨10, 7⟩ := (Option.some.inj h1).symm
  subst e0 e1
  decide

/-- C33: grid nodes are reproduced exactly. For every 3-D table with `Nx ≥ 2`, `Ny ≥ 2`,
strictly ascending axis vectors and a z grid of length `Nx * Ny`, and for every `i < Nx`
and `j < Ny`, when no intermediate value of the computation leaves the signed 32-bit
range, `FPM_tInterpolate3D` at the query `(X[i], Y[j])` returns `Z[j*Nx + i]`. -/
theorem FPM_tInterpolate3D_node (T : TLookUpTable3D) (i j : Nat) (xi yj zij : Int)
    (hNx : 2 ≤ T.ulXSize) (hNy : 2 ≤ T.ulYSize)
    (hNx32 : T.ulXSize < 2 ^ 32) (hNy32 : T.ulYSize < 2 ^ 32)
    (hX : T.ptXValues.length = T.ulXSize) (hY : T.ptYValues.length = T.ulYSize)
    (hZ : T.ptZValues.length = T.ulXSize * T.ulYSize)
    (hascX : StrictAsc T.ptXValues) (hascY : StrictAsc T.ptYValues)
    (hxi : T.ptXValues[i]? = some xi) (hyj : T.ptYValues[j]? = some yj)
    (hzij : T.ptZValues[j * T.ulXSize + i]? = some zij)
    (hfit : ∀ i2 z j2 zz x1 x2 y1 y2 a b c d,
      scanAxis xi T.ptXValues T.ulXSize 1 (2 ^ 32) 1 (1 + T.ulXSize) = some (i2, z) →
      scanAxis yj T.ptYValues T.ulYSize T.ulXSize (2 ^ 32) 1 z = some (j2, zz) →
      T.ptXValues[i2 - 1]? = some x1 → T.ptXValues[i2]? = some x2 →
      T.ptYValues[j2 - 1]? = some y1 → T.ptYValues[j2]? = some y2 →
      T.ptZValues[zz - T.ulXSize - 1]? = some a → T.ptZValues[zz - T.ulXSize]? = some b →
      T.ptZValues[zz - 1]? = some c → T.ptZValues[zz]? = some d →
      Fits32Corners xi yj x1 x2 y1 y2 a b c d) :
    FPM_tInterpolate3D ⟨xi, yj⟩ T = some zij := by
  obtain ⟨i2, hsx, hi1, hilt, hiseg⟩ :=
    scanAxis_index xi T.ptXValues T.ulXSize 1 (1 + T.ulXSize) hX hNx hNx32
  obtain ⟨j2, hsy, hj1, hjlt, hjseg⟩ :=
    scanAxis_index yj T.ptYValues T.ulYSize T.ulXSize (1 + T.ulXSize + (i2 - 1) * 1) hY hNy hNy32
  have hj : j2 = (j2 - 1) + 1 := by omega
  have hm : j2 * T.ulXSize = (j2 - 1) * T.ulXSize + T.ulXSize :=
    (congrArg (fun t => t * T.ulXSize) hj).trans (Nat.succ_mul (j2 - 1) T.ulXSize)
  have hj2 : j2 + 1 ≤ T.ulYSize := by omega
  have hbound : (j2 + 1) * T.ulXSize ≤ T.ulYSize * T.ulXSize := Nat.mul_le_mul_right _ hj2
  have hm2 : (j2 + 1) * T.ulXSize = j2 * T.ulXSize + T.ulXSize := Nat.succ_mul j2 T.ulXSize
  have hcomm : T.ulXSize * T.ulYSize = T.ulYSize * T.ulXSize := Nat.mul_comm _ _
  have e11 : 1 + T.ulXSize + (i2 - 1) * 1 + (j2 - 1) * T.ulXSize - T.ulXSize - 1
      = (j2 - 1) * T.ulXSize + (i2 - 1) := by omega
  have e21 : 1 + T.ulXSize + (i2 - 1) * 1 + (j2 - 1) * T.ulXSize - T.ulXSize
      = (j2 - 1) * T.ulXSize + i2 := by omega
  have e12 : 1 + T.ulXSize + (i2 - 1) * 1 + (j2 - 1) * T.ulXSize - 1
      = j2 * T.ulXSize + (i2 - 1) := by omega
  have e22 : 1 + T.ulXSize + (i2 - 1) * 1 + (j2 - 1) * T.ulXSize
      = j2 * T.ulXSize + i2 := by omega
  obtain ⟨x1, hx1⟩ := exists_getElem T.ptXValues (i2 - 1) (by omega)
  obtain ⟨x2, hx2⟩ := exists_getElem T.ptXValues i2 (by omega)
  obtain ⟨y1, hy1⟩ := exists_getElem T.ptYValues (j2 - 1) (by omega)
  obtain ⟨y2, hy2⟩ := exists_getElem T.ptYValues j2 (by omega)
  obtain ⟨a, ha⟩ := exists_getElem T.ptZValues ((j2 - 1) * T.ulXSize + (i2 - 1)) (by omega)
  obtain ⟨b, hb⟩ := exists_getElem T.ptZValues ((j2 - 1) * T.ulXSize + i2) (by omega)
  obtain ⟨c, hc⟩ := exists_getElem T.ptZValues (j2 * T.ulXSize + (i2 - 1)) (by omega)
  obtain ⟨d, hd⟩ := exists_getElem T.ptZValues (j2 * T.ulXSize + i2) (by omega)
  have h3 := FPM_tInterpolate3D_eq_corners ⟨xi, yj⟩ T i2 _ j2 _ x1 x2 y1 y2 a b c d
    hsx hsy hx1 hx2 hy1 hy2
    (by rw [e11]; exact ha) (by rw [e21]; exact hb) (by rw [e12]; exact hc)
    (by rw [e22]; exact hd)
  obtain ⟨hf1, hf2, hf3⟩ := hfit i2 _ j2 _ x1 x2 y1 y2 a b c d hsx hsy hx1 hx2 hy1 hy2
    (by rw [e11]; exact ha) (by rw [e21]; exact hb) (by rw [e12]; exact hc)
    (by rw [e22]; exact hd)
  have hdx : x1 < x2 := strictAsc_getElem _ hascX (i2 - 1) i2 _ _ hx1 hx2 (by omega)
  have hdy : y1 < y2 := strictAsc_getElem _ hascY (j2 - 1) j2 _ _ hy1 hy2 (by omega)
  have hz1 := interpolateSegment_exact xi ⟨x1, a⟩ ⟨x2, b⟩ hdx hf1
  have hz2 := interpolateSegment_exact xi ⟨x1, c⟩ ⟨x2, d⟩ hdx hf2
  have hn1 := interpolateSegment_node xi ⟨x1, a⟩ ⟨x2, b⟩ hdx hf1
  have hn2 := interpolateSegment_node xi ⟨x1, c⟩ ⟨x2, d⟩ hdx hf2
  dsimp only at hz1 hz2 hn1 hn2 hf3
  generalize hq1 : a + roundDiv ((xi - x1) * (b - a)) (x2 - x1) = z1 at hz1 hf3
  generalize hq2 : c + roundDiv ((xi - x1) * (d - c)) (x2 - x1) = z2 at hz2 hf3
  have hn3 := interpolateSegment_node yj ⟨y1, z1⟩ ⟨y2, z2⟩ hdy hf3
  dsimp only at hn3
  rw [h3, interpolateCorners_eq, hz1, Option.some_bind, hz2, Option.some_bind]
  -- the values of the two interpolations in x direction at the node
  have hzrow : ∀ row v, T.ptZValues[row * T.ulXSize + i]? = some v →
      ∀ za zb, T.ptZValues[row * T.ulXSize + (i2 - 1)]? = some za →
        T.ptZValues[row * T.ulXSize + i2]? = some zb →
        interpolateSegment xi ⟨x1, za⟩ ⟨x2, zb⟩ = some (za + roundDiv ((xi - x1) * (zb - za))
          (x2 - x1)) →
        ((xi = x1 → interpolateSegment xi ⟨x1, za⟩ ⟨x2, zb⟩ = some za) ∧
          (xi = x2 → interpolateSegment xi ⟨x1, za⟩ ⟨x2, zb⟩ = some zb)) →
        za + roundDiv ((xi - x1) * (zb - za)) (x2 - x1) = v := by
    intro row v hv za zb hza hzb hex hnode
    rcases node_segment _ hascX i i2 xi hxi hi1 hiseg with e | e
    · subst e
      rw [hxi] at hx1
      cases hx1
      rw [hza] at hv
      cases hv
      have := hnode.1 rfl
      rw [hex] at this
      exact Option.some.inj this
    · subst e
      rw [hxi] at hx2
      cases hx2
      rw [hzb] at hv
      cases hv
      have := hnode.2 rfl
      rw [hex] at this
      exact Option.some.inj this
  rcases node_segment _ hascY j j2 yj hyj hj1 hjseg with e | e
  · subst e
    rw [hyj] at hy1
    cases hy1
    have := hzrow (j2 - 1) zij hzij a b ha hb (by rw [hq1]; exact hz1) hn1
    rw [hq1] at this
    subst this
    exact hn3.1 rfl
  · subst e
    rw [hyj] at hy2
    cases hy2
    have := hzrow j zij hzij c d hc hd (by rw [hq2]; exact hz2) hn2
    rw [hq2] at this
    subst this
    exact hn3.2 rfl

/-- Witness for C33 on a grid of three by two points at the node `(X[1], Y[1])`. -/
theorem FPM_tInterpolate3D_node_witness :
    FPM_tInterpolate3D ⟨10, 10⟩ ⟨[0, 10, 20], [0, 10], [1, 2, 3, 4, 5, 6], 3, 2⟩ = some 5 := by
  refine FPM_tInterpolate3D_node ⟨[0, 10, 20], [0, 10], [1, 2, 3, 4, 5, 6], 3, 2⟩ 1 1 10 10 5
    (by decide) (by decide) (by decide) (by decide) rfl rfl rfl (by decide) (by decide)
    rfl rfl rfl ?_
  intro i2 z j2 zz x1 x2 y1 y2 a b c d hsx hsy hx1 hx2 hy1 hy2 ha hb hc hd
  have hsx' : scanAxis 10 [0, 10, 20] 3 1 (2 ^ 32) 1 (1 + 3) = some (1, 4) :=
    scanAxis_fuel_mono 10 [0, 10, 20] 3 1 3 (2 ^ 32) 1 (1 + 3) (1, 4) (by decide) (by decide)
  have e1 : (i2, z) = (1, 4) := Option.some.inj (hsx.symm.trans hsx')
  cases e1
  have hsy' : scanAxis 10 [0, 10] 2 3 (2 ^ 32) 1 4 = some (1, 4) :=
    scanAxis_fuel_mono 10 [0, 10] 2 3 3 (2 ^ 32) 1 4 (1, 4) (by decide) (by decide)
  have e2 : (j2, zz) = (1, 4) := Option.some.inj (hsy.symm.trans hsy')
  cases e2
  have ex1 : x1 = 0 := (Option.some.inj hx1).symm
  have ex2 : x2 = 10 := (Option.some.inj hx2).symm
  have ey1 : y1 = 0 := (Option.some.inj hy1).symm
  have ey2 : y2 = 10 := (Option.some.inj hy2).symm
  have ea : a = 1 := (Option.some.inj ha).symm
  have eb : b = 2 := (Option.some.inj hb).symm
  have ec : c = 4 := (Option.some.inj hc).symm
  have ed : d = 5 := (Option.some.inj hd).symm
  subst ex1 ex2 ey1 ey2 ea eb ec ed
  decide

/-- C34: inside the table's domain the 2-D interpolation never overshoots. For every table
of `N ≥ 2` points with strictly ascending x and every query `x` with `x_0 ≤ x ≤ x_(N-1)`,
when no intermediate value leaves the signed 32-bit range, the result of
`FPM_tInterpolate2D` lies between `min(y_(k-1), y_k)` and `max(y_(k-1), y_k)` of the
selected segment `[k-1, k]`. -/
theorem FPM_tInterpolate2D_no_overshoot (x : Int) (lut : List TPoint)
    (hN : 2 ≤ lut.length) (hsz : lut.length < 2 ^ 32)
    (hasc : StrictAsc (lut.map TPoint.tXValue))
    (pF pL : TPoint) (hF : lut[0]? = some pF) (hL : lut[lut.length - 1]? = some pL)
    (hlo : pF.tXValue ≤ x) (hhi : x ≤ pL.tXValue)
    (hfit : ∀ k p0 p1, selectedIndex x lut lut.length = some k → lut[k - 1]? = some p0 →
      lut[k]? = some p1 → Fits32Segment x p0 p1) :
    ∃ k p0 p1 r, selectedIndex x lut lut.length = some k ∧
      lut[k - 1]? = some p0 ∧ lut[k]? = some p1 ∧
      FPM_tInterpolate2D x lut lut.length = some r ∧
      min p0.tYValue p1.tYValue ≤ r ∧ r ≤ max p0.tYValue p1.tYValue := by
  obtain ⟨k, hk, hk1, hklt, hseg⟩ := selectedIndex_spec x lut hN hsz
  obtain ⟨p0, p1, h0, h1⟩ := segment_points lut k hk1 hklt
  have hd : p0.tXValue < p1.tXValue := strictAsc_points lut hasc (k - 1) k p0 p1 h0 h1 (by omega)
  have hdpos : 0 < p1.tXValue - p0.tXValue := by omega
  have hf := hfit k p0 p1 hk h0 h1
  have hres := (FPM_tInterpolate2D_eq_segment x lut _ k p0 p1 hk hk1 (by omega) h0 h1).trans
    (interpolateSegment_exact x p0 p1 hd hf)
  obtain ⟨hbefore, hafter, -⟩ := IsSegmentIndex_nodes x _ k hseg
  have hlen : (lut.map TPoint.tXValue).length = lut.length := List.length_map _ _
  -- the segment brackets the query
  have hleft : 0 ≤ x - p0.tXValue := by
    by_cases hk' : k = 1
    · subst hk'
      rw [hF] at h0
      cases h0
      omega
    · have := hbefore (k - 1) _ (by omega) (by omega) (point_coords lut _ p0 h0).1
      omega
  have hright : x - p0.tXValue ≤ p1.tXValue - p0.tXValue := by
    by_cases hk' : k + 1 = lut.length
    · have hk'' : k = lut.length - 1 := by omega
      subst hk''
      rw [hL] at h1
      cases h1
      omega
    · have := hafter _ (by rw [hlen]; omega) (point_coords lut _ p1 h1).1
      omega
  refine ⟨k, p0, p1, _, hk, h0, h1, hres, ?_, ?_⟩
  · rcases le_total 0 (p1.tYValue - p0.tYValue) with hΔ | hΔ
    · have := (roundDiv_rising _ _ _ hdpos hΔ).1 hleft
      rw [min_eq_left (by omega)]
      omega
    · have := (roundDiv_falling _ _ _ hdpos hΔ).2 hright
      rw [min_eq_right (by omega)]
      omega
  · rcases le_total 0 (p1.tYValue - p0.tYValue) with hΔ | hΔ
    · have := (roundDiv_rising _ _ _ hdpos hΔ).2 hright
      rw [max_eq_right (by omega)]
      omega
    · have := (roundDiv_falling _ _ _ hdpos hΔ).1 hleft
      rw [max_eq_left (by omega)]
      omega

/-- Witness for C34 on a table of three points at the query `17` in the falling segment. -/
theorem FPM_tInterpolate2D_no_overshoot_witness :
    ∃ k p0 p1 r, selectedIndex 17 [⟨0, 0⟩, ⟨10, 7⟩, ⟨25, -40⟩] 3 = some k ∧
      [(⟨0, 0⟩ : TPoint), ⟨10, 7⟩, ⟨25, -40⟩][k - 1]? = some p0 ∧
      [(⟨0, 0⟩ : TPoint), ⟨10, 7⟩, ⟨25, -40⟩][k]? = some p1 ∧
      FPM_tInterpolate2D 17 [⟨0, 0⟩, ⟨10, 7⟩, ⟨25, -40⟩] 3 = some r ∧
      min p0.tYValue p1.tYValue ≤ r ∧ r ≤ max p0.tYValue p1.tYValue := by
  refine FPM_tInterpolate2D_no_overshoot 17 [⟨0, 0⟩, ⟨10, 7⟩, ⟨25, -40⟩] (by decide) (by decide)
    (by decide) ⟨0, 0⟩ ⟨25, -40⟩ rfl rfl (by decide) (by decide) ?_
  intro k p0 p1 hk h0 h1
  have hk' : selectedIndex 17 [⟨0, 0⟩, ⟨10, 7⟩, ⟨25, -40⟩] 3 = some 2 := by decide
  have hkeq : k = 2 := Option.some.inj (hk.symm.trans hk')
  subst hkeq
  have e0 : p0 = ⟨10, 7⟩ := (Option.some.inj h0).symm
  have e1 : p1 = ⟨25, -40⟩ := (Option.some.inj h1).symm
  subst e0 e1
  decide

/-- C35: `FPM_tInterpolate2D` is monotone on monotone tables. For every table of `N ≥ 2`
points with strictly ascending x and non-decreasing y, and all queries `a ≤ b` (inside or
outside the table's domain), when no intermediate value of the two computations leaves the
signed 32-bit range, `FPM_tInterpolate2D(a) ≤ FPM_tInterpolate2D(b)`. -/
theorem FPM_tInterpolate2D_monotone (a b : Int) (lut : List TPoint)
    (hN : 2 ≤ lut.length) (hsz : lut.length < 2 ^ 32)
    (hasc : StrictAsc (lut.map TPoint.tXValue))
    (hy : List.Pairwise (fun u v => u ≤ v) (lut.map TPoint.tYValue))
    (hab : a ≤ b)
    (hfa : ∀ k p0 p1, selectedIndex a lut lut.length = some k → lut[k - 1]? = some p0 →
      lut[k]? = some p1 → Fits32Segment a p0 p1)
    (hfb : ∀ k p0 p1, selectedIndex b lut lut.length = some k → lut[k - 1]? = some p0 →
      lut[k]? = some p1 → Fits32Segment b p0 p1) :
    ∃ ra rb, FPM_tInterpolate2D a lut lut.length = some ra ∧
      FPM_tInterpolate2D b lut lut.length = some rb ∧ ra ≤ rb := by
  have hlen : (lut.map TPoint.tXValue).length = lut.length := List.length_map _ _
  obtain ⟨ka, hka, hka1, hkalt, hsega⟩ := selectedIndex_spec a lut hN hsz
  obtain ⟨kb, hkb, hkb1, hkblt, hsegb⟩ := selectedIndex_spec b lut hN hsz
  obtain ⟨a0, a1, ha0, ha1⟩ := segment_points lut ka hka1 hkalt
  obtain ⟨b0, b1, hb0, hb1⟩ := segment_points lut kb hkb1 hkblt
  have hda : a0.tXValue < a1.tXValue :=
    strictAsc_points lut hasc (ka - 1) ka a0 a1 ha0 ha1 (by omega)
  have hdb : b0.tXValue < b1.tXValue :=
    strictAsc_points lut hasc (kb - 1) kb b0 b1 hb0 hb1 (by omega)
  have hra := (FPM_tInterpolate2D_eq_segment a lut _ ka a0 a1 hka hka1 (by omega) ha0 ha1).trans
    (interpolateSegment_exact a a0 a1 hda (hfa ka a0 a1 hka ha0 ha1))
  have hrb := (FPM_tInterpolate2D_eq_segment b lut _ kb b0 b1 hkb hkb1 (by omega) hb0 hb1).trans
    (interpolateSegment_exact b b0 b1 hdb (hfb kb b0 b1 hkb hb0 hb1))
  obtain ⟨hbefa, hafta, -⟩ := IsSegmentIndex_nodes a _ ka hsega
  obtain ⟨hbefb, haftb, -⟩ := IsSegmentIndex_nodes b _ kb hsegb
  have hΔa : 0 ≤ a1.tYValue - a0.tYValue := by
    have := pairwise_le_getElem _ hy (ka - 1) ka _ _ (point_coords lut _ a0 ha0).2
      (point_coords lut _ a1 ha1).2 (by omega)
    omega
  have hΔb : 0 ≤ b1.tYValue - b0.tYValue := by
    have := pairwise_le_getElem _ hy (kb - 1) kb _ _ (point_coords lut _ b0 hb0).2
      (point_coords lut _ b1 hb1).2 (by omega)
    omega
  refine ⟨_, _, hra, hrb, ?_⟩
  rcases Nat.lt_trichotomy ka kb with hlt | heq | hgt
  · -- different segments: the result at `a` is at most `y_ka`, the one at `b` at least
    -- `y_(kb-1)`
    have h1 : a ≤ a1.tXValue := hafta _ (by rw [hlen]; omega) (point_coords lut _ a1 ha1).1
    have h2 : b0.tXValue < b :=
      hbefb (kb - 1) _ (by omega) (by omega) (point_coords lut _ b0 hb0).1
    have h3 := (roundDiv_rising (a - a0.tXValue) (a1.tXValue - a0.tXValue) _ (by omega) hΔa).2
      (by omega)
    have h4 := (roundDiv_rising (b - b0.tXValue) (b1.tXValue - b0.tXValue) _ (by omega) hΔb).1
      (by omega)
    have h5 := pairwise_le_getElem _ hy ka (kb - 1) _ _ (point_coords lut _ a1 ha1).2
      (point_coords lut _ b0 hb0).2 (by omega)
    omega
  · subst heq
    rw [ha0] at hb0
    rw [ha1] at hb1
    cases hb0
    cases hb1
    have hp : (a - a0.tXValue) * (a1.tYValue - a0.tYValue)
        ≤ (b - a0.tXValue) * (a1.tYValue - a0.tYValue) :=
      mul_le_mul_of_nonneg_right (by omega) hΔa
    have := roundDiv_mono _ _ (a1.tXValue - a0.tXValue) (by omega) hp
    omega
  · exfalso
    have h1 : b ≤ b1.tXValue := haftb _ (by rw [hlen]; omega) (point_coords lut _ b1 hb1).1
    have h2 : b1.tXValue < a := hbefa kb _ hkb1 hgt (point_coords lut _ b1 hb1).1
    omega

/-- Witness for C35 on a table of three points at the queries `-5` (left of the table) and
`12` (in the second segment). -/
theorem FPM_tInterpolate2D_monotone_witness :
    ∃ ra rb, FPM_tInterpolate2D (-5) [⟨0, 0⟩, ⟨10, 7⟩, ⟨25, 40⟩] 3 = some ra ∧
      FPM_tInterpolate2D 12 [⟨0, 0⟩, ⟨10, 7⟩, ⟨25, 40⟩] 3 = some rb ∧ ra ≤ rb := by
  refine FPM_tInterpolate2D_monotone (-5) 12 [⟨0, 0⟩, ⟨10, 7⟩, ⟨25, 40⟩] (by decide)
    (by decide) (by decide) (by decide) (by decide) ?_ ?_
  · intro k p0 p1 hk h0 h1
    have hk' : selectedIndex (-5) [⟨0, 0⟩, ⟨10, 7⟩, ⟨25, 40⟩] 3 = some 1 := by decide
    have hkeq : k = 1 := Option.some.inj (hk.symm.trans hk')
    subst hkeq
    have e0 : p0 = ⟨0, 0⟩ := (Option.some.inj h0).symm
    have e1 : p1 = ⟨10, 7⟩ := (Option.some.inj h1).symm
    subst e0 e1
    decide
  · intro k p0 p1 hk h0 h1
    have hk' : selectedIndex 12 [⟨0, 0⟩, ⟨10, 7⟩, ⟨25, 40⟩] 3 = some 2 := by decide
    have hkeq : k = 2 := Option.some.inj (hk.symm.trans hk')
    subst hkeq
    have e0 : p0 = ⟨10, 7⟩ := (Option.some.inj h0).symm
    have e1 : p1 = ⟨25, 40⟩ := (Option.some.inj h1).symm
    subst e0 e1
    decide

/-- C36: for every input of `FPM_vCart2Pol` with `|re| ≤ 8192` and `|im| ≤ 8192`, the real
component of the working vector is non-negative after the pre-rotation and never decreases
during the 14 iterations, the final scaling product `39796 * re` fits in a signed 32-bit
integer, and the returned magnitude is non-negative. -/
theorem FPM_vCart2Pol_real_part_grows (re im : Int) (tPN : TPolNum)
    (hre : |re| ≤ 8192) (him : |im| ≤ 8192) :
    0 ≤ (preRotate ⟨re, im⟩).1.tRe ∧
    (∀ k, k < FPM_CORDIC_ITERATIONS →
      (cordicLoop k 0 { tCartNum := (preRotate ⟨re, im⟩).1, siAngle := 0 }).tCartNum.tRe
        ≤ (cordicLoop (k + 1) 0
            { tCartNum := (preRotate ⟨re, im⟩).1, siAngle := 0 }).tCartNum.tRe) ∧
    InRange32 (FPM_CORDIC_SCALE_FACTOR_Q16 *
      (cordicLoop FPM_CORDIC_ITERATIONS 0
        { tCartNum := (preRotate ⟨re, im⟩).1, siAngle := 0 }).tCartNum.tRe) ∧
    0 ≤ (FPM_vCart2Pol ⟨re, im⟩ tPN).tMag := by
  obtain ⟨hp0, hp1, hp2⟩ := preRotate_small re im hre him
  have hIt : FPM_CORDIC_ITERATIONS = 14 := rfl
  obtain ⟨hf0, hf1, -⟩ := cordicLoop_small _ hp0 hp1 hp2 14 (le_refl _)
  have hB := (cordicBound_le 14 (le_refl _)).2
  have hfit : InRange32 (FPM_CORDIC_SCALE_FACTOR_Q16 *
      (cordicLoop FPM_CORDIC_ITERATIONS 0
        { tCartNum := (preRotate ⟨re, im⟩).1, siAngle := 0 }).tCartNum.tRe) := by
    rw [hIt]
    unfold InRange32 FPM_CORDIC_SCALE_FACTOR_Q16
    omega
  refine ⟨hp0, ?_, hfit, ?_⟩
  · intro k hk
    rw [hIt] at hk
    obtain ⟨h1, h2, h3⟩ := cordicLoop_small _ hp0 hp1 hp2 k (by omega)
    rw [cordicLoop_succ, Nat.zero_add]
    exact (cordicStep_small k _ hk h1 h2 h3 (cordicLoop_angle _ k (by omega))).1
  · rw [FPM_vCart2Pol_eq]
    dsimp only
    rw [wrap32_of_inRange hfit]
    refine ((shiftRight_range _ 16).1 ?_).1
    rw [hIt]
    unfold FPM_CORDIC_SCALE_FACTOR_Q16
    omega

/-- Witness for C36 at the input `(-3000, 4000)` in the second quadrant. -/
theorem FPM_vCart2Pol_real_part_grows_witness :
    0 ≤ (preRotate ⟨-3000, 4000⟩).1.tRe ∧
    (∀ k, k < FPM_CORDIC_ITERATIONS →
      (cordicLoop k 0 { tCartNum := (preRotate ⟨-3000, 4000⟩).1, siAngle := 0 }).tCartNum.tRe
        ≤ (cordicLoop (k + 1) 0
            { tCartNum := (preRotate ⟨-3000, 4000⟩).1, siAngle := 0 }).tCartNum.tRe) ∧
    InRange32 (FPM_CORDIC_SCALE_FACTOR_Q16 *
      (cordicLoop FPM_CORDIC_ITERATIONS 0
        { tCartNum := (preRotate ⟨-3000, 4000⟩).1, siAngle := 0 }).tCartNum.tRe) ∧
    0 ≤ (FPM_vCart2Pol ⟨-3000, 4000⟩ ⟨0, 0⟩).tMag :=
  FPM_vCart2Pol_real_part_grows (-3000) 4000 ⟨0, 0⟩ (by decide) (by decide)

/-- C37: for every input of `FPM_vCart2Pol`, the angle accumulated by the 14 iterations
before the quadrant offset is added lies in `[-18181, 18181]`, `18181` being the sum of the
14 used table entries; each iteration adds or subtracts its table entry without wrapping
the 16-bit accumulator; consequently every input with `re ≥ 0` yields a final angle in
`[-18181, 18181]`. -/
theorem FPM_vCart2Pol_angle_accumulation (tCN : TCartNum) (tPN : TPolNum) :
    (FPM_tCordicAngleTabQ15.take FPM_CORDIC_ITERATIONS).sum = 18181 ∧
    (∀ k, k < FPM_CORDIC_ITERATIONS →
      -18181 ≤ (cordicLoop k 0 { tCartNum := (preRotate tCN).1, siAngle := 0 }).siAngle ∧
      (cordicLoop k 0 { tCartNum := (preRotate tCN).1, siAngle := 0 }).siAngle ≤ 18181 ∧
      ((cordicLoop (k + 1) 0 { tCartNum := (preRotate tCN).1, siAngle := 0 }).siAngle
          = (cordicLoop k 0 { tCartNum := (preRotate tCN).1, siAngle := 0 }).siAngle
            + FPM_tCordicAngleTabQ15.getD k 0 ∨
        (cordicLoop (k + 1) 0 { tCartNum := (preRotate tCN).1, siAngle := 0 }).siAngle
          = (cordicLoop k 0 { tCartNum := (preRotate tCN).1, siAngle := 0 }).siAngle
            - FPM_tCordicAngleTabQ15.getD k 0)) ∧
    -18181 ≤ (cordicLoop FPM_CORDIC_ITERATIONS 0
      { tCartNum := (preRotate tCN).1, siAngle := 0 }).siAngle ∧
    (cordicLoop FPM_CORDIC_ITERATIONS 0
      { tCartNum := (preRotate tCN).1, siAngle := 0 }).siAngle ≤ 18181 ∧
    (0 ≤ tCN.tRe → -18181 ≤ (FPM_vCart2Pol tCN tPN).siAngle ∧
      (FPM_vCart2Pol tCN tPN).siAngle ≤ 18181) := by
  have hIt : FPM_CORDIC_ITERATIONS = 14 := rfl
  have hfin := cordicLoop_angle (preRotate tCN).1 14 (le_refl _)
  have hs14 := cordicTab_sum_le 14 (le_refl _)
  have hfin' := abs_le.mp (le_trans hfin hs14)
  refine ⟨by decide, ?_, hfin'.1, hfin'.2, ?_⟩
  · intro k hk
    rw [hIt] at hk
    have hak := cordicLoop_angle (preRotate tCN).1 k (by omega)
    have hsk := cordicTab_sum_le k (by omega)
    have hak' := abs_le.mp (le_trans hak hsk)
    refine ⟨hak'.1, hak'.2, ?_⟩
    rw [cordicLoop_succ, Nat.zero_add]
    exact (cordicStep_angle k _ hk hak).1
  · intro hre
    have hpre : (preRotate tCN).2 = 0 := by
      have hn : ¬ (tCN.tRe < 0) := by omega
      simp only [preRotate, if_neg hn]
    rw [FPM_vCart2Pol_eq]
    dsimp only
    rw [hpre, add_zero, hIt, wrap16_of_small (le_trans hfin hs14)]
    exact hfin'

/-- C38 (counterexample): the subject with the single attached observer `0`: the observer
is the head of the list and both its links are `NULL`, so an observer in the list has both
links `NULL`. Moreover, after the observers `0` and `1` are attached (list `1, 0`) and the
head `1` is detached, the new head `0` keeps the previous link `1`: `OBS_Detach` does not
update the backward link of the successor. -/
theorem OBS_list_not_well_formed :
    (createObservers (OBS_CreateSubject ⟨⟨none, 0⟩, [⟨none, none, none⟩], []⟩)
        [(0, 11)]).bind (fun s => attachObservers s [0])
      = some ⟨⟨some 0, 0⟩, [⟨none, none, some 11⟩], []⟩ ∧
    ((createObservers
        (OBS_CreateSubject ⟨⟨none, 0⟩, [⟨none, none, none⟩, ⟨none, none, none⟩], []⟩)
        [(0, 11), (1, 12)]).bind (fun s => attachObservers s [0, 1])).bind
        (fun s => OBS_Detach s 1)
      = some ⟨⟨some 0, 0⟩, [⟨none, some 1, some 11⟩, ⟨none, none, some 12⟩], []⟩ := by
  decide

/-- C38 (amended): in every state reached from `OBS_CreateSubject` by creating distinct
observers with `OBS_CreateObserver` and attaching some of them, each once, with
`OBS_Attach` (no `OBS_Detach`), the list is the attached observers, latest first, ending
in `NULL` without repetition (acyclic); the head observer's previous link is `NULL`; every
listed observer `n` with a successor satisfies `n.next.prev = n`; a created observer that
is not in the list has both links `NULL`; and a listed observer has both links `NULL`
exactly when it is the only one in the list. -/
theorem OBS_Attach_list_well_formed (s0 : ObsState) (att rest : List (Nat × Nat))
    (hnd : ((att ++ rest).map Prod.fst).Nodup)
    (hvalid : ∀ x ∈ att ++ rest, x.1 < s0.observers.length) :
    ∃ s1, (createObservers (OBS_CreateSubject s0) (att ++ rest)).bind
        (fun s => attachObservers s (att.map Prod.fst)) = some s1 ∧
      IsChain s1.observers s1.subject.pHead (att.reverse.map Prod.fst) ∧
      (att.reverse.map Prod.fst).Nodup ∧
      (∀ h, s1.subject.pHead = some h →
        ∃ o, s1.observers[h]? = some o ∧ o.p_prev = none) ∧
      (∀ n ∈ att.map Prod.fst, ∀ o m, s1.observers[n]? = some o → o.p_next = some m →
        ∃ om, s1.observers[m]? = some om ∧ om.p_prev = some n) ∧
      (∀ x ∈ rest, s1.observers[x.1]? = some ⟨none, none, some x.2⟩) ∧
      (∀ n ∈ att.map Prod.fst, ∀ o, s1.observers[n]? = some o →
        ((o.p_prev = none ∧ o.p_next = none) ↔ att.map Prod.fst = [n])) := by
  obtain ⟨sc, hc1, hc2, -, -, hc5, -⟩ :=
    createObservers_spec (att ++ rest) (OBS_CreateSubject s0) hnd hvalid
  have hhead : sc.subject.pHead = none := by
    rw [hc2]
    rfl
  rw [List.map_append, List.nodup_append] at hnd
  obtain ⟨hnda, -, hdisj⟩ := hnd
  obtain ⟨s1, ha1, ha2, ha3, ha4, ha5⟩ :=
    attachObservers_list (att.map Prod.fst) sc [] hnda List.nodup_nil
      (fun _ _ h => by cases h)
      (fun p hp => by
        obtain ⟨x, hx, rfl⟩ := List.mem_map.mp hp
        exact ⟨_, hc5 x (List.mem_append_left _ hx)⟩)
      (by rw [hhead]; rfl) trivial
  rw [List.append_nil, ← List.map_reverse] at ha2 ha3 ha4
  have hmem : ∀ n, n ∈ att.map Prod.fst → n ∈ att.reverse.map Prod.fst := by
    intro n hn
    rw [List.map_reverse]
    exact List.mem_reverse.mpr hn
  refine ⟨s1, ?_, ha2, ha4, ?_, ?_, ?_, ?_⟩
  · rw [hc1, Option.some_bind]
    exact ha1
  · intro h hh
    cases hl : att.reverse.map Prod.fst with
    | nil =>
      rw [hl] at ha2
      have : s1.subject.pHead = none := ha2
      rw [this] at hh
      cases hh
    | cons q t =>
      rw [hl] at ha2 ha3
      rw [ha2.1] at hh
      cases hh
      exact ha3.1
  · intro n hn o m ho hm
    exact IsChain_next_prev _ _ _ _ ha2 ha3 n (hmem n hn) o m ho hm
  · intro x hx
    have hxa : x.1 ∉ att.map Prod.fst := by
      intro h
      exact hdisj h (List.mem_map_of_mem Prod.fst hx)
    rw [ha5 x.1 hxa (fun h => by cases h)]
    exact hc5 x (List.mem_append_right _ hx)
  · intro n hn o ho
    rw [IsChain_both_null _ _ _ ha2 ha3 n (hmem n hn) o ho, List.map_reverse]
    constructor
    · intro h
      have := congrArg List.reverse h
      rw [List.reverse_reverse] at this
      exact this
    · intro h
      rw [h]
      rfl

/-- Witness for C38 (amended): three created observers, of which `0` and `1` are attached;
the list is `1, 0`, observer `0` points back to `1`, the head `1` has no previous link, and
the unattached observer `2` has both links `NULL`. -/
theorem OBS_Attach_list_well_formed_witness :
    ∃ s1, (createObservers
        (OBS_CreateSubject ⟨⟨some 1234, 1⟩,
          [⟨some 1234, some 1234, none⟩, ⟨some 7, none, some 5⟩, ⟨none, some 9, none⟩], []⟩)
        [(0, 11), (1, 12), (2, 13)]).bind
        (fun s => attachObservers s [0, 1]) = some s1 ∧
      IsChain s1.observers s1.subject.pHead [1, 0] ∧
      (∀ h, s1.subject.pHead = some h →
        ∃ o, s1.observers[h]? = some o ∧ o.p_prev = none) ∧
      s1.observers[2]? = some ⟨none, none, some 13⟩ := by
  obtain ⟨s1, h1, h2, -, h4, -, h6, -⟩ := OBS_Attach_list_well_formed
    ⟨⟨some 1234, 1⟩,
      [⟨some 1234, some 1234, none⟩, ⟨some 7, none, some 5⟩, ⟨none, some 9, none⟩], []⟩
    [(0, 11), (1, 12)] [(2, 13)] (by decide) (by decide)
  exact ⟨s1, h1, h2, h4, h6 (2, 13) (List.mem_singleton.mpr rfl)⟩

/-- C39: the sine table satisfies the Pythagorean identity up to its truncation error. For
every angle `Phi` (read as a 16-bit angle by the macros), `FPM_tSin` and `FPM_tCos` return
values `s` and `c` with `|s^2 + c^2 - 2^30| ≤ 2^17`, and both results lie in
`[-FPM_SIN_MAX_Q15, FPM_SIN_MAX_Q15] = [-32768, 32768]`. -/
theorem FPM_tSin_tCos_pythagoras (Phi : Int) :
    ∃ s c, FPM_tSin Phi = some s ∧ FPM_tCos Phi = some c ∧
      |s ^ 2 + c ^ 2 - 2 ^ 30| ≤ 2 ^ 17 ∧
      -FPM_SIN_MAX_Q15 ≤ s ∧ s ≤ FPM_SIN_MAX_Q15 ∧
      -FPM_SIN_MAX_Q15 ≤ c ∧ c ≤ FPM_SIN_MAX_Q15 ∧ FPM_SIN_MAX_Q15 = 32768 := by
  obtain ⟨hsi, hslt⟩ := FPM_tSin_index Phi
  have hci := FPM_tCos_index Phi
  have hidx : ((Phi + 16384) % 65536).toNat / 256 = ((Phi % 65536).toNat / 256 + 64) % 256 := by
    omega
  have hclt : ((Phi % 65536).toNat / 256 + 64) % 256 < 256 := Nat.mod_lt _ (by decide)
  obtain ⟨hp, hs1, hs2⟩ := FPM_tSineTabQ15_pythagoras _ hslt
  obtain ⟨-, hc1, hc2⟩ := FPM_tSineTabQ15_pythagoras _ hclt
  refine ⟨_, _, ?_, ?_, hp, ?_, ?_, ?_, ?_, FPM_SIN_MAX_Q15_eq⟩
  · unfold FPM_tSin
    rw [hsi]
    exact FPM_tSineTab_getElem _ hslt
  · unfold FPM_tCos
    rw [hci, hidx]
    exact FPM_tSineTab_getElem _ hclt
  · rw [FPM_SIN_MAX_Q15_eq]; exact hs1
  · rw [FPM_SIN_MAX_Q15_eq]; exact hs2
  · rw [FPM_SIN_MAX_Q15_eq]; exact hc1
  · rw [FPM_SIN_MAX_Q15_eq]; exact hc2

/-- C40: loop invariant of `FPM_ulSqrt`. After `k` of the 16 iterations (`k ≤ 16`), with
`t = n / 4^(16-k)` the top `2k` bits of the original radicand `n` and `r = ulRoot / 2`:
`ulRoot` is even, `r` is the floor square root of `t`, `ulRem = t - r*r` and
`ulRem ≤ 2*r`; `ulRoot` and `ulRem` are below `2^18`, and in the next iteration every
shift and addition on `ulRem` and `ulRoot` stays below `2^18`, so none wraps modulo
`2^32`. -/
theorem FPM_ulSqrt_loop_invariant (n k : Nat) (hn : n < 2 ^ 32) (hk : k ≤ 16) :
    (sqrtIter k (sqrtInit n)).ulRoot % 2 = 0 ∧
    (sqrtIter k (sqrtInit n)).ulRoot / 2 = Nat.sqrt (n / 4 ^ (16 - k)) ∧
    (sqrtIter k (sqrtInit n)).ulRoot / 2 * ((sqrtIter k (sqrtInit n)).ulRoot / 2)
      + (sqrtIter k (sqrtInit n)).ulRem = n / 4 ^ (16 - k) ∧
    (sqrtIter k (sqrtInit n)).ulRem ≤ 2 * ((sqrtIter k (sqrtInit n)).ulRoot / 2) ∧
    (sqrtIter k (sqrtInit n)).ulRoot < 2 ^ 18 ∧
    (sqrtIter k (sqrtInit n)).ulRem < 2 ^ 18 ∧
    (k < 16 →
      ((sqrtIter k (sqrtInit n)).ulRoot <<< 1) + 1 + 1 < 2 ^ 18 ∧
      ((sqrtIter k (sqrtInit n)).ulRem <<< 2)
        + ((sqrtIter k (sqrtInit n)).ulRadicand >>> 30) < 2 ^ 18) := by
  obtain ⟨r, hroot, hsum, hrem, hrad⟩ := SqrtInv_iter n hn k hk
  generalize sqrtIter k (sqrtInit n) = s at *
  have hr2 : s.ulRoot / 2 = r := by omega
  have ht : n / 4 ^ (16 - k) < 2 ^ 32 := lt_of_le_of_lt (Nat.div_le_self _ _) hn
  have hr : r < 65536 := by
    by_contra hc
    have h1 : 65536 ≤ r := Nat.le_of_not_lt hc
    have h2 : 65536 * 65536 ≤ r * r := Nat.mul_le_mul h1 h1
    omega
  rw [hr2]
  refine ⟨by omega, ?_, hsum, hrem, by omega, by omega, ?_⟩
  · refine Nat.eq_sqrt.mpr ⟨by omega, ?_⟩
    have e : (r + 1) * (r + 1) = r * r + 2 * r + 1 := by ring
    omega
  · intro hk16
    have hpow : 4 ≤ 4 ^ (16 - k) := by
      calc 4 = 4 ^ 1 := by norm_num
        _ ≤ 4 ^ (16 - k) := Nat.pow_le_pow_right (by decide) (by omega)
    have ht2 : n / 4 ^ (16 - k) ≤ n / 4 := Nat.div_le_div_left hpow (by decide)
    have hr15 : r < 32768 := by
      by_contra hc
      have h1 : 32768 ≤ r := Nat.le_of_not_lt hc
      have h2 : 32768 * 32768 ≤ r * r := Nat.mul_le_mul h1 h1
      omega
    have hd : s.ulRadicand >>> 30 < 4 := by
      rw [Nat.shiftRight_eq_div_pow, hrad]
      have := Nat.mod_lt (n * 4 ^ k) (show 0 < 2 ^ 32 by decide)
      omega
    rw [Nat.shiftLeft_eq, Nat.shiftLeft_eq, hroot]
    constructor <;> omega

/-- Witness for C40 at the radicand `1000000` after `7` iterations. -/
theorem FPM_ulSqrt_loop_invariant_witness :
    (sqrtIter 7 (sqrtInit 1000000)).ulRoot % 2 = 0 ∧
    (sqrtIter 7 (sqrtInit 1000000)).ulRoot / 2 = Nat.sqrt (1000000 / 4 ^ (16 - 7)) ∧
    (sqrtIter 7 (sqrtInit 1000000)).ulRoot / 2 * ((sqrtIter 7 (sqrtInit 1000000)).ulRoot / 2)
      + (sqrtIter 7 (sqrtInit 1000000)).ulRem = 1000000 / 4 ^ (16 - 7) ∧
    (sqrtIter 7 (sqrtInit 1000000)).ulRem ≤ 2 * ((sqrtIter 7 (sqrtInit 1000000)).ulRoot / 2) ∧
    (sqrtIter 7 (sqrtInit 1000000)).ulRoot < 2 ^ 18 ∧
    (sqrtIter 7 (sqrtInit 1000000)).ulRem < 2 ^ 18 ∧
    (7 < 16 →
      ((sqrtIter 7 (sqrtInit 1000000)).ulRoot <<< 1) + 1 + 1 < 2 ^ 18 ∧
      ((sqrtIter 7 (sqrtInit 1000000)).ulRem <<< 2)
        + ((sqrtIter 7 (sqrtInit 1000000)).ulRadicand >>> 30) < 2 ^ 18) :=
  FPM_ulSqrt_loop_invariant 1000000 7 (by decide) (by decide)

end FpMath
